import Mathlib

/-!
Verification of the foxlight component-intelligence core: shallow embedding of
the component registry, cross-referencer, dependency graph (cycle detection and
Kahn topological sort), snapshot diff engine, and dead-code detector, together
with proofs about the specified invariants.

JavaScript `Map`s are embedded as association lists in insertion order with
unique keys (maintained by `alSet`), JS `Set`s as duplicate-free lists in
insertion order (maintained by `listSetAdd`), JS numbers used for sizes and
scores as `Int`, and recursive/looping code as fuel-indexed functions whose
fuel is provably sufficient for the executions the theorems talk about.
-/

-- ============================================================
-- Association-list / set helpers (JS Map and Set semantics)
-- ============================================================

/-- Lookup in an association list (JS `Map.get`; keys are unique by
construction, so first match is the match). -/
def alGet {α : Type} (m : List (String × α)) (k : String) : Option α :=
  match m.find? (fun p => p.1 = k) with
  | some p => some p.2
  | none => none

/-- JS `Map.set`: replace the value at an existing key in place, otherwise
append a new entry. -/
def alSet {α : Type} (m : List (String × α)) (k : String) (v : α) :
    List (String × α) :=
  if m.any (fun p => p.1 = k) then
    m.map (fun p => if p.1 = k then (k, v) else p)
  else
    m ++ [(k, v)]

/-- JS `Set.add`: append if not already a member. -/
def listSetAdd (s : List String) (x : String) : List String :=
  if x ∈ s then s else s ++ [x]

/-- Replace the element at an index by applying `f` (in-place array/object
mutation at a known position). -/
def updateAt {α : Type} : List α → Nat → (α → α) → List α
  | [], _, _ => []
  | a :: t, 0, f => f a :: t
  | a :: t, n + 1, f => a :: updateAt t n f

-- ============================================================
-- Data model (packages/core/src/types.ts)
-- ============================================================

/-- `PropInfo` from types.ts. -/
structure PropInfo where
  name : String
  type : String
  required : Bool
  defaultValue : Option String
  description : Option String
  deriving Repr, DecidableEq

/-- `ComponentInfo` from types.ts. `framework`/`exportKind` are string unions
in the source; `metadata` is an opaque string-keyed record never inspected by
the core, embedded as an association list. -/
structure ComponentInfo where
  id : String
  name : String
  filePath : String
  line : Nat
  framework : String
  exportKind : String
  props : List PropInfo
  children : List String
  usedBy : List String
  dependencies : List String
  metadata : List (String × String)
  deriving Repr, DecidableEq

/-- `ImportSpecifier` from types.ts. -/
structure ImportSpecifier where
  imported : String
  local_ : String
  deriving Repr, DecidableEq

/-- `ImportEdge` from types.ts. -/
structure ImportEdge where
  source : String
  target : String
  specifiers : List ImportSpecifier
  typeOnly : Bool
  deriving Repr, DecidableEq

/-- `SizeInfo` from types.ts (byte counts; `brotli` optional). -/
structure SizeInfo where
  raw : Int
  gzip : Int
  brotli : Option Int
  deriving Repr, DecidableEq

/-- `ComponentBundleInfo` from types.ts. -/
structure ComponentBundleInfo where
  componentId : String
  selfSize : SizeInfo
  exclusiveSize : SizeInfo
  totalSize : SizeInfo
  chunks : List String
  deriving Repr, DecidableEq

/-- `MetricScore` from types.ts (`level` is a string union). -/
structure MetricScore where
  score : Int
  value : String
  label : String
  level : String
  deriving Repr, DecidableEq

/-- `HealthMetrics` from types.ts. -/
structure HealthMetrics where
  bundleSize : MetricScore
  testCoverage : MetricScore
  accessibility : MetricScore
  freshness : MetricScore
  performance : MetricScore
  reliability : MetricScore
  deriving Repr, DecidableEq

/-- `ComponentHealth` from types.ts. -/
structure ComponentHealth where
  componentId : String
  score : Int
  metrics : HealthMetrics
  computedAt : String
  deriving Repr, DecidableEq

/-- `ProjectSnapshot` from types.ts. -/
structure ProjectSnapshot where
  id : String
  commitSha : String
  branch : String
  createdAt : String
  components : List ComponentInfo
  imports : List ImportEdge
  bundleInfo : List ComponentBundleInfo
  health : List ComponentHealth
  deriving Repr, DecidableEq

/-- The `{id, commitSha}` descriptor stored on `SnapshotDiff.base/head`. -/
structure SnapshotIdRef where
  id : String
  commitSha : String
  deriving Repr, DecidableEq

/-- `ComponentModification` from types.ts. -/
structure ComponentModification where
  componentId : String
  changes : List String
  propsAdded : List String
  propsRemoved : List String
  propsModified : List String
  deriving Repr, DecidableEq

/-- `BundleDiffEntry` from types.ts. -/
structure BundleDiffEntry where
  componentId : String
  before : SizeInfo
  after : SizeInfo
  delta : SizeInfo
  deriving Repr, DecidableEq

/-- `HealthDiffEntry` from types.ts. -/
structure HealthDiffEntry where
  componentId : String
  beforeScore : Int
  afterScore : Int
  delta : Int
  deriving Repr, DecidableEq

/-- `SnapshotDiff` from types.ts. -/
structure SnapshotDiff where
  base : SnapshotIdRef
  head : SnapshotIdRef
  added : List ComponentInfo
  removed : List ComponentInfo
  modified : List ComponentModification
  bundleDiff : List BundleDiffEntry
  healthDiff : List HealthDiffEntry
  deriving Repr, DecidableEq

-- ============================================================
-- Dependency graph (dependency-graph.ts)
-- ============================================================

/-- `GraphNode` from dependency-graph.ts: `outgoing`/`incoming` are JS `Set`s,
embedded as duplicate-free lists in insertion order. -/
structure GraphNode where
  id : String
  outgoing : List String
  incoming : List String
  deriving Repr, DecidableEq

/-- `DependencyGraph`: `nodes` is a JS `Map` in insertion order. -/
structure DependencyGraph where
  nodes : List (String × GraphNode)
  deriving Repr, DecidableEq

/-- `ensureNode`: create the node on first reference. -/
def DependencyGraph.ensureNode (g : DependencyGraph) (id : String) :
    DependencyGraph :=
  if (alGet g.nodes id).isSome then g
  else { nodes := g.nodes ++ [(id, { id := id, outgoing := [], incoming := [] })] }

/-- `addEdge(source, target)`. -/
def DependencyGraph.addEdge (g : DependencyGraph) (s t : String) :
    DependencyGraph :=
  let g := (g.ensureNode s).ensureNode t
  let g : DependencyGraph :=
    { nodes := g.nodes.map (fun p =>
        if p.1 = s then (p.1, { p.2 with outgoing := listSetAdd p.2.outgoing t })
        else p) }
  { nodes := g.nodes.map (fun p =>
      if p.1 = t then (p.1, { p.2 with incoming := listSetAdd p.2.incoming s })
      else p) }

/-- `DependencyGraph.fromImports`. -/
def DependencyGraph.fromImports (edges : List ImportEdge) : DependencyGraph :=
  edges.foldl (fun g e => g.addEdge e.source e.target) { nodes := [] }

/-- `getDependencies`. -/
def DependencyGraph.getDependencies (g : DependencyGraph) (id : String) :
    List String :=
  match alGet g.nodes id with
  | some n => n.outgoing
  | none => []

/-- `getDependents`. -/
def DependencyGraph.getDependents (g : DependencyGraph) (id : String) :
    List String :=
  match alGet g.nodes id with
  | some n => n.incoming
  | none => []

/-- `getAllNodes`. -/
def DependencyGraph.getAllNodes (g : DependencyGraph) : List String :=
  g.nodes.map Prod.fst

/-- `nodeCount`. -/
def DependencyGraph.nodeCount (g : DependencyGraph) : Nat :=
  g.nodes.length

/-- `edgeCount`: sum of the outgoing-set sizes. -/
def DependencyGraph.edgeCount (g : DependencyGraph) : Nat :=
  g.nodes.foldl (fun count p => count + p.2.outgoing.length) 0

/-- State of the `detectCycles` depth-first search: `visited`/`inStack` are JS
`Set`s, `stack` the explicit path stack, `cycles` the output accumulator. -/
structure DfsState where
  visited : List String
  inStack : List String
  stack : List String
  cycles : List (List String)
  deriving Repr, DecidableEq

/-- The recursive `dfs` closure inside `detectCycles`, made total with a fuel
argument; fuel `nodeCount + 1` dominates the recursion depth, which is bounded
by the stack (see `dfsF_fuel_irrelevant`-style lemmas below). -/
def dfsF (g : DependencyGraph) : Nat → String → DfsState → DfsState
  | 0, _, s => s
  | fuel + 1, nodeId, s =>
    if nodeId ∈ s.inStack then
      -- found a cycle: slice the stack from the node's first occurrence
      if nodeId ∈ s.stack then
        { s with cycles :=
            s.cycles ++ [s.stack.drop (s.stack.indexOf nodeId) ++ [nodeId]] }
      else s
    else if nodeId ∈ s.visited then s
    else
      let s1 : DfsState :=
        { s with
          visited := s.visited ++ [nodeId]
          inStack := s.inStack ++ [nodeId]
          stack := s.stack ++ [nodeId] }
      let s2 :=
        match alGet g.nodes nodeId with
        | some node => node.outgoing.foldl (fun st dep => dfsF g fuel dep st) s1
        | none => s1
      { s2 with stack := s2.stack.dropLast, inStack := s2.inStack.erase nodeId }

/-- `detectCycles`: run the DFS from every not-yet-visited node in insertion
order. -/
def DependencyGraph.detectCycles (g : DependencyGraph) : List (List String) :=
  ((g.nodes.map Prod.fst).foldl
    (fun s nodeId =>
      if nodeId ∈ s.visited then s else dfsF g (g.nodes.length + 1) nodeId s)
    { visited := [], inStack := [], stack := [], cycles := [] }).cycles

/-- The body of one step over `node.outgoing` in Kahn's algorithm: decrement
the in-degree of `dep` (defaulting a missing entry to 1) and enqueue it when
the new degree is zero. -/
def kahnRelax (p : List (String × Int) × List String) (dep : String) :
    List (String × Int) × List String :=
  let d := ((alGet p.1 dep).getD 1) - 1
  (alSet p.1 dep d, if d = 0 then p.2 ++ [dep] else p.2)

/-- The `while (queue.length > 0)` loop of `topologicalSort`, fuel-indexed;
each iteration pops the queue head, appends it to the result, and relaxes its
outgoing edges. -/
def kahnLoop (g : DependencyGraph) :
    Nat → List String → List (String × Int) → List String → List String
  | 0, _, _, result => result
  | fuel + 1, queue, inDeg, result =>
    match queue with
    | [] => result
    | current :: rest =>
      let result2 := result ++ [current]
      match alGet g.nodes current with
      | none => kahnLoop g fuel rest inDeg result2
      | some node =>
        let p := node.outgoing.foldl kahnRelax (inDeg, rest)
        kahnLoop g fuel p.2 p.1 result2

/-- `topologicalSort`: Kahn's algorithm over precomputed in-degrees; `none`
when the result misses nodes (a cycle exists). Fuel `nodeCount + 1` bounds the
loop because every iteration either empties the queue or appends a fresh node
to the result. -/
def DependencyGraph.topologicalSort (g : DependencyGraph) :
    Option (List String) :=
  let inDeg : List (String × Int) :=
    g.nodes.map (fun p => (p.1, (p.2.incoming.length : Int)))
  let queue := (inDeg.filter (fun p => p.2 = 0)).map Prod.fst
  let result := kahnLoop g (g.nodes.length + 1) queue inDeg []
  if result.length = g.nodes.length then some result else none

-- ============================================================
-- Cross-referencer (analyzer component-detector,
-- crossReferenceComponents)
-- ============================================================

/-- The `byName` index of `crossReferenceComponents`: a JS `Map` built by
`byName.set(comp.name, comp)` over the list, so on a name collision the last
occurrence overwrites earlier ones. Object references are embedded as list
positions. -/
def buildByName (components : List ComponentInfo) : List (String × Nat) :=
  components.enum.foldl (fun m p => alSet m p.2.name p.1) []

/-- The inner loop of phase 1: walk one component's `children` names, and for
each name resolved by the index append `cid` (the walking component's id) to
the target's `usedBy` unless already present. -/
def crossRefChildren (byName : List (String × Nat)) (cid : String)
    (st : List ComponentInfo) (children : List String) :
    List ComponentInfo :=
  children.foldl
    (fun st childName =>
      match alGet byName childName with
      | none => st
      | some j =>
        updateAt st j (fun child =>
          if cid ∈ child.usedBy then child
          else { child with usedBy := child.usedBy ++ [cid] }))
    st

/-- The outer loop of phase 1 over the component positions. The evolving list
models the in-place mutation of the shared component objects. -/
def crossRefPhase1Aux (byName : List (String × Nat)) (idxs : List Nat)
    (st : List ComponentInfo) : List ComponentInfo :=
  idxs.foldl
    (fun st i =>
      match st.get? i with
      | none => st
      | some comp => crossRefChildren byName comp.id st comp.children)
    st

/-- Phase 1 of `crossReferenceComponents`: for every component, resolve each
child name through the index and append the component's id to the target's
`usedBy` unless already present. -/
def crossRefPhase1 (byName : List (String × Nat))
    (components : List ComponentInfo) : List ComponentInfo :=
  crossRefPhase1Aux byName (List.range components.length) components

/-- Phase 2: rewrite each `children` entry to the indexed component's id,
falling back to the original name (`?? name`), then drop falsy entries
(`filter(Boolean)` keeps exactly the non-empty strings). The id is read off
the object stored in the index, i.e. the original list (ids are never
mutated). -/
def crossRefPhase2 (byName : List (String × Nat))
    (original : List ComponentInfo) (components : List ComponentInfo) :
    List ComponentInfo :=
  components.map (fun comp =>
    { comp with children :=
        (comp.children.map (fun nm =>
          match alGet byName nm with
          | some j =>
            match original.get? j with
            | some c => c.id
            | none => nm
          | none => nm)).filter (fun s => s ≠ "") })

/-- `crossReferenceComponents` from the analyzer's component detector. -/
def crossReferenceComponents (components : List ComponentInfo) :
    List ComponentInfo :=
  let byName := buildByName components
  crossRefPhase2 byName components (crossRefPhase1 byName components)

-- ============================================================
-- Component registry (registry.ts)
-- ============================================================

/-- The registry's component store: a JS `Map` keyed by component id
(`components.set(component.id, component)`), plus the import list and the
bundle/health maps. -/
structure ComponentRegistry where
  components : List (String × ComponentInfo)
  imports : List ImportEdge
  bundleInfo : List (String × ComponentBundleInfo)
  health : List (String × ComponentHealth)
  deriving Repr, DecidableEq

/-- `addComponent`: upsert by id. -/
def ComponentRegistry.addComponent (r : ComponentRegistry)
    (c : ComponentInfo) : ComponentRegistry :=
  { r with components := alSet r.components c.id c }

/-- `getComponent`. -/
def ComponentRegistry.getComponent (r : ComponentRegistry) (id : String) :
    Option ComponentInfo :=
  alGet r.components id

/-- `getAllComponents`: `Array.from(this.components.values())`. -/
def ComponentRegistry.getAllComponents (r : ComponentRegistry) :
    List ComponentInfo :=
  r.components.map (fun p => p.2)

/-- The BFS loop of `getSubtree`, fuel-indexed. Every iteration pops the queue
head; a fresh id is recorded in `visited`, its component (when present) is
appended to the result, and its unvisited children are enqueued. -/
def subtreeLoop (r : ComponentRegistry) :
    Nat → List String → List String → List ComponentInfo → List ComponentInfo
  | 0, _, _, result => result
  | fuel + 1, queue, visited, result =>
    match queue with
    | [] => result
    | currentId :: rest =>
      if currentId ∈ visited then subtreeLoop r fuel rest visited result
      else
        let visited2 := visited ++ [currentId]
        match alGet r.components currentId with
        | none => subtreeLoop r fuel rest visited2 result
        | some component =>
          subtreeLoop r fuel
            (rest ++ component.children.filter (fun c => c ∉ visited2))
            visited2 (result ++ [component])

/-- Fuel bound for `getSubtree`: one initial enqueue plus at most one push per
child edge stored in the registry. -/
def subtreeFuel (r : ComponentRegistry) : Nat :=
  1 + r.components.foldl (fun a p => a + p.2.children.length) 0

/-- `getSubtree(id)`: BFS over `children` with an explicit visited set. -/
def ComponentRegistry.getSubtree (r : ComponentRegistry) (id : String) :
    List ComponentInfo :=
  subtreeLoop r (subtreeFuel r) [id] [] []

-- ============================================================
-- Snapshot diff engine (registry.ts: static diff / diffComponent)
-- ============================================================

/-- `diffComponent`: the prop names added in `head` (`propsAdded`). -/
def diffPropsAdded (base head : ComponentInfo) : List String :=
  (head.props.filter
    (fun p => p.name ∉ base.props.map (fun q => q.name))).map (fun p => p.name)

/-- `diffComponent`: the prop names removed in `head` (`propsRemoved`). -/
def diffPropsRemoved (base head : ComponentInfo) : List String :=
  (base.props.filter
    (fun p => p.name ∉ head.props.map (fun q => q.name))).map (fun p => p.name)

/-- `diffComponent`: prop names present in both whose `type` or `required`
differs; the base prop is found by first match on name. -/
def diffPropsModified (base head : ComponentInfo) : List String :=
  head.props.foldl
    (fun acc headProp =>
      if headProp.name ∈ base.props.map (fun q => q.name) then
        match base.props.find? (fun p => p.name = headProp.name) with
        | some baseProp =>
          if baseProp.type ≠ headProp.type ∨
              baseProp.required ≠ headProp.required then
            acc ++ [headProp.name]
          else acc
        | none => acc
      else acc)
    []

/-- `diffComponent`: the coarse count/framework change notes, in push order. -/
def diffChanges (base head : ComponentInfo) : List String :=
  (if base.children.length ≠ head.children.length
    then ["children changed"] else []) ++
  (if base.dependencies.length ≠ head.dependencies.length
    then ["dependencies changed"] else []) ++
  (if base.framework ≠ head.framework
    then ["framework changed: " ++ base.framework ++ " → " ++ head.framework]
    else [])

/-- `diffComponent(base, head)`: `null` when nothing differs (`hasChanges`
guard), otherwise the assembled `ComponentModification`. -/
def diffComponent (base head : ComponentInfo) : Option ComponentModification :=
  if diffPropsAdded base head ≠ [] ∨ diffPropsRemoved base head ≠ [] ∨
      diffPropsModified base head ≠ [] ∨ diffChanges base head ≠ [] then
    some
      { componentId := head.id
        changes := diffChanges base head
        propsAdded := diffPropsAdded base head
        propsRemoved := diffPropsRemoved base head
        propsModified := diffPropsModified base head }
  else none

/-- `diff`: head components whose id is absent from base's id set. -/
def diffAdded (base head : ProjectSnapshot) : List ComponentInfo :=
  head.components.filter
    (fun c => c.id ∉ base.components.map (fun b => b.id))

/-- `diff`: base components whose id is absent from head's id set. -/
def diffRemoved (base head : ProjectSnapshot) : List ComponentInfo :=
  base.components.filter
    (fun c => c.id ∉ head.components.map (fun b => b.id))

/-- `diff`: the `modified` list — for every head component whose id is also in
base, `diffComponent` against the first base component with that id, pushing
non-null results. -/
def diffModified (base head : ProjectSnapshot) : List ComponentModification :=
  head.components.foldl
    (fun acc headComp =>
      if headComp.id ∈ base.components.map (fun b => b.id) then
        match base.components.find? (fun c => c.id = headComp.id) with
        | some baseComp =>
          match diffComponent baseComp headComp with
          | some m => acc ++ [m]
          | none => acc
        | none => acc
      else acc)
    []

/-- `diff`: the `Map` over head's bundle info (last entry per componentId
wins, as the JS `Map` constructor does). -/
def headBundleMap (head : ProjectSnapshot) :
    List (String × ComponentBundleInfo) :=
  head.bundleInfo.foldl (fun m b => alSet m b.componentId b) []

/-- `diff`: the `bundleDiff` entries over components with bundle info in both
snapshots, with `selfSize` deltas (raw and gzip). -/
def diffBundle (base head : ProjectSnapshot) : List BundleDiffEntry :=
  base.bundleInfo.foldl
    (fun acc baseBi =>
      match alGet (headBundleMap head) baseBi.componentId with
      | none => acc
      | some headBi =>
        acc ++ [{ componentId := baseBi.componentId
                  before := baseBi.selfSize
                  after := headBi.selfSize
                  delta :=
                    { raw := headBi.selfSize.raw - baseBi.selfSize.raw
                      gzip := headBi.selfSize.gzip - baseBi.selfSize.gzip
                      brotli := none } }])
    []

/-- `diff`: the `Map` over head's health entries. -/
def headHealthMap (head : ProjectSnapshot) :
    List (String × ComponentHealth) :=
  head.health.foldl (fun m h => alSet m h.componentId h) []

/-- `diff`: the `healthDiff` entries over components with health in both
snapshots, with score deltas. -/
def diffHealth (base head : ProjectSnapshot) : List HealthDiffEntry :=
  base.health.foldl
    (fun acc baseH =>
      match alGet (headHealthMap head) baseH.componentId with
      | none => acc
      | some headH =>
        acc ++ [{ componentId := baseH.componentId
                  beforeScore := baseH.score
                  afterScore := headH.score
                  delta := headH.score - baseH.score }])
    []

/-- `ComponentRegistry.diff(base, head)` (static). -/
def ComponentRegistry.diff (base head : ProjectSnapshot) : SnapshotDiff :=
  { base := { id := base.id, commitSha := base.commitSha }
    head := { id := head.id, commitSha := head.commitSha }
    added := diffAdded base head
    removed := diffRemoved base head
    modified := diffModified base head
    bundleDiff := diffBundle base head
    healthDiff := diffHealth base head }

-- ============================================================
-- Dead-code detector (dead-code-detector.ts)
-- ============================================================

/-- The recursive helper `isComponentUsed(component, registry)`: walks `usedBy`
chains with no cycle guard. Fuel-indexed; `none` means the recursion did not
bottom out within the given depth, so `∀ fuel, … = none` states that the
source recursion never terminates. -/
def isComponentUsedF (reg : List (String × ComponentInfo)) :
    Nat → ComponentInfo → Option Bool
  | 0, _ => none
  | fuel + 1, component =>
    if component.usedBy.length = 0 then some false
    else
      component.usedBy.foldl
        (fun acc consumerId =>
          match acc with
          | none => none
          | some true => some true
          | some false =>
            match alGet reg consumerId with
            | none => some false
            | some consumer => isComponentUsedF reg fuel consumer)
        (some false)

-- ============================================================
-- Heap model for snapshot aliasing (createSnapshot)
-- ============================================================

/-- A heap of component objects: a cell index is a JS object reference.
`createSnapshot` copies arrays of references, not the objects, so snapshot and
registry share cells. -/
abbrev ComponentHeap := List ComponentInfo

/-- Registry whose component map stores references into the heap (the other
three collections are value-like for this claim). -/
structure RegistryRefs where
  components : List (String × Nat)
  imports : List ImportEdge
  bundleInfo : List (String × ComponentBundleInfo)
  health : List (String × ComponentHealth)
  deriving Repr, DecidableEq

/-- A `ProjectSnapshot` as produced by `createSnapshot`: fresh top-level
arrays, but `components` holds the same object references as the registry. -/
structure SnapshotRefs where
  id : String
  commitSha : String
  branch : String
  createdAt : String
  components : List Nat
  imports : List ImportEdge
  bundleInfo : List ComponentBundleInfo
  health : List ComponentHealth
  deriving Repr, DecidableEq

/-- `createSnapshot(commitSha, branch)`: id `"snap_" + Date.now() + "_" +
commitSha.slice(0, 8)`; `Array.from` produces fresh arrays whose elements are
the stored references. -/
def RegistryRefs.createSnapshot (r : RegistryRefs) (commitSha branch : String)
    (now : Nat) (createdAt : String) : SnapshotRefs :=
  { id := "snap_" ++ toString now ++ "_" ++ commitSha.take 8
    commitSha := commitSha
    branch := branch
    createdAt := createdAt
    components := r.components.map (fun p => p.2)
    imports := r.imports
    bundleInfo := r.bundleInfo.map (fun p => p.2)
    health := r.health.map (fun p => p.2) }

/-- Dereference a snapshot's component references against the current heap:
what a reader of the snapshot observes. -/
def viewComponents (h : ComponentHeap) (s : SnapshotRefs) :
    List ComponentInfo :=
  s.components.filterMap (fun r => List.get? h r)

/-- `addComponent` in the heap model: the new component is a fresh object
(fresh cell); the map upserts by id. -/
def addComponentRefs (h : ComponentHeap) (r : RegistryRefs)
    (c : ComponentInfo) : ComponentHeap × RegistryRefs :=
  (h ++ [c], { r with components := alSet r.components c.id h.length })

/-- `removeComponent` in the heap model: deletes the map entry; no heap cell
is touched. -/
def removeComponentRefs (h : ComponentHeap) (r : RegistryRefs) (id : String) :
    ComponentHeap × RegistryRefs :=
  (h, { r with components := r.components.filter (fun p => p.1 ≠ id) })

/-- `addImport` in the heap model. -/
def addImportRefs (h : ComponentHeap) (r : RegistryRefs) (e : ImportEdge) :
    ComponentHeap × RegistryRefs :=
  (h, { r with imports := r.imports ++ [e] })

/-- `setBundleInfo` in the heap model. -/
def setBundleInfoRefs (h : ComponentHeap) (r : RegistryRefs)
    (b : ComponentBundleInfo) : ComponentHeap × RegistryRefs :=
  (h, { r with bundleInfo := alSet r.bundleInfo b.componentId b })

/-- `setHealth` in the heap model. -/
def setHealthRefs (h : ComponentHeap) (r : RegistryRefs)
    (hl : ComponentHealth) : ComponentHeap × RegistryRefs :=
  (h, { r with health := alSet r.health hl.componentId hl })

/-- `clear` in the heap model: empties the registry collections; heap cells
(live objects) are unaffected. -/
def clearRefs (h : ComponentHeap) (_r : RegistryRefs) :
    ComponentHeap × RegistryRefs :=
  (h, { components := [], imports := [], bundleInfo := [], health := [] })

/-- In-place mutation of a stored component object (e.g. re-running
cross-referencing rewrites `children`/`usedBy` on the shared objects): writes
through the reference into the heap. -/
def mutateComponentRefs (h : ComponentHeap) (ref : Nat)
    (f : ComponentInfo → ComponentInfo) : ComponentHeap :=
  updateAt h ref f

-- ============================================================
-- Specification-side notions used by the theorems
-- ============================================================

/-- The combined per-node update performed by `addEdge s t` on the node keyed
`k`: add `t` to `outgoing` when `k = s`, then `s` to `incoming` when
`k = t`. -/
def addEdgeNodeUpd (s t k : String) (n : GraphNode) : GraphNode :=
  let n1 := if k = s then { n with outgoing := listSetAdd n.outgoing t } else n
  if k = t then { n1 with incoming := listSetAdd n1.incoming s } else n1

/-- Membership of a directed edge `u → v` in the graph (`v` is in `u`'s
outgoing set). -/
def edgeMem (g : DependencyGraph) (u v : String) : Bool :=
  match alGet g.nodes u with
  | some n => n.outgoing.contains v
  | none => false

/-- Membership of `u` in `v`'s incoming set. -/
def revEdgeMem (g : DependencyGraph) (u v : String) : Bool :=
  match alGet g.nodes v with
  | some n => n.incoming.contains u
  | none => false

/-- `chainB g l` holds when consecutive elements of `l` are joined by edges. -/
def chainB (g : DependencyGraph) : List String → Bool
  | a :: b :: t => edgeMem g a b && chainB g (b :: t)
  | _ => true

/-- A genuine directed cycle: a nonempty edge-chain whose first and last
vertices coincide. -/
def IsCycleList (g : DependencyGraph) (c : List String) : Prop :=
  2 ≤ c.length ∧ c.head? = c.getLast? ∧ chainB g c = true

/-- The graph has a directed cycle. -/
def HasCycle (g : DependencyGraph) : Prop :=
  ∃ c, IsCycleList g c

/-- Well-formedness of a `DependencyGraph`, established by any sequence of
`addEdge` calls: unique keys, node ids matching keys, duplicate-free adjacency
sets closed over the key set, and outgoing/incoming duality. -/
def WFg (g : DependencyGraph) : Prop :=
  (g.getAllNodes).Nodup ∧
  (∀ p ∈ g.nodes, p.2.id = p.1 ∧ p.2.outgoing.Nodup ∧ p.2.incoming.Nodup ∧
    (∀ t ∈ p.2.outgoing, t ∈ g.getAllNodes) ∧
    (∀ s ∈ p.2.incoming, s ∈ g.getAllNodes)) ∧
  (∀ u v, edgeMem g u v = true ↔ revEdgeMem g u v = true)

/-- Invariant of Kahn's loop relating the queue, the in-degree map and the
emitted order `R`. -/
def KahnInv (g : DependencyGraph) (queue : List String)
    (inDeg : List (String × Int)) (R : List String) : Prop :=
  (R ++ queue).Nodup ∧
  (∀ x ∈ R ++ queue, x ∈ g.getAllNodes) ∧
  inDeg.map Prod.fst = g.getAllNodes ∧
  (∀ k n, alGet g.nodes k = some n →
    alGet inDeg k =
      some ((n.incoming.length : Int)
        - ((n.incoming.filter (fun x => x ∈ R)).length : Int))) ∧
  (∀ x ∈ queue, ∀ n, alGet g.nodes x = some n → ∀ u ∈ n.incoming, u ∈ R) ∧
  (∀ k, k ∈ g.getAllNodes → alGet inDeg k = some 0 → k ∈ R ∨ k ∈ queue) ∧
  (∀ v n, v ∈ R → alGet g.nodes v = some n →
    ∀ u ∈ n.incoming, u ∈ R ∧ R.indexOf u < R.indexOf v)

/-- Reverse-topological order certificate produced by a completed,
cycle-free DFS: every edge goes to a strictly earlier position. -/
def blackOrd (g : DependencyGraph) (bl : List String) : Prop :=
  bl.Nodup ∧
  ∀ u v, edgeMem g u v = true → u ∈ bl → v ∈ bl ∧ bl.indexOf v < bl.indexOf u

/-- Every recorded cycle is a genuine directed cycle. -/
def cyclesSound (g : DependencyGraph) (cs : List (List String)) : Prop :=
  ∀ c ∈ cs, IsCycleList g c

/-- Well-formedness of the registry's component map: unique keys and each
stored component keyed by its own id (as `addComponent` guarantees). -/
def WFreg (r : ComponentRegistry) : Prop :=
  (r.components.map Prod.fst).Nodup ∧ ∀ p ∈ r.components, p.2.id = p.1

/-- Ids reachable from `root` by following `children` edges of components
present in the registry. -/
inductive ReachableFrom (r : ComponentRegistry) (root : String) :
    String → Prop where
  | root : ReachableFrom r root root
  | step {x y : String} {c : ComponentInfo} :
      ReachableFrom r root x → alGet r.components x = some c →
      y ∈ c.children → ReachableFrom r root y

/-- A component with its `usedBy` cleared: phase 1 of cross-referencing
changes nothing else. -/
def stripUsedBy (c : ComponentInfo) : ComponentInfo := { c with usedBy := [] }

/-- `x` occurs in the `usedBy` array of the component at position `k`. -/
def memUsedBy (st : List ComponentInfo) (k : Nat) (x : String) : Prop :=
  ∃ c, st.get? k = some c ∧ x ∈ c.usedBy

/-- Shorthand for building concrete `ComponentInfo` values in the
counterexamples and witnesses. -/
def mkComp (id name : String) (children usedBy : List String) : ComponentInfo :=
  { id := id, name := name, filePath := "", line := 0, framework := "react"
    exportKind := "named", props := [], children := children, usedBy := usedBy
    dependencies := [], metadata := [] }

/-- A two-component registry whose `usedBy` references form a cycle
(`a` is used by `b` and `b` is used by `a`). -/
def cyclicUsageReg : List (String × ComponentInfo) :=
  [("a", mkComp "a" "A" [] ["b"]), ("b", mkComp "b" "B" [] ["a"])]

/-- A graph built by a finite sequence of `addEdge` calls starting from the
empty graph (the shape produced by the program's constructors). -/
def buildGraph (ps : List (String × String)) : DependencyGraph :=
  ps.foldl (fun g p => g.addEdge p.1 p.2) { nodes := [] }

/-- The multiset of directed edges of the graph, read off the outgoing
adjacency sets in insertion order. -/
def graphEdges (g : DependencyGraph) : List (String × String) :=
  g.nodes.flatMap (fun p => p.2.outgoing.map (fun t => (p.1, t)))

/-- Structural invariant of every `DfsState` reachable in `detectCycles`:
`inStack` mirrors the explicit `stack`, is duplicate-free, and
`inStack ⊆ visited ⊆` node keys. -/
def DfsInv (g : DependencyGraph) (s : DfsState) : Prop :=
  s.inStack = s.stack ∧ s.inStack.Nodup ∧
  (∀ y ∈ s.inStack, y ∈ s.visited) ∧
  (∀ y ∈ s.visited, y ∈ g.getAllNodes)

/-- Certificate carried through the cycle-free runs of the DFS: `bl` lists
the black (finished) nodes — visited and off the stack — in finish order,
and every edge out of a black node lands strictly earlier in `bl`. -/
def blackInv (g : DependencyGraph) (s : DfsState) (bl : List String) : Prop :=
  (∀ y, y ∈ bl ↔ (y ∈ s.visited ∧ y ∉ s.inStack)) ∧ blackOrd g bl

/-- Pre-condition of a `dfs(x)` call: the stack is empty (outer loop) or its
top has an edge to `x` (recursive call on an outgoing dependency). -/
def dfsEntry (g : DependencyGraph) (x : String) (s : DfsState) : Prop :=
  s.stack = [] ∨ ∃ ls, s.stack.getLast? = some ls ∧ edgeMem g ls x = true

/-- The initial in-degree map of `topologicalSort` (one entry per node,
keyed in insertion order, value `incoming.size`). -/
def kahnInDeg0 (g : DependencyGraph) : List (String × Int) :=
  g.nodes.map (fun p => (p.1, (p.2.incoming.length : Int)))

/-- The initial queue of `topologicalSort`: all nodes of in-degree zero, in
insertion order. -/
def kahnQueue0 (g : DependencyGraph) : List String :=
  ((kahnInDeg0 g).filter (fun p => p.2 = 0)).map Prod.fst

-- ============================================================
-- Shared lemmas about the JS Map/Set embedding
-- ============================================================

theorem alGet_eq_none {α : Type} {m : List (String × α)} {k : String} :
    alGet m k = none ↔ ∀ p ∈ m, p.1 ≠ k := by
  unfold alGet
  cases h : m.find? (fun p => p.1 = k) with
  | some p => simp only [reduceCtorEq, false_iff]
              intro hall
              exact hall p (List.mem_of_find?_eq_some h)
                (by simpa using List.find?_some h)
  | none => simp only [true_iff]
            intro p hp
            have := List.find?_eq_none.mp h p hp
            simpa using this

theorem alGet_isSome_iff_mem_keys {α : Type} {m : List (String × α)}
    {k : String} : (alGet m k).isSome = true ↔ k ∈ m.map Prod.fst := by
  constructor
  · intro h
    unfold alGet at h
    cases hf : m.find? (fun p => p.1 = k) with
    | none => rw [hf] at h; simp at h
    | some p =>
      have hm := List.mem_of_find?_eq_some hf
      have hk : p.1 = k := by simpa using List.find?_some hf
      exact hk ▸ List.mem_map_of_mem Prod.fst hm
  · intro h
    cases hg : alGet m k with
    | some v => simp
    | none =>
      obtain ⟨p, hp, hk⟩ := List.mem_map.mp h
      exact absurd hk (alGet_eq_none.mp hg p hp)

theorem alGet_mem {α : Type} {m : List (String × α)} {k : String} {v : α}
    (h : alGet m k = some v) : (k, v) ∈ m := by
  unfold alGet at h
  cases hf : m.find? (fun p => p.1 = k) with
  | none => rw [hf] at h; exact absurd h (by simp)
  | some p =>
    rw [hf] at h
    have hv : p.2 = v := by simpa using h
    have hk : p.1 = k := by simpa using List.find?_some hf
    have hp : p = (k, v) := by
      obtain ⟨a, b⟩ := p
      exact Prod.ext hk hv
    exact hp ▸ List.mem_of_find?_eq_some hf

/-- With unique keys, the stored entry is what lookup returns. -/
theorem alGet_of_mem_nodup {α : Type} {m : List (String × α)} {k : String}
    {v : α} (hn : (m.map Prod.fst).Nodup) (hm : (k, v) ∈ m) :
    alGet m k = some v := by
  induction m with
  | nil => simp at hm
  | cons p t ih =>
    rcases List.mem_cons.mp hm with h | h
    · subst h
      unfold alGet
      simp [List.find?_cons]
    · have hn1 : p.1 ∉ t.map Prod.fst := (List.nodup_cons.mp hn).1
      have hne : p.1 ≠ k := by
        rintro rfl
        exact hn1 (List.mem_map.mpr ⟨(p.1, v), h, rfl⟩)
      unfold alGet
      rw [List.find?_cons_of_neg _ (by simpa using hne)]
      exact ih (List.nodup_cons.mp hn).2 h

theorem listSetAdd_mem (s : List String) (x : String) :
    x ∈ listSetAdd s x := by
  unfold listSetAdd
  split
  · assumption
  · simp

theorem mem_listSetAdd_iff {s : List String} {x y : String} :
    y ∈ listSetAdd s x ↔ y ∈ s ∨ y = x := by
  unfold listSetAdd
  split
  · rename_i h
    constructor
    · exact Or.inl
    · rintro (hy | rfl) <;> assumption
  · simp

theorem listSetAdd_nodup {s : List String} {x : String} (h : s.Nodup) :
    (listSetAdd s x).Nodup := by
  unfold listSetAdd
  split
  · exact h
  · rename_i hx
    refine List.Nodup.append h (by simp) ?_
    intro a ha hb
    simp only [List.mem_singleton] at hb
    subst hb
    exact hx ha

theorem listSetAdd_eq_self {s : List String} {x : String} (h : x ∈ s) :
    listSetAdd s x = s := by
  unfold listSetAdd
  simp [h]

theorem updateAt_length {α : Type} (l : List α) (i : Nat) (f : α → α) :
    (updateAt l i f).length = l.length := by
  induction l generalizing i with
  | nil => rfl
  | cons a t ih =>
    cases i with
    | zero => rfl
    | succ n => simpa [updateAt] using ih n

theorem updateAt_get? {α : Type} (l : List α) (i j : Nat) (f : α → α) :
    (updateAt l i f).get? j =
      if i = j then (l.get? j).map f else l.get? j := by
  induction l generalizing i j with
  | nil => simp [updateAt]
  | cons a t ih =>
    cases i with
    | zero =>
      cases j with
      | zero => simp [updateAt]
      | succ m => simp [updateAt]
    | succ n =>
      cases j with
      | zero => simp [updateAt]
      | succ m =>
        simpa [updateAt, Nat.succ_eq_add_one] using ih n m

-- ============================================================
-- C9: the dead-code detector's recursion has no cycle guard
-- ============================================================

/-- C9: on the two-component registry whose `usedBy` arrays reference each
other (`a` used by `b`, `b` used by `a`), `isComponentUsed` never bottoms
out: for every recursion depth the fuel-indexed embedding still answers
`none`, i.e. the source recursion through `usedBy` chains is unbounded and
the call does not terminate. -/
theorem dead_code_isComponentUsed_diverges_on_cycle :
    ∀ fuel, isComponentUsedF cyclicUsageReg fuel (mkComp "a" "A" [] ["b"]) =
      none := by
  have step_a : ∀ n,
      isComponentUsedF cyclicUsageReg (n + 1) (mkComp "a" "A" [] ["b"]) =
        isComponentUsedF cyclicUsageReg n (mkComp "b" "B" [] ["a"]) :=
    fun n => rfl
  have step_b : ∀ n,
      isComponentUsedF cyclicUsageReg (n + 1) (mkComp "b" "B" [] ["a"]) =
        isComponentUsedF cyclicUsageReg n (mkComp "a" "A" [] ["b"]) :=
    fun n => rfl
  have both : ∀ fuel,
      isComponentUsedF cyclicUsageReg fuel (mkComp "a" "A" [] ["b"]) = none ∧
      isComponentUsedF cyclicUsageReg fuel (mkComp "b" "B" [] ["a"]) = none := by
    intro fuel
    induction fuel with
    | zero => exact ⟨rfl, rfl⟩
    | succ n ih => exact ⟨(step_a n).trans ih.2, (step_b n).trans ih.1⟩
  exact fun fuel => (both fuel).1

-- ============================================================
-- Counterexamples for the cross-referencing claims
-- ============================================================

/-- C4 counterexample: with two components both named "X" (ids "1" then "2")
and a third component whose `children` carries the name "X", the reference is
wired to the LAST component named "X" (id "2" receives the rewritten child id
and the `usedBy` back-edge), not to the first (id "1"), because `Map.set`
overwrites on name collision. This falsifies the claim that the first
occurrence wins. -/
theorem crossref_name_collision_last_wins_cex :
    crossReferenceComponents
        [mkComp "1" "X" [] [], mkComp "2" "X" [] [], mkComp "3" "A" ["X"] []] =
      [mkComp "1" "X" [] [], mkComp "2" "X" [] ["3"], mkComp "3" "A" ["2"] []] ∧
    "1" ∉ (mkComp "3" "A" ["2"] []).children ∧
    "3" ∉ (mkComp "1" "X" [] []).usedBy := by
  decide

/-- C3 counterexample: an analyzer-shaped input (distinct ids, empty `usedBy`)
on which `crossReferenceComponents` is NOT idempotent: component "2" is named
"X" while another component's id is also "X", so on the second run the
already-resolved child id "X" matches a name in the index, grows `usedBy`
(from `[]` to `["2"]`) and rewrites the child again (from "X" to "2"). -/
theorem crossref_not_idempotent_cex :
    crossReferenceComponents [mkComp "X" "A" [] [], mkComp "2" "X" ["A"] []] =
      [mkComp "X" "A" [] ["2"], mkComp "2" "X" ["X"] []] ∧
    crossReferenceComponents [mkComp "X" "A" [] ["2"], mkComp "2" "X" ["X"] []] =
      [mkComp "X" "A" [] ["2"], mkComp "2" "X" ["2"] ["2"]] ∧
    crossReferenceComponents
        (crossReferenceComponents
          [mkComp "X" "A" [] [], mkComp "2" "X" ["A"] []]) ≠
      crossReferenceComponents [mkComp "X" "A" [] [], mkComp "2" "X" ["A"] []] := by
  decide

/-- C2 counterexample: input with pairwise-distinct ids and empty `usedBy`
(the analyzer's output shape) for which bidirectional consistency fails after
cross-referencing: "foo" is an unresolved child name of component "a" and
simultaneously the id of component "foo", so `B.id ∈ A.children` holds while
`A.id ∈ B.usedBy` does not. -/
theorem crossref_bidirectional_cex :
    crossReferenceComponents [mkComp "a" "A" ["foo"] [], mkComp "foo" "B" [] []] =
      [mkComp "a" "A" ["foo"] [], mkComp "foo" "B" [] []] ∧
    (mkComp "foo" "B" [] []).id ∈ (mkComp "a" "A" ["foo"] []).children ∧
    (mkComp "a" "A" ["foo"] []).id ∉ (mkComp "foo" "B" [] []).usedBy := by
  decide

-- ============================================================
-- Counterexample for the snapshot-aliasing claim
-- ============================================================

/-- C8 counterexample: `createSnapshot` copies the collection arrays but not
the component objects, so mutating a stored component's `children` in place
after the snapshot was taken (as re-running cross-referencing does) changes
what the snapshot dereferences to. This falsifies the claim that no
subsequent in-place mutation can change the snapshot's contents. -/
theorem createSnapshot_aliases_components_cex :
    viewComponents [mkComp "a" "A" ["x"] []]
        (RegistryRefs.createSnapshot
          { components := [("a", 0)], imports := [], bundleInfo := [],
            health := [] } "deadbeefcafe" "main" 0 "t0") =
      [mkComp "a" "A" ["x"] []] ∧
    viewComponents
        (mutateComponentRefs [mkComp "a" "A" ["x"] []] 0
          (fun c => { c with children := [] }))
        (RegistryRefs.createSnapshot
          { components := [("a", 0)], imports := [], bundleInfo := [],
            health := [] } "deadbeefcafe" "main" 0 "t0") =
      [mkComp "a" "A" [] []] ∧
    viewComponents
        (mutateComponentRefs [mkComp "a" "A" ["x"] []] 0
          (fun c => { c with children := [] }))
        (RegistryRefs.createSnapshot
          { components := [("a", 0)], imports := [], bundleInfo := [],
            health := [] } "deadbeefcafe" "main" 0 "t0") ≠
      viewComponents [mkComp "a" "A" ["x"] []]
        (RegistryRefs.createSnapshot
          { components := [("a", 0)], imports := [], bundleInfo := [],
            health := [] } "deadbeefcafe" "main" 0 "t0") := by
  decide

-- ============================================================
-- C5: diff(S, S) is empty / zero-delta
-- ============================================================

theorem foldl_eq_acc {α β : Type} (f : β → α → β) :
    ∀ (l : List α) (acc : β), (∀ a ∈ l, ∀ acc', f acc' a = acc') →
      l.foldl f acc = acc := by
  intro l
  induction l with
  | nil => intro acc _; rfl
  | cons a t ih =>
    intro acc h
    rw [List.foldl_cons, h a (List.mem_cons_self a t)]
    exact ih acc (fun b hb acc' => h b (List.mem_cons_of_mem a hb) acc')

theorem mem_foldl_accum {α β : Type} {P : β → Prop} (f : List β → α → List β) :
    ∀ (l : List α) (acc : List β),
      (∀ a ∈ l, ∀ acc' e, e ∈ f acc' a → e ∈ acc' ∨ P e) →
      (∀ e ∈ acc, P e) → ∀ e ∈ l.foldl f acc, P e := by
  intro l
  induction l with
  | nil => intro acc _ hacc e he; exact hacc e he
  | cons a t ih =>
    intro acc h hacc e he
    refine ih (f acc a) (fun b hb => h b (List.mem_cons_of_mem a hb)) ?_ e he
    intro e' he'
    rcases h a (List.mem_cons_self a t) acc e' he' with h' | h'
    · exact hacc e' h'
    · exact h'

/-- With duplicate-free keys, `find?` on an element's own key returns that
element. -/
theorem find?_key_self {α : Type} (f : α → String) {l : List α} {c : α}
    (hn : (l.map f).Nodup) (hc : c ∈ l) :
    l.find? (fun x => f x = f c) = some c := by
  induction l with
  | nil => simp at hc
  | cons a t ih =>
    by_cases hfa : f a = f c
    · have hac : a = c := by
        rcases List.mem_cons.mp hc with h | h
        · exact h.symm
        · exfalso
          exact (List.nodup_cons.mp hn).1 (hfa ▸ List.mem_map.mpr ⟨c, h, rfl⟩)
      rw [List.find?_cons_of_pos _ (by simpa using hfa)]
      exact congrArg some hac
    · have hct : c ∈ t := by
        rcases List.mem_cons.mp hc with h | h
        · exact absurd (congrArg f h.symm) hfa
        · exact h
      rw [List.find?_cons_of_neg _ (by simpa using hfa)]
      exact ih (List.nodup_cons.mp hn).2 hct

theorem diffPropsAdded_self (c : ComponentInfo) : diffPropsAdded c c = [] := by
  unfold diffPropsAdded
  rw [List.filter_eq_nil_iff.mpr]
  · rfl
  · intro p hp
    simp only [decide_not, Bool.not_eq_true', decide_eq_false_iff_not,
      not_not]
    exact List.mem_map.mpr ⟨p, hp, rfl⟩

theorem diffPropsModified_self {c : ComponentInfo}
    (hn : (c.props.map (fun p => p.name)).Nodup) :
    diffPropsModified c c = [] := by
  unfold diffPropsModified
  apply foldl_eq_acc
  intro p hp acc
  have hmem : p.name ∈ c.props.map (fun q => q.name) :=
    List.mem_map.mpr ⟨p, hp, rfl⟩
  have hfind : c.props.find? (fun x => x.name = p.name) = some p :=
    find?_key_self (fun q => q.name) hn hp
  simp [hmem, hfind]

theorem diffChanges_self (c : ComponentInfo) : diffChanges c c = [] := by
  simp [diffChanges]

/-- `diffComponent(c, c)` is `null` when prop names are unique within the
component (the data model's invariant). -/
theorem diffComponent_self {c : ComponentInfo}
    (hn : (c.props.map (fun p => p.name)).Nodup) :
    diffComponent c c = none := by
  unfold diffComponent
  rw [if_neg]
  push_neg
  refine ⟨diffPropsAdded_self c, ?_, diffPropsModified_self hn,
    diffChanges_self c⟩
  unfold diffPropsRemoved
  rw [List.filter_eq_nil_iff.mpr]
  · rfl
  · intro p hp
    simp only [decide_not, Bool.not_eq_true', decide_eq_false_iff_not,
      not_not]
    exact List.mem_map.mpr ⟨p, hp, rfl⟩

/-- Building a JS `Map` from entries with duplicate-free keys is just pairing
each element with its key. -/
theorem foldl_alSet_nodup {α : Type} (key : α → String) :
    ∀ {l : List α}, (l.map key).Nodup →
      ∀ (m : List (String × α)),
        (∀ x ∈ l, ∀ p ∈ m, p.1 ≠ key x) →
        l.foldl (fun m x => alSet m (key x) x) m =
          m ++ l.map (fun x => (key x, x)) := by
  intro l
  induction l with
  | nil => intro _ m _; simp
  | cons a t ih =>
    intro hn m hdisj
    have hset : alSet m (key a) a = m ++ [(key a, a)] := by
      unfold alSet
      rw [if_neg]
      simp only [List.any_eq_true, not_exists, not_and]
      intro p hp
      simpa using hdisj a (List.mem_cons_self a t) p hp
    rw [List.foldl_cons, hset,
      ih (List.nodup_cons.mp hn).2 (m ++ [(key a, a)]) ?_]
    · simp
    · intro x hx p hp
      rcases List.mem_append.mp hp with h | h
      · exact hdisj x (List.mem_cons_of_mem a hx) p h
      · have : p = (key a, a) := by simpa using h
        subst this
        intro hkey
        have hkey' : key a = key x := hkey
        refine (List.nodup_cons.mp hn).1 ?_
        rw [hkey']
        exact List.mem_map.mpr ⟨x, hx, rfl⟩

theorem headBundleMap_get {S : ProjectSnapshot}
    (hk : (S.bundleInfo.map (fun b => b.componentId)).Nodup)
    {b : ComponentBundleInfo} (hb : b ∈ S.bundleInfo) :
    alGet (headBundleMap S) b.componentId = some b := by
  have heq : headBundleMap S = S.bundleInfo.map (fun x => (x.componentId, x)) := by
    have h := foldl_alSet_nodup (fun (b : ComponentBundleInfo) => b.componentId)
      hk [] (by simp)
    simpa [headBundleMap] using h
  rw [heq]
  apply alGet_of_mem_nodup
  · simpa [Function.comp] using hk
  · exact List.mem_map.mpr ⟨b, hb, rfl⟩

theorem headHealthMap_get {S : ProjectSnapshot}
    (hk : (S.health.map (fun h => h.componentId)).Nodup)
    {h : ComponentHealth} (hb : h ∈ S.health) :
    alGet (headHealthMap S) h.componentId = some h := by
  have heq : headHealthMap S = S.health.map (fun x => (x.componentId, x)) := by
    have h2 := foldl_alSet_nodup (fun (x : ComponentHealth) => x.componentId)
      hk [] (by simp)
    simpa [headHealthMap] using h2
  rw [heq]
  apply alGet_of_mem_nodup
  · simpa [Function.comp] using hk
  · exact List.mem_map.mpr ⟨h, hb, rfl⟩

/-- A `ComponentModification` emitted by `diffComponent` never has all four
lists empty (the `hasChanges` guard). -/
theorem diffComponent_some_nonempty {b h : ComponentInfo}
    {m : ComponentModification} (hm : diffComponent b h = some m) :
    ¬(m.changes = [] ∧ m.propsAdded = [] ∧ m.propsRemoved = [] ∧
      m.propsModified = []) := by
  unfold diffComponent at hm
  split at hm
  · rename_i hcond
    obtain rfl : _ = m := by simpa using hm
    rintro ⟨h1, h2, h3, h4⟩
    simp only at h1 h2 h3 h4
    rcases hcond with hc | hc | hc | hc
    · exact hc h2
    · exact hc h3
    · exact hc h4
    · exact hc h1
  · simp at hm

theorem diffAdded_self (S : ProjectSnapshot) : diffAdded S S = [] := by
  unfold diffAdded
  rw [List.filter_eq_nil_iff.mpr]
  intro c hc
  simp only [decide_not, Bool.not_eq_true', decide_eq_false_iff_not, not_not]
  exact List.mem_map.mpr ⟨c, hc, rfl⟩

theorem diffRemoved_self (S : ProjectSnapshot) : diffRemoved S S = [] := by
  unfold diffRemoved
  rw [List.filter_eq_nil_iff.mpr]
  intro c hc
  simp only [decide_not, Bool.not_eq_true', decide_eq_false_iff_not, not_not]
  exact List.mem_map.mpr ⟨c, hc, rfl⟩

theorem diffModified_self (S : ProjectSnapshot)
    (hid : (S.components.map (fun c => c.id)).Nodup)
    (hprops : ∀ c ∈ S.components, (c.props.map (fun p => p.name)).Nodup) :
    diffModified S S = [] := by
  unfold diffModified
  apply foldl_eq_acc
  intro c hc acc
  have hmem : c.id ∈ S.components.map (fun b => b.id) :=
    List.mem_map.mpr ⟨c, hc, rfl⟩
  have hfind : S.components.find? (fun x => x.id = c.id) = some c :=
    find?_key_self (fun c => c.id) hid hc
  have hdc : diffComponent c c = none := diffComponent_self (hprops c hc)
  simp [hmem, hfind, hdc]

theorem diffBundle_self (S : ProjectSnapshot)
    (hbk : (S.bundleInfo.map (fun b => b.componentId)).Nodup) :
    ∀ e ∈ diffBundle S S, e.delta.raw = 0 ∧ e.delta.gzip = 0 := by
  unfold diffBundle
  refine mem_foldl_accum
    (P := fun (e : BundleDiffEntry) => e.delta.raw = 0 ∧ e.delta.gzip = 0) _ S.bundleInfo []
    ?_ (by simp)
  intro b hb acc e he
  have hget : alGet (headBundleMap S) b.componentId = some b :=
    headBundleMap_get hbk hb
  rw [hget] at he
  rcases List.mem_append.mp he with h | h
  · exact Or.inl h
  · right
    have : e = { componentId := b.componentId, before := b.selfSize
                 after := b.selfSize
                 delta := { raw := b.selfSize.raw - b.selfSize.raw
                            gzip := b.selfSize.gzip - b.selfSize.gzip
                            brotli := none } } := by simpa using h
    subst this
    exact ⟨sub_self _, sub_self _⟩

theorem diffHealth_self (S : ProjectSnapshot)
    (hhk : (S.health.map (fun h => h.componentId)).Nodup) :
    ∀ e ∈ diffHealth S S, e.delta = 0 := by
  unfold diffHealth
  refine mem_foldl_accum (P := fun (e : HealthDiffEntry) => e.delta = 0) _ S.health [] ?_ (by simp)
  intro hE hb acc e he
  have hget : alGet (headHealthMap S) hE.componentId = some hE :=
    headHealthMap_get hhk hb
  rw [hget] at he
  rcases List.mem_append.mp he with h | h
  · exact Or.inl h
  · right
    have : e = { componentId := hE.componentId, beforeScore := hE.score
                 afterScore := hE.score, delta := hE.score - hE.score } := by
      simpa using h
    subst this
    exact sub_self _

theorem diffModified_never_empty (base head : ProjectSnapshot) :
    ∀ m ∈ diffModified base head,
      ¬(m.changes = [] ∧ m.propsAdded = [] ∧ m.propsRemoved = [] ∧
        m.propsModified = []) := by
  unfold diffModified
  refine mem_foldl_accum
    (P := fun (m : ComponentModification) =>
      ¬(m.changes = [] ∧ m.propsAdded = [] ∧
        m.propsRemoved = [] ∧ m.propsModified = [])) _ head.components []
    ?_ (by simp)
  intro hc _ acc m hm
  by_cases hin : hc.id ∈ base.components.map (fun b => b.id)
  · rw [if_pos hin] at hm
    cases hfind : base.components.find? (fun c => c.id = hc.id) with
    | none => rw [hfind] at hm; exact Or.inl hm
    | some bc =>
      rw [hfind] at hm
      have hm2 : m ∈ (match diffComponent bc hc with
        | some m0 => acc ++ [m0]
        | none => acc) := hm
      cases hdc : diffComponent bc hc with
      | none => rw [hdc] at hm2; exact Or.inl hm2
      | some m' =>
        rw [hdc] at hm2
        rcases List.mem_append.mp hm2 with h | h
        · exact Or.inl h
        · right
          have : m = m' := by simpa using h
          subst this
          exact diffComponent_some_nonempty hdc
  · rw [if_neg hin] at hm
    exact Or.inl hm

/-- C5: `diff(S, S)` yields empty `added`/`removed`/`modified`, every
`bundleDiff` delta is zero on raw and gzip, every `healthDiff` delta is zero,
and (for any two snapshots) no `ComponentModification` with all-empty
`changes`/`propsAdded`/`propsRemoved`/`propsModified` is ever emitted. The
hypotheses are the data model's keying invariants: unique component ids,
unique prop names per component, and 1:1 componentId keying of bundle info
and health. -/
theorem diff_self_empty_and_zero
    (S : ProjectSnapshot)
    (hid : (S.components.map (fun c => c.id)).Nodup)
    (hprops : ∀ c ∈ S.components, (c.props.map (fun p => p.name)).Nodup)
    (hbk : (S.bundleInfo.map (fun b => b.componentId)).Nodup)
    (hhk : (S.health.map (fun h => h.componentId)).Nodup) :
    (ComponentRegistry.diff S S).added = [] ∧
    (ComponentRegistry.diff S S).removed = [] ∧
    (ComponentRegistry.diff S S).modified = [] ∧
    (∀ e ∈ (ComponentRegistry.diff S S).bundleDiff,
      e.delta.raw = 0 ∧ e.delta.gzip = 0) ∧
    (∀ e ∈ (ComponentRegistry.diff S S).healthDiff, e.delta = 0) ∧
    (∀ base head : ProjectSnapshot,
      ∀ m ∈ (ComponentRegistry.diff base head).modified,
        ¬(m.changes = [] ∧ m.propsAdded = [] ∧ m.propsRemoved = [] ∧
          m.propsModified = [])) := by
  refine ⟨diffAdded_self S, diffRemoved_self S, diffModified_self S hid hprops,
    diffBundle_self S hbk, diffHealth_self S hhk, ?_⟩
  intro base head m hm
  exact diffModified_never_empty base head m hm

/-- Witness for C5 at a concrete one-component snapshot. -/
theorem diff_self_empty_and_zero_witness :
    ((([mkComp "a" "A" [] []]).map (fun c => c.id)).Nodup) ∧
    (ComponentRegistry.diff
        ⟨"s0", "c0", "b", "t", [mkComp "a" "A" [] []], [], [], []⟩
        ⟨"s0", "c0", "b", "t", [mkComp "a" "A" [] []], [], [], []⟩).added =
      [] :=
  ⟨by decide,
    (diff_self_empty_and_zero
      ⟨"s0", "c0", "b", "t", [mkComp "a" "A" [] []], [], [], []⟩
      (by decide) (by decide) (by decide) (by decide)).1⟩

-- ============================================================
-- Cross-referencer: index and phase lemmas
-- ============================================================

theorem alGet_alSet_self {α : Type} (m : List (String × α)) (k : String)
    (v : α) : alGet (alSet m k v) k = some v := by
  unfold alSet
  by_cases hany : m.any (fun p => p.1 = k)
  · rw [if_pos hany]
    unfold alGet
    have hpred : (fun (p : String × α) => decide (p.1 = k)) ∘
        (fun p => if p.1 = k then (k, v) else p) =
        (fun p => decide (p.1 = k)) := by
      funext p
      by_cases hp : p.1 = k <;> simp [hp]
    rw [List.find?_map, hpred]
    obtain ⟨q, hq, hqk⟩ := List.any_eq_true.mp hany
    have hsome : (m.find? (fun p => decide (p.1 = k))).isSome =
        true := List.find?_isSome.mpr ⟨q, hq, hqk⟩
    cases hf : m.find? (fun p => decide (p.1 = k)) with
    | none => rw [hf] at hsome; simp at hsome
    | some q' =>
      have hk : q'.1 = k := by simpa using List.find?_some hf
      simp [hk]
  · rw [if_neg hany]
    unfold alGet
    rw [List.find?_append]
    have hnone : m.find? (fun p => decide (p.1 = k)) = none := by
      cases hf : m.find? (fun p => decide (p.1 = k)) with
      | none => rfl
      | some q =>
        exact absurd (List.any_eq_true.mpr
          ⟨q, List.mem_of_find?_eq_some hf, List.find?_some hf⟩) hany
    rw [hnone]
    simp [List.find?]

theorem alGet_alSet_ne {α : Type} (m : List (String × α)) {k k' : String}
    (v : α) (h : k' ≠ k) : alGet (alSet m k v) k' = alGet m k' := by
  unfold alSet
  by_cases hany : m.any (fun p => p.1 = k)
  · rw [if_pos hany]
    unfold alGet
    have hpred : (fun (p : String × α) => decide (p.1 = k')) ∘
        (fun p => if p.1 = k then (k, v) else p) =
        (fun p => decide (p.1 = k')) := by
      funext p
      by_cases hp : p.1 = k
      · simp [hp, Ne.symm h]
      · simp [hp]
    rw [List.find?_map, hpred]
    cases hf : m.find? (fun p => decide (p.1 = k')) with
    | none => rfl
    | some q =>
      have hk : q.1 = k' := by simpa using List.find?_some hf
      have hq : (if q.1 = k then (k, v) else q) = q :=
        if_neg (by rw [hk]; exact h)
      simp [hq]
  · rw [if_neg hany]
    unfold alGet
    rw [List.find?_append]
    cases hf : m.find? (fun p => decide (p.1 = k')) with
    | none =>
      simp only [Option.none_or]
      rw [List.find?_cons_of_neg _ (by simpa using fun hh => h hh.symm)]
      rfl
    | some q => rfl

theorem buildByName_concat (cs : List ComponentInfo) (c : ComponentInfo) :
    buildByName (cs ++ [c]) = alSet (buildByName cs) c.name cs.length := by
  unfold buildByName
  rw [List.enum_append, List.foldl_append]
  rfl

/-- Forward direction of the index characterization: a successful lookup
points at a component with that name. -/
theorem buildByName_get_name {cs : List ComponentInfo} {n : String} {j : Nat}
    (h : alGet (buildByName cs) n = some j) :
    ∃ c, cs.get? j = some c ∧ c.name = n := by
  induction cs using List.reverseRecOn with
  | nil => simp [buildByName, alGet, List.find?] at h
  | append_singleton cs c ih =>
    rw [buildByName_concat] at h
    by_cases hn : n = c.name
    · subst hn
      rw [alGet_alSet_self] at h
      obtain rfl : cs.length = j := by simpa using h
      refine ⟨c, ?_, rfl⟩
      rw [List.get?_append_right (le_refl _)]
      simp
    · rw [alGet_alSet_ne _ _ hn] at h
      obtain ⟨c', hc', hname⟩ := ih h
      have hlt : j < cs.length := by
        by_contra hge
        rw [List.get?_eq_none.mpr (Nat.le_of_not_lt hge)] at hc'
        exact absurd hc' (by simp)
      exact ⟨c', by rw [List.get?_append hlt]; exact hc', hname⟩

/-- "Last occurrence wins": the index maps a name to the greatest position
carrying it. -/
theorem buildByName_get_last {cs : List ComponentInfo} {n : String} {j : Nat}
    {c : ComponentInfo} (hj : cs.get? j = some c) (hname : c.name = n)
    (hlast : ∀ k d, j < k → cs.get? k = some d → d.name ≠ n) :
    alGet (buildByName cs) n = some j := by
  induction cs using List.reverseRecOn with
  | nil => simp at hj
  | append_singleton cs cl ih =>
    rw [buildByName_concat]
    have hjlt : j < cs.length + 1 := by
      by_contra hge
      rw [List.get?_eq_none.mpr (by simpa using Nat.le_of_not_lt hge)] at hj
      exact absurd hj (by simp)
    by_cases hje : j = cs.length
    · subst hje
      have hc : c = cl := by
        rw [List.get?_append_right (le_refl _)] at hj
        have := hj
        simp at this
        exact this.symm
      subst hc
      rw [← hname, alGet_alSet_self]
    · have hjlt' : j < cs.length := by omega
      have hcl : cl.name ≠ n := by
        refine hlast cs.length cl hjlt' ?_
        rw [List.get?_append_right (le_refl _)]
        simp
      rw [alGet_alSet_ne _ _ (Ne.symm hcl)]
      refine ih ?_ ?_
      · rw [List.get?_append hjlt'] at hj
        exact hj
      · intro k d hk hd
        refine hlast k d hk ?_
        have hklt : k < cs.length := by
          by_contra hge
          rw [List.get?_eq_none.mpr (Nat.le_of_not_lt hge)] at hd
          exact absurd hd (by simp)
        rw [List.get?_append hklt]
        exact hd

/-- A name with no occurrence resolves to nothing. -/
theorem buildByName_get_none {cs : List ComponentInfo} {n : String} :
    alGet (buildByName cs) n = none ↔ ∀ c ∈ cs, c.name ≠ n := by
  induction cs using List.reverseRecOn with
  | nil => simp [buildByName, alGet, List.find?]
  | append_singleton cs c ih =>
    rw [buildByName_concat]
    by_cases hn : n = c.name
    · subst hn
      rw [alGet_alSet_self]
      constructor
      · intro h; exact absurd h (by simp)
      · intro h; exact absurd rfl (h c (by simp))
    · rw [alGet_alSet_ne _ _ hn, ih]
      constructor
      · intro h d hd
        rcases List.mem_append.mp hd with hd | hd
        · exact h d hd
        · obtain rfl : d = c := by simpa using hd
          exact fun hh => hn hh.symm
      · intro h d hd
        exact h d (List.mem_append.mpr (Or.inl hd))

/-- The index depends only on the name sequence. -/
theorem buildByName_congr {cs₁ cs₂ : List ComponentInfo}
    (h : cs₁.map (fun c => c.name) = cs₂.map (fun c => c.name)) :
    buildByName cs₁ = buildByName cs₂ := by
  have key : ∀ cs : List ComponentInfo, buildByName cs =
      (cs.map (fun c => c.name)).enum.foldl
        (fun m p => alSet m p.2 p.1) [] := by
    intro cs
    unfold buildByName
    rw [List.enum_map, List.foldl_map]
    rfl
  rw [key, key, h]

theorem stripUsedBy_update (cid : String) (c : ComponentInfo) :
    stripUsedBy (if cid ∈ c.usedBy then c
      else { c with usedBy := c.usedBy ++ [cid] }) = stripUsedBy c := by
  by_cases hc : cid ∈ c.usedBy
  · rw [if_pos hc]
  · rw [if_neg hc]
    rfl

theorem usedBy_update_mem (cid x : String) (c : ComponentInfo) :
    (x ∈ (if cid ∈ c.usedBy then c
      else { c with usedBy := c.usedBy ++ [cid] }).usedBy) ↔
    x ∈ c.usedBy ∨ x = cid := by
  by_cases hc : cid ∈ c.usedBy
  · rw [if_pos hc]
    constructor
    · exact Or.inl
    · rintro (h | rfl)
      · exact h
      · exact hc
  · rw [if_neg hc]
    simp only []
    rw [List.mem_append, List.mem_singleton]

theorem updateUsedBy_spec (st : List ComponentInfo) (j : Nat) (cid : String) :
    ((updateAt st j (fun child => if cid ∈ child.usedBy then child
        else { child with usedBy := child.usedBy ++ [cid] })).length =
      st.length) ∧
    (∀ k, ((updateAt st j (fun child => if cid ∈ child.usedBy then child
        else { child with usedBy := child.usedBy ++ [cid] })).get? k).map
          stripUsedBy = (st.get? k).map stripUsedBy) ∧
    (∀ k x, memUsedBy (updateAt st j (fun child =>
        if cid ∈ child.usedBy then child
        else { child with usedBy := child.usedBy ++ [cid] })) k x ↔
      memUsedBy st k x ∨ (x = cid ∧ k = j ∧ k < st.length)) := by
  have hmap : ∀ (f : ComponentInfo → ComponentInfo) (a : ComponentInfo),
      Option.map f (some a) = some (f a) := fun _ _ => rfl
  refine ⟨updateAt_length st j _, ?_, ?_⟩
  · intro k
    rw [updateAt_get?]
    by_cases hkj : j = k
    · subst hkj
      rw [if_pos rfl]
      cases hst : st.get? j with
      | none => rfl
      | some c =>
        rw [hmap, hmap]
        exact congrArg some (stripUsedBy_update cid c)
    · rw [if_neg hkj]
  · intro k x
    unfold memUsedBy
    rw [updateAt_get?]
    by_cases hkj : j = k
    · subst hkj
      rw [if_pos rfl]
      cases hst : st.get? j with
      | none =>
        have hge : st.length ≤ j := List.get?_eq_none.mp hst
        constructor
        · rintro ⟨c, hc, _⟩
          exact absurd hc (by simp)
        · rintro (⟨c, hc, _⟩ | ⟨_, _, hlt⟩)
          · exact absurd hc (by simp)
          · exact absurd hlt (by omega)
      | some c =>
        have hlt : j < st.length := by
          by_contra hge
          rw [List.get?_eq_none.mpr (Nat.le_of_not_lt hge)] at hst
          exact absurd hst (by simp)
        rw [hmap]
        constructor
        · rintro ⟨c', hc', hx⟩
          rw [← Option.some.inj hc'] at hx
          rcases (usedBy_update_mem cid x c).mp hx with h | h
          · exact Or.inl ⟨c, rfl, h⟩
          · exact Or.inr ⟨h, rfl, hlt⟩
        · intro h
          refine ⟨_, rfl, (usedBy_update_mem cid x c).mpr ?_⟩
          rcases h with ⟨c', hc', hx⟩ | ⟨hx, _, _⟩
          · obtain rfl : c = c' := Option.some.inj hc'
            exact Or.inl hx
          · exact Or.inr hx
    · rw [if_neg hkj]
      constructor
      · rintro ⟨c, hc, hx⟩
        exact Or.inl ⟨c, hc, hx⟩
      · rintro (⟨c, hc, hx⟩ | ⟨_, hkj', _⟩)
        · exact ⟨c, hc, hx⟩
        · exact absurd hkj'.symm hkj

theorem foldl_fix {α β : Type} (f : β → α → β) (b : β) :
    ∀ l : List α, (∀ a ∈ l, f b a = b) → l.foldl f b = b := by
  intro l
  induction l with
  | nil => intro _; rfl
  | cons a t ih =>
    intro h
    rw [List.foldl_cons, h a (List.mem_cons_self a t)]
    exact ih (fun b hb => h b (List.mem_cons_of_mem a hb))

theorem crossRefChildren_spec (byName : List (String × Nat)) (cid : String) :
    ∀ (l : List String) (st : List ComponentInfo),
      ((crossRefChildren byName cid st l).length = st.length) ∧
      (∀ k, ((crossRefChildren byName cid st l).get? k).map stripUsedBy =
        (st.get? k).map stripUsedBy) ∧
      (∀ k x, memUsedBy (crossRefChildren byName cid st l) k x ↔
        memUsedBy st k x ∨
          (x = cid ∧ k < st.length ∧ ∃ n ∈ l, alGet byName n = some k)) := by
  intro l
  induction l with
  | nil =>
    intro st
    refine ⟨rfl, fun k => rfl, fun k x => ?_⟩
    simp [crossRefChildren]
  | cons n t ih =>
    intro st
    cases halg : alGet byName n with
    | none =>
      have hstep : crossRefChildren byName cid st (n :: t) =
          crossRefChildren byName cid st t := by
        unfold crossRefChildren
        rw [List.foldl_cons]
        simp only [halg]
      rw [hstep]
      refine ⟨(ih st).1, (ih st).2.1, fun k x => ?_⟩
      rw [(ih st).2.2 k x]
      have hiff : (∃ n' ∈ n :: t, alGet byName n' = some k) ↔
          (∃ n' ∈ t, alGet byName n' = some k) := by
        constructor
        · rintro ⟨n', hn', hget⟩
          rcases List.mem_cons.mp hn' with rfl | hmem
          · rw [halg] at hget; exact absurd hget (by simp)
          · exact ⟨n', hmem, hget⟩
        · rintro ⟨n', hn', hget⟩
          exact ⟨n', List.mem_cons_of_mem n hn', hget⟩
      rw [hiff]
    | some j =>
      have hstep : crossRefChildren byName cid st (n :: t) =
          crossRefChildren byName cid
            (updateAt st j (fun child =>
              if cid ∈ child.usedBy then child
              else { child with usedBy := child.usedBy ++ [cid] })) t := by
        unfold crossRefChildren
        rw [List.foldl_cons]
        simp only [halg]
      rw [hstep]
      obtain ⟨hulen, hustrip, humem⟩ := updateUsedBy_spec st j cid
      obtain ⟨hlen, hstrip, hmem⟩ := ih (updateAt st j (fun child =>
        if cid ∈ child.usedBy then child
        else { child with usedBy := child.usedBy ++ [cid] }))
      refine ⟨hlen.trans hulen, fun k => (hstrip k).trans (hustrip k),
        fun k x => ?_⟩
      rw [hmem k x, humem k x, hulen]
      have hiff : (∃ n' ∈ n :: t, alGet byName n' = some k) ↔
          (j = k ∨ ∃ n' ∈ t, alGet byName n' = some k) := by
        constructor
        · rintro ⟨n', hn', hget⟩
          rcases List.mem_cons.mp hn' with rfl | hmem'
          · rw [halg] at hget
            exact Or.inl (by simpa using hget)
          · exact Or.inr ⟨n', hmem', hget⟩
        · rintro (rfl | ⟨n', hn', hget⟩)
          · exact ⟨n, List.mem_cons_self n t, halg⟩
          · exact ⟨n', List.mem_cons_of_mem n hn', hget⟩
      rw [hiff]
      constructor
      · rintro ((hmem' | ⟨rfl, rfl, hlt⟩) | ⟨rfl, hlt, hex⟩)
        · exact Or.inl hmem'
        · exact Or.inr ⟨rfl, hlt, Or.inl rfl⟩
        · exact Or.inr ⟨rfl, hlt, Or.inr hex⟩
      · rintro (hmem' | ⟨rfl, hlt, (rfl | hex)⟩)
        · exact Or.inl (Or.inl hmem')
        · exact Or.inl (Or.inr ⟨rfl, rfl, hlt⟩)
        · exact Or.inr ⟨rfl, hlt, hex⟩

theorem crossRefPhase1Aux_spec (byName : List (String × Nat))
    (cs : List ComponentInfo) :
    ∀ (idxs : List Nat) (st : List ComponentInfo),
      st.length = cs.length →
      (∀ k, (st.get? k).map stripUsedBy = (cs.get? k).map stripUsedBy) →
      ((crossRefPhase1Aux byName idxs st).length = cs.length) ∧
      (∀ k, ((crossRefPhase1Aux byName idxs st).get? k).map stripUsedBy =
        (cs.get? k).map stripUsedBy) ∧
      (∀ k x, memUsedBy (crossRefPhase1Aux byName idxs st) k x ↔
        memUsedBy st k x ∨
          ∃ i ∈ idxs, ∃ comp, cs.get? i = some comp ∧ x = comp.id ∧
            k < cs.length ∧
            ∃ n ∈ comp.children, alGet byName n = some k) := by
  intro idxs
  induction idxs with
  | nil =>
    intro st hlen hstrip
    refine ⟨hlen, hstrip, fun k x => ?_⟩
    simp [crossRefPhase1Aux]
  | cons i rest ih =>
    intro st hlen hstrip
    cases hst : st.get? i with
    | none =>
      have hcs : cs.get? i = none := by
        have := hstrip i
        rw [hst] at this
        exact Option.map_eq_none.mp this.symm
      have hstep : crossRefPhase1Aux byName (i :: rest) st =
          crossRefPhase1Aux byName rest st := by
        unfold crossRefPhase1Aux
        rw [List.foldl_cons]
        simp only [hst]
      rw [hstep]
      obtain ⟨hlen', hstrip', hmem'⟩ := ih st hlen hstrip
      refine ⟨hlen', hstrip', fun k x => ?_⟩
      rw [hmem' k x]
      have hiff : (∃ i' ∈ i :: rest, ∃ comp, cs.get? i' = some comp ∧
          x = comp.id ∧ k < cs.length ∧
          ∃ n ∈ comp.children, alGet byName n = some k) ↔
          (∃ i' ∈ rest, ∃ comp, cs.get? i' = some comp ∧ x = comp.id ∧
            k < cs.length ∧ ∃ n ∈ comp.children, alGet byName n = some k) := by
        constructor
        · rintro ⟨i', hi', comp, hcomp, hrest⟩
          rcases List.mem_cons.mp hi' with rfl | hmem2
          · rw [hcs] at hcomp; exact absurd hcomp (by simp)
          · exact ⟨i', hmem2, comp, hcomp, hrest⟩
        · rintro ⟨i', hi', comp, hcomp, hrest⟩
          exact ⟨i', List.mem_cons_of_mem i hi', comp, hcomp, hrest⟩
      rw [hiff]
    | some comp =>
      have hcs : ∃ comp₀, cs.get? i = some comp₀ ∧
          stripUsedBy comp = stripUsedBy comp₀ := by
        have := hstrip i
        rw [hst] at this
        cases hg : cs.get? i with
        | none => rw [hg] at this; exact absurd this (by simp)
        | some c0 =>
          rw [hg] at this
          exact ⟨c0, rfl, by simpa using this⟩
      obtain ⟨comp₀, hcs0, hstripc⟩ := hcs
      have hid2 := congrArg (fun c => ComponentInfo.id c) hstripc
      have hch2 := congrArg (fun c => ComponentInfo.children c) hstripc
      have hid : comp.id = comp₀.id := hid2
      have hch : comp.children = comp₀.children := hch2
      have hstep : crossRefPhase1Aux byName (i :: rest) st =
          crossRefPhase1Aux byName rest
            (crossRefChildren byName comp.id st comp.children) := by
        unfold crossRefPhase1Aux
        rw [List.foldl_cons]
        simp only [hst]
      rw [hstep]
      obtain ⟨hclen, hcstrip, hcmem⟩ :=
        crossRefChildren_spec byName comp.id comp.children st
      obtain ⟨hlen', hstrip', hmem'⟩ :=
        ih (crossRefChildren byName comp.id st comp.children)
          (hclen.trans hlen) (fun k => (hcstrip k).trans (hstrip k))
      refine ⟨hlen', hstrip', fun k x => ?_⟩
      rw [hmem' k x, hcmem k x, hlen]
      constructor
      · rintro ((hmem2 | ⟨rfl, hlt, hex⟩) | ⟨i', hi', comp', hrest⟩)
        · exact Or.inl hmem2
        · refine Or.inr ⟨i, List.mem_cons_self i rest, comp₀, hcs0, hid,
            hlt, ?_⟩
          rw [← hch]
          exact hex
        · exact Or.inr ⟨i', List.mem_cons_of_mem i hi', comp', hrest⟩
      · rintro (hmem2 | ⟨i', hi', comp', hcomp', hx, hlt, hex⟩)
        · exact Or.inl (Or.inl hmem2)
        · rcases List.mem_cons.mp hi' with rfl | hmem3
          · rw [hcs0] at hcomp'
            obtain rfl : comp₀ = comp' := by simpa using hcomp'
            refine Or.inl (Or.inr ⟨hx.trans hid.symm, hlt, ?_⟩)
            rw [hch]
            exact hex
          · exact Or.inr ⟨i', hmem3, comp', hcomp', hx, hlt, hex⟩

/-- Full characterization of phase 1: lengths and non-`usedBy` fields are
unchanged, and `x` ends up in position `k`'s `usedBy` exactly when it was
there already or some component's id is `x` and one of its child names
resolves to `k`. -/
theorem crossRefPhase1_spec (byName : List (String × Nat))
    (cs : List ComponentInfo) :
    ((crossRefPhase1 byName cs).length = cs.length) ∧
    (∀ k, ((crossRefPhase1 byName cs).get? k).map stripUsedBy =
      (cs.get? k).map stripUsedBy) ∧
    (∀ k x, memUsedBy (crossRefPhase1 byName cs) k x ↔
      memUsedBy cs k x ∨
        ∃ i comp, cs.get? i = some comp ∧ x = comp.id ∧ k < cs.length ∧
          ∃ n ∈ comp.children, alGet byName n = some k) := by
  obtain ⟨hlen, hstrip, hmem⟩ :=
    crossRefPhase1Aux_spec byName cs (List.range cs.length) cs rfl
      (fun k => rfl)
  unfold crossRefPhase1
  refine ⟨hlen, hstrip, fun k x => ?_⟩
  rw [hmem k x]
  constructor
  · rintro (h | ⟨i, _, comp, hrest⟩)
    · exact Or.inl h
    · exact Or.inr ⟨i, comp, hrest⟩
  · rintro (h | ⟨i, comp, hcomp, hrest⟩)
    · exact Or.inl h
    · have hi : i < cs.length := by
        by_contra hge
        rw [List.get?_eq_none.mpr (Nat.le_of_not_lt hge)] at hcomp
        exact absurd hcomp (by simp)
      exact Or.inr ⟨i, List.mem_range.mpr hi, comp, hcomp, hrest⟩

theorem crossRefChildren_noop (byName : List (String × Nat)) (cid : String)
    (st : List ComponentInfo) (l : List String)
    (h : ∀ n ∈ l, alGet byName n = none) :
    crossRefChildren byName cid st l = st := by
  unfold crossRefChildren
  apply foldl_eq_acc
  intro n hn acc
  simp only [h n hn]

theorem crossRefPhase1_noop (byName : List (String × Nat))
    (cs : List ComponentInfo)
    (h : ∀ i comp, cs.get? i = some comp →
      ∀ n ∈ comp.children, alGet byName n = none) :
    crossRefPhase1 byName cs = cs := by
  unfold crossRefPhase1 crossRefPhase1Aux
  apply foldl_fix
  intro i _
  cases hst : cs.get? i with
  | none => rfl
  | some comp =>
    exact crossRefChildren_noop byName comp.id cs comp.children (h i comp hst)

theorem crossRefPhase2_get? (byName : List (String × Nat))
    (orig st : List ComponentInfo) (k : Nat) :
    (crossRefPhase2 byName orig st).get? k = (st.get? k).map (fun comp =>
      { comp with children := (comp.children.map (fun nm =>
          match alGet byName nm with
          | some j =>
            match orig.get? j with
            | some c => c.id
            | none => nm
          | none => nm)).filter (fun s => s ≠ "") }) := by
  unfold crossRefPhase2
  rw [List.get?_map]

/-- Cross-referencing never changes a component's name (nor its position). -/
theorem crossref_names (cs : List ComponentInfo) :
    ∀ k, ((crossReferenceComponents cs).get? k).map (fun c => c.name) =
      (cs.get? k).map (fun c => c.name) := by
  intro k
  unfold crossReferenceComponents
  rw [crossRefPhase2_get?]
  obtain ⟨-, hstrip, -⟩ := crossRefPhase1_spec (buildByName cs) cs
  have h := hstrip k
  cases hst : (crossRefPhase1 (buildByName cs) cs).get? k with
  | none =>
    rw [hst] at h
    cases hcs : cs.get? k with
    | none => rfl
    | some c => rw [hcs] at h; exact absurd h (by simp)
  | some c =>
    rw [hst] at h
    cases hcs : cs.get? k with
    | none => rw [hcs] at h; exact absurd h (by simp)
    | some c0 =>
      rw [hcs] at h
      have hsc : stripUsedBy c = stripUsedBy c0 := by simpa using h
      have hname2 := congrArg (fun c => ComponentInfo.name c) hsc
      simpa using hname2

/-- Every `children` entry of a cross-referenced component is non-empty and
is either an unresolvable name or the id of some input component. -/
theorem crossref_children_entries (cs : List ComponentInfo) :
    ∀ k comp, (crossReferenceComponents cs).get? k = some comp →
      ∀ e ∈ comp.children, e ≠ "" ∧
        (alGet (buildByName cs) e = none ∨ ∃ c ∈ cs, c.id = e) := by
  intro k comp hk e he
  unfold crossReferenceComponents at hk
  rw [crossRefPhase2_get?] at hk
  cases hst : (crossRefPhase1 (buildByName cs) cs).get? k with
  | none => rw [hst] at hk; exact absurd hk (by simp)
  | some c1 =>
    rw [hst] at hk
    obtain rfl : _ = comp := Option.some.inj hk
    simp only at he
    have hfil := List.of_mem_filter he
    have hne : e ≠ "" := by simpa using hfil
    refine ⟨hne, ?_⟩
    have hmap := List.mem_filter.mp he |>.1
    obtain ⟨nm, hnm, hres⟩ := List.mem_map.mp hmap
    cases halg : alGet (buildByName cs) nm with
    | none =>
      rw [halg] at hres
      subst hres
      exact Or.inl halg
    | some j =>
      rw [halg] at hres
      obtain ⟨c, hc, -⟩ := buildByName_get_name halg
      have hres2 : (match cs.get? j with
        | some c => c.id
        | none => nm) = e := hres
      rw [hc] at hres2
      have hres3 : c.id = e := hres2
      subst hres3
      exact Or.inr ⟨c, List.get?_mem hc, rfl⟩

/-- C3 (amended): cross-referencing is idempotent provided no component's id
coincides with any component's name (in particular whenever ids are
`filePath#name`-shaped and names are bare identifiers). Under that proviso a
second run resolves nothing: ids already written into `children` match no
name in the index and fall through, and no `usedBy` entry is added. -/
theorem crossref_idempotent_amended (cs : List ComponentInfo)
    (hdisj : ∀ a ∈ cs, ∀ b ∈ cs, a.id ≠ b.name) :
    crossReferenceComponents (crossReferenceComponents cs) =
      crossReferenceComponents cs := by
  have hnames : (crossReferenceComponents cs).map (fun c => c.name) =
      cs.map (fun c => c.name) := by
    apply List.ext
    intro k
    rw [List.get?_map, List.get?_map]
    exact crossref_names cs k
  have hbn : buildByName (crossReferenceComponents cs) = buildByName cs :=
    buildByName_congr hnames
  -- every child entry of the first run's output resolves to nothing
  have hents : ∀ i comp, (crossReferenceComponents cs).get? i = some comp →
      ∀ n ∈ comp.children, alGet (buildByName cs) n = none := by
    intro i comp hi n hn
    obtain ⟨hne, h | h⟩ := crossref_children_entries cs i comp hi n hn
    · exact h
    · obtain ⟨c, hc, rfl⟩ := h
      rw [buildByName_get_none]
      intro d hd hh
      exact hdisj c hc d hd hh.symm
  -- second run: phase 1 is a no-op, phase 2 falls through everywhere
  show crossRefPhase2 (buildByName (crossReferenceComponents cs))
      (crossReferenceComponents cs)
      (crossRefPhase1 (buildByName (crossReferenceComponents cs))
        (crossReferenceComponents cs)) = crossReferenceComponents cs
  rw [hbn, crossRefPhase1_noop (buildByName cs) (crossReferenceComponents cs)
    hents]
  apply List.ext
  intro k
  rw [crossRefPhase2_get?]
  cases hk : (crossReferenceComponents cs).get? k with
  | none => rfl
  | some comp =>
    have hred : ∀ (f : ComponentInfo → ComponentInfo) (a : ComponentInfo),
        Option.map f (some a) = some (f a) := fun _ _ => rfl
    rw [hred]
    congr 1
    have hchildren : (comp.children.map (fun nm =>
        match alGet (buildByName cs) nm with
        | some j =>
          match (crossReferenceComponents cs).get? j with
          | some c => c.id
          | none => nm
        | none => nm)).filter (fun s => s ≠ "") = comp.children := by
      have hmapid : comp.children.map (fun nm =>
          match alGet (buildByName cs) nm with
          | some j =>
            match (crossReferenceComponents cs).get? j with
            | some c => c.id
            | none => nm
          | none => nm) = comp.children := by
        have : ∀ nm ∈ comp.children, (match alGet (buildByName cs) nm with
            | some j =>
              match (crossReferenceComponents cs).get? j with
              | some c => c.id
              | none => nm
            | none => nm) = nm := by
          intro nm hnm
          rw [hents k comp hk nm hnm]
        calc comp.children.map _ = comp.children.map id :=
              List.map_congr_left this
          _ = comp.children := List.map_id comp.children
      rw [hmapid]
      rw [List.filter_eq_self.mpr]
      intro a ha
      simpa using (crossref_children_entries cs k comp hk a ha).1
    rw [hchildren]

theorem get?_inj_of_map_nodup {α : Type} {f : α → String}
    {l : List α} {i j : Nat} {a b : α} (hn : (l.map f).Nodup)
    (hi : l.get? i = some a) (hj : l.get? j = some b) (hf : f a = f b) :
    i = j := by
  have hi' : (l.map f).get? i = some (f a) := by
    rw [List.get?_map, hi]; rfl
  have hj' : (l.map f).get? j = some (f b) := by
    rw [List.get?_map, hj]; rfl
  have hlt : i < (l.map f).length := by
    by_contra hge
    rw [List.get?_eq_none.mpr (Nat.le_of_not_lt hge)] at hi'
    exact absurd hi' (by simp)
  exact List.get?_inj hlt hn (by rw [hi', hj', hf])

theorem crossref_length (cs : List ComponentInfo) :
    (crossReferenceComponents cs).length = cs.length := by
  unfold crossReferenceComponents crossRefPhase2
  rw [List.length_map]
  exact (crossRefPhase1_spec (buildByName cs) cs).1

/-- Decomposition of one output position of `crossReferenceComponents`:
the phase-1 state and the original component at that position, and how the
output's fields derive from them. -/
theorem crossref_get_decomp (cs : List ComponentInfo) (k : Nat)
    (A : ComponentInfo)
    (h : (crossReferenceComponents cs).get? k = some A) :
    ∃ A1 A0, (crossRefPhase1 (buildByName cs) cs).get? k = some A1 ∧
      cs.get? k = some A0 ∧
      A.id = A0.id ∧ A.usedBy = A1.usedBy ∧
      A.children = (A0.children.map (fun nm =>
        match alGet (buildByName cs) nm with
        | some j =>
          match cs.get? j with
          | some c => c.id
          | none => nm
        | none => nm)).filter (fun s => s ≠ "") := by
  unfold crossReferenceComponents at h
  rw [crossRefPhase2_get?] at h
  cases hst : (crossRefPhase1 (buildByName cs) cs).get? k with
  | none => rw [hst] at h; exact absurd h (by simp)
  | some A1 =>
    rw [hst] at h
    obtain rfl : _ = A := Option.some.inj h
    obtain ⟨-, hstrip, -⟩ := crossRefPhase1_spec (buildByName cs) cs
    have hs := hstrip k
    rw [hst] at hs
    cases hcs : cs.get? k with
    | none => rw [hcs] at hs; exact absurd hs (by simp)
    | some A0 =>
      rw [hcs] at hs
      have hsc : stripUsedBy A1 = stripUsedBy A0 := by simpa using hs
      have hid2 := congrArg (fun c => ComponentInfo.id c) hsc
      have hch2 := congrArg (fun c => ComponentInfo.children c) hsc
      have hid : A1.id = A0.id := hid2
      have hch : A1.children = A0.children := hch2
      refine ⟨A1, A0, rfl, rfl, hid, rfl, ?_⟩
      simp only
      rw [hch]

/-- C2 (amended): after cross-referencing an analyzer-shaped input
(pairwise-distinct non-empty ids, empty `usedBy`), bidirectional consistency
`B.id ∈ A.children ↔ A.id ∈ B.usedBy` holds for all output components A and
B, provided additionally that no component's id occurs among the child names
that resolve to nothing (such an unresolved name stays in `children` verbatim
and would otherwise collide with an id without generating a back-edge). -/
theorem crossref_bidirectional_amended (cs : List ComponentInfo)
    (hid : (cs.map (fun c => c.id)).Nodup)
    (hub : ∀ c ∈ cs, c.usedBy = [])
    (hne : ∀ c ∈ cs, c.id ≠ "")
    (hnc : ∀ c ∈ cs, ∀ n ∈ c.children,
      alGet (buildByName cs) n = none → ∀ d ∈ cs, d.id ≠ n) :
    ∀ A ∈ crossReferenceComponents cs, ∀ B ∈ crossReferenceComponents cs,
      (B.id ∈ A.children ↔ A.id ∈ B.usedBy) := by
  intro A hA B hB
  obtain ⟨ia, hia⟩ := List.mem_iff_get?.mp hA
  obtain ⟨jb, hjb⟩ := List.mem_iff_get?.mp hB
  obtain ⟨A1, A0, hA1, hA0, hAid, hAub, hAch⟩ :=
    crossref_get_decomp cs ia A hia
  obtain ⟨B1, B0, hB1, hB0, hBid, hBub, hBch⟩ :=
    crossref_get_decomp cs jb B hjb
  obtain ⟨-, -, hmem⟩ := crossRefPhase1_spec (buildByName cs) cs
  constructor
  · intro hBA
    rw [hAch] at hBA
    have hmap := (List.mem_filter.mp hBA).1
    obtain ⟨nm, hnm, hres⟩ := List.mem_map.mp hmap
    cases halg : alGet (buildByName cs) nm with
    | none =>
      rw [halg] at hres
      exact absurd hBid.symm
        (hres ▸ hnc A0 (List.get?_mem hA0) nm hnm halg B0 (List.get?_mem hB0))
    | some j =>
      rw [halg] at hres
      obtain ⟨c, hc, -⟩ := buildByName_get_name halg
      have hres2 : (match cs.get? j with
        | some c => c.id
        | none => nm) = B.id := hres
      rw [hc] at hres2
      have hcid : c.id = B.id := hres2
      have hjjb : j = jb :=
        get?_inj_of_map_nodup hid hc hB0 (hcid.trans hBid)
      subst hjjb
      rw [hBub]
      have : memUsedBy (crossRefPhase1 (buildByName cs) cs) j A.id := by
        rw [hmem j A.id]
        right
        refine ⟨ia, A0, hA0, hAid, ?_, nm, hnm, halg⟩
        by_contra hge
        rw [List.get?_eq_none.mpr (Nat.le_of_not_lt hge)] at hB0
        exact absurd hB0 (by simp)
      obtain ⟨c', hc', hx⟩ := this
      rw [hB1] at hc'
      obtain rfl : B1 = c' := Option.some.inj hc'
      exact hx
  · intro hAB
    rw [hBub] at hAB
    have hmm : memUsedBy (crossRefPhase1 (buildByName cs) cs) jb A.id :=
      ⟨B1, hB1, hAB⟩
    rw [hmem jb A.id] at hmm
    rcases hmm with ⟨c, hc, hx⟩ | ⟨i, comp, hcomp, hxid, hlt, nm, hnm, halg⟩
    · rw [hB0] at hc
      obtain rfl : B0 = c := Option.some.inj hc
      rw [hub B0 (List.get?_mem hB0)] at hx
      exact absurd hx (by simp)
    · have hiia : i = ia :=
        get?_inj_of_map_nodup hid hcomp hA0 (hxid.symm.trans hAid)
      subst hiia
      obtain rfl : A0 = comp := by
        rw [hA0] at hcomp
        exact Option.some.inj hcomp
      rw [hAch]
      rw [List.mem_filter]
      constructor
      · refine List.mem_map.mpr ⟨nm, hnm, ?_⟩
        rw [halg]
        have hstep : (match cs.get? jb with
          | some c => c.id
          | none => nm) = B.id := by
          rw [hB0, hBid]
        exact hstep
      · rw [hBid]
        simpa using hne B0 (List.get?_mem hB0)

/-- C4 (amended): on a name collision the LAST occurrence wins: a child name
`n` carried by the component at position `i` is wired to the component at the
greatest position `j` whose name is `n` — its id is written into `children`
(provided that id is non-empty, else `filter(Boolean)` drops it) and the
referring component's id lands in its `usedBy`. -/
theorem crossref_last_wins_amended (cs : List ComponentInfo)
    (i j : Nat) (n : String) (comp compJ : ComponentInfo)
    (hi : cs.get? i = some comp) (hn : n ∈ comp.children)
    (hj : cs.get? j = some compJ) (hname : compJ.name = n)
    (hlast : ∀ k d, j < k → cs.get? k = some d → d.name ≠ n)
    (hjid : compJ.id ≠ "") :
    (∃ A, (crossReferenceComponents cs).get? i = some A ∧
      compJ.id ∈ A.children) ∧
    (∃ B, (crossReferenceComponents cs).get? j = some B ∧
      comp.id ∈ B.usedBy) := by
  have halg : alGet (buildByName cs) n = some j :=
    buildByName_get_last hj hname hlast
  have hilt : i < cs.length := by
    by_contra hge
    rw [List.get?_eq_none.mpr (Nat.le_of_not_lt hge)] at hi
    exact absurd hi (by simp)
  have hjlt : j < cs.length := by
    by_contra hge
    rw [List.get?_eq_none.mpr (Nat.le_of_not_lt hge)] at hj
    exact absurd hj (by simp)
  obtain ⟨-, -, hmem⟩ := crossRefPhase1_spec (buildByName cs) cs
  constructor
  · obtain ⟨A, hA⟩ : ∃ A, (crossReferenceComponents cs).get? i = some A := by
      cases hA : (crossReferenceComponents cs).get? i with
      | none =>
        have := List.get?_eq_none.mp hA
        rw [crossref_length] at this
        omega
      | some A => exact ⟨A, rfl⟩
    refine ⟨A, hA, ?_⟩
    obtain ⟨A1, A0, hA1, hA0, -, -, hAch⟩ := crossref_get_decomp cs i A hA
    obtain rfl : A0 = comp := by
      rw [hi] at hA0
      exact (Option.some.inj hA0).symm
    rw [hAch, List.mem_filter]
    constructor
    · refine List.mem_map.mpr ⟨n, hn, ?_⟩
      rw [halg]
      have hstep : (match cs.get? j with
        | some c => c.id
        | none => n) = compJ.id := by rw [hj]
      exact hstep
    · simpa using hjid
  · obtain ⟨B, hB⟩ : ∃ B, (crossReferenceComponents cs).get? j = some B := by
      cases hB : (crossReferenceComponents cs).get? j with
      | none =>
        have := List.get?_eq_none.mp hB
        rw [crossref_length] at this
        omega
      | some B => exact ⟨B, rfl⟩
    refine ⟨B, hB, ?_⟩
    obtain ⟨B1, B0, hB1, hB0, -, hBub, -⟩ := crossref_get_decomp cs j B hB
    rw [hBub]
    have : memUsedBy (crossRefPhase1 (buildByName cs) cs) j comp.id := by
      rw [hmem j comp.id]
      exact Or.inr ⟨i, comp, hi, rfl, hjlt, n, hn, halg⟩
    obtain ⟨c', hc', hx⟩ := this
    rw [hB1] at hc'
    obtain rfl : B1 = c' := Option.some.inj hc'
    exact hx

/-- Witness for the amended C2 at a concrete two-component input. -/
theorem crossref_bidirectional_amended_witness :
    (([mkComp "p#A" "A" ["B"] [], mkComp "p#B" "B" [] []].map
        (fun c => c.id)).Nodup) ∧
    (∀ A ∈ crossReferenceComponents
        [mkComp "p#A" "A" ["B"] [], mkComp "p#B" "B" [] []],
      ∀ B ∈ crossReferenceComponents
        [mkComp "p#A" "A" ["B"] [], mkComp "p#B" "B" [] []],
        (B.id ∈ A.children ↔ A.id ∈ B.usedBy)) :=
  ⟨by decide,
    crossref_bidirectional_amended
      [mkComp "p#A" "A" ["B"] [], mkComp "p#B" "B" [] []]
      (by decide) (by decide) (by decide) (by decide)⟩

/-- Witness for the amended C3 at a concrete two-component input. -/
theorem crossref_idempotent_amended_witness :
    (∀ a ∈ [mkComp "p#A" "A" ["B"] [], mkComp "p#B" "B" [] []],
      ∀ b ∈ [mkComp "p#A" "A" ["B"] [], mkComp "p#B" "B" [] []],
        a.id ≠ b.name) ∧
    crossReferenceComponents (crossReferenceComponents
        [mkComp "p#A" "A" ["B"] [], mkComp "p#B" "B" [] []]) =
      crossReferenceComponents
        [mkComp "p#A" "A" ["B"] [], mkComp "p#B" "B" [] []] :=
  ⟨by decide,
    crossref_idempotent_amended
      [mkComp "p#A" "A" ["B"] [], mkComp "p#B" "B" [] []] (by decide)⟩

/-- Witness for the amended C4 at the three-component collision input. -/
theorem crossref_last_wins_amended_witness :
    (([mkComp "1" "X" [] [], mkComp "2" "X" [] [],
        mkComp "3" "A" ["X"] []].get? 2 = some (mkComp "3" "A" ["X"] [])) ∧
      "X" ∈ (mkComp "3" "A" ["X"] []).children) ∧
    ((∃ A, (crossReferenceComponents [mkComp "1" "X" [] [],
        mkComp "2" "X" [] [], mkComp "3" "A" ["X"] []]).get? 2 = some A ∧
        (mkComp "2" "X" [] []).id ∈ A.children) ∧
     (∃ B, (crossReferenceComponents [mkComp "1" "X" [] [],
        mkComp "2" "X" [] [], mkComp "3" "A" ["X"] []]).get? 1 = some B ∧
        (mkComp "3" "A" ["X"] []).id ∈ B.usedBy)) := by
  constructor
  · exact ⟨by decide, by decide⟩
  · refine crossref_last_wins_amended
      [mkComp "1" "X" [] [], mkComp "2" "X" [] [], mkComp "3" "A" ["X"] []]
      2 1 "X" (mkComp "3" "A" ["X"] []) (mkComp "2" "X" [] [])
      (by decide) (by decide) (by decide) (by decide) ?_ (by decide)
    intro k d hk hget
    have hcase : k = 2 ∨ 3 ≤ k := by omega
    rcases hcase with rfl | h3
    · obtain rfl : mkComp "3" "A" ["X"] [] = d := Option.some.inj hget
      decide
    · rw [List.get?_eq_none.mpr (by simpa using h3)] at hget
      exact absurd hget (by simp)

-- ============================================================
-- C8 (amended): which operations can and cannot change a snapshot
-- ============================================================

/-- C8 (amended): the snapshot's top-level collections are fresh arrays, so
every registry-level operation — `addComponent` (which allocates a fresh
object), `removeComponent`, `addImport`, `setBundleInfo`, `setHealth`,
`clear` — leaves the snapshot's observable contents unchanged; the
counterexample separately shows that in-place mutation of a shared component
object does change them. Hypothesis: the registry's stored references are
live (point into the heap). -/
theorem createSnapshot_ops_preserve_view (h : ComponentHeap)
    (r : RegistryRefs) (commitSha branch : String) (now : Nat)
    (createdAt : String) (c : ComponentInfo) (id : String) (e : ImportEdge)
    (b : ComponentBundleInfo) (hc : ComponentHealth)
    (hrefs : ∀ p ∈ r.components, p.2 < h.length) :
    viewComponents (addComponentRefs h r c).1
        (r.createSnapshot commitSha branch now createdAt) =
      viewComponents h (r.createSnapshot commitSha branch now createdAt) ∧
    viewComponents (removeComponentRefs h r id).1
        (r.createSnapshot commitSha branch now createdAt) =
      viewComponents h (r.createSnapshot commitSha branch now createdAt) ∧
    viewComponents (addImportRefs h r e).1
        (r.createSnapshot commitSha branch now createdAt) =
      viewComponents h (r.createSnapshot commitSha branch now createdAt) ∧
    viewComponents (setBundleInfoRefs h r b).1
        (r.createSnapshot commitSha branch now createdAt) =
      viewComponents h (r.createSnapshot commitSha branch now createdAt) ∧
    viewComponents (setHealthRefs h r hc).1
        (r.createSnapshot commitSha branch now createdAt) =
      viewComponents h (r.createSnapshot commitSha branch now createdAt) ∧
    viewComponents (clearRefs h r).1
        (r.createSnapshot commitSha branch now createdAt) =
      viewComponents h (r.createSnapshot commitSha branch now createdAt) := by
  refine ⟨?_, rfl, rfl, rfl, rfl, rfl⟩
  show viewComponents (h ++ [c]) (r.createSnapshot commitSha branch now
    createdAt) = viewComponents h (r.createSnapshot commitSha branch now
    createdAt)
  unfold viewComponents RegistryRefs.createSnapshot
  apply List.filterMap_congr
  intro ref href
  obtain ⟨p, hp, rfl⟩ := List.mem_map.mp href
  exact List.get?_append (hrefs p hp)

/-- Witness for the amended C8 at a concrete one-component registry. -/
theorem createSnapshot_ops_preserve_view_witness :
    (∀ p ∈ ({ components := [("a", 0)], imports := [], bundleInfo := [],
              health := [] } : RegistryRefs).components,
      p.2 < ([mkComp "a" "A" [] []] : ComponentHeap).length) ∧
    viewComponents
        (addComponentRefs [mkComp "a" "A" [] []]
          { components := [("a", 0)], imports := [], bundleInfo := [],
            health := [] } (mkComp "b" "B" [] [])).1
        (RegistryRefs.createSnapshot
          { components := [("a", 0)], imports := [], bundleInfo := [],
            health := [] } "deadbeef" "main" 0 "t0") =
      viewComponents [mkComp "a" "A" [] []]
        (RegistryRefs.createSnapshot
          { components := [("a", 0)], imports := [], bundleInfo := [],
            health := [] } "deadbeef" "main" 0 "t0") :=
  ⟨by decide,
    (createSnapshot_ops_preserve_view [mkComp "a" "A" [] []]
      { components := [("a", 0)], imports := [], bundleInfo := [],
        health := [] } "deadbeef" "main" 0 "t0" (mkComp "b" "B" [] []) "x"
      ⟨"s", "t", [], false⟩
      ⟨"a", ⟨1, 1, none⟩, ⟨1, 1, none⟩, ⟨1, 1, none⟩, []⟩
      ⟨"a", 1,
        ⟨⟨1, "", "", "good"⟩, ⟨1, "", "", "good"⟩, ⟨1, "", "", "good"⟩,
         ⟨1, "", "", "good"⟩, ⟨1, "", "", "good"⟩, ⟨1, "", "", "good"⟩⟩,
        "t"⟩
      (by decide)).1⟩

-- ============================================================
-- C7: getSubtree termination and exact reachability
-- ============================================================

theorem foldl_add_eq_sum {α : Type} (f : α → Nat) :
    ∀ (l : List α) (a : Nat),
      l.foldl (fun acc x => acc + f x) a = a + (l.map f).sum := by
  intro l
  induction l with
  | nil => intro a; simp
  | cons x t ih =>
    intro a
    rw [List.foldl_cons, ih (a + f x), List.map_cons, List.sum_cons]
    omega

/-- Splitting the pending-children sum when a present, unvisited key is
marked visited. -/
theorem pending_split {l : List (String × ComponentInfo)}
    (hn : (l.map Prod.fst).Nodup) {cur : String} {comp : ComponentInfo}
    (hmem : (cur, comp) ∈ l) (visited : List String) (hcur : cur ∉ visited) :
    ((l.filter (fun p => p.1 ∉ visited)).map
      (fun p => p.2.children.length)).sum =
    ((l.filter (fun p => p.1 ∉ visited ++ [cur])).map
      (fun p => p.2.children.length)).sum + comp.children.length := by
  induction l with
  | nil => simp at hmem
  | cons p t ih =>
    have hkey : p.1 ∉ t.map Prod.fst := (List.nodup_cons.mp hn).1
    rcases List.mem_cons.mp hmem with heq | hmemt
    · subst heq
      have hfcur : ∀ q ∈ t, (decide (q.1 ∉ visited) : Bool) =
          decide (q.1 ∉ visited ++ [cur]) := by
        intro q hq
        have hne : q.1 ≠ cur := by
          intro hh
          exact hkey (hh ▸ List.mem_map.mpr ⟨q, hq, rfl⟩)
        by_cases hqv : q.1 ∈ visited
        · simp [hqv]
        · simp [hqv, hne]
      rw [List.filter_cons, List.filter_cons]
      rw [if_pos (by simpa using hcur),
        if_neg (by simp)]
      rw [List.filter_congr hfcur]
      simp only [List.map_cons, List.sum_cons]
      omega
    · have hne : p.1 ≠ cur := by
        intro hh
        exact hkey (hh ▸ List.mem_map.mpr ⟨(cur, comp), hmemt, rfl⟩)
      have hsame : (decide (p.1 ∉ visited) : Bool) =
          decide (p.1 ∉ visited ++ [cur]) := by
        by_cases hpv : p.1 ∈ visited
        · simp [hpv]
        · simp [hpv, hne]
      rw [List.filter_cons, List.filter_cons, ← hsame]
      by_cases hpv : p.1 ∉ visited
      · rw [if_pos (by simpa using hpv), if_pos (by simpa using hpv)]
        simp only [List.map_cons, List.sum_cons]
        rw [ih (List.nodup_cons.mp hn).2 hmemt]
        omega
      · rw [if_neg (by simpa using hpv), if_neg (by simpa using hpv)]
        exact ih (List.nodup_cons.mp hn).2 hmemt

/-- Unvisited keys absent from the registry do not change the pending sum. -/
theorem pending_same {l : List (String × ComponentInfo)} {cur : String}
    (habs : ∀ p ∈ l, p.1 ≠ cur) (visited : List String) :
    ((l.filter (fun p => p.1 ∉ visited ++ [cur])).map
      (fun p => p.2.children.length)).sum =
    ((l.filter (fun p => p.1 ∉ visited)).map
      (fun p => p.2.children.length)).sum := by
  have hf : ∀ q ∈ l, (decide (q.1 ∉ visited ++ [cur]) : Bool) =
      decide (q.1 ∉ visited) := by
    intro q hq
    by_cases hqv : q.1 ∈ visited
    · simp [hqv]
    · simp [hqv, habs q hq]
  rw [List.filter_congr hf]

theorem subtreeLoop_spec (r : ComponentRegistry) (root : String)
    (hwf : WFreg r) :
    ∀ (fuel : Nat) (queue visited : List String)
      (result : List ComponentInfo),
      (∀ x ∈ visited, ReachableFrom r root x) →
      (∀ x ∈ queue, ReachableFrom r root x) →
      (∀ x ∈ visited, ∀ c, alGet r.components x = some c →
        ∀ y ∈ c.children, y ∈ visited ∨ y ∈ queue) →
      (∀ c, c ∈ result ↔
        (c.id ∈ visited ∧ alGet r.components c.id = some c)) →
      ((result.map (fun c => c.id)).Nodup) →
      (root ∈ visited ∨ root ∈ queue) →
      (queue.length +
        ((r.components.filter (fun p => p.1 ∉ visited)).map
          (fun p => p.2.children.length)).sum ≤ fuel) →
      ∃ vis : List String,
        (∀ x ∈ vis, ReachableFrom r root x) ∧
        (∀ x ∈ vis, ∀ c, alGet r.components x = some c →
          ∀ y ∈ c.children, y ∈ vis) ∧
        root ∈ vis ∧
        (∀ c, c ∈ subtreeLoop r fuel queue visited result ↔
          (c.id ∈ vis ∧ alGet r.components c.id = some c)) ∧
        ((subtreeLoop r fuel queue visited result).map
          (fun c => c.id)).Nodup := by
  intro fuel
  induction fuel with
  | zero =>
    intro queue visited result ha hb hc hd he hf hg
    obtain rfl : queue = [] := by
      cases queue with
      | nil => rfl
      | cons q t => simp at hg
    refine ⟨visited, ha, ?_, ?_, hd, he⟩
    · intro x hx c hcx y hy
      rcases hc x hx c hcx y hy with h | h
      · exact h
      · simp at h
    · rcases hf with h | h
      · exact h
      · simp at h
  | succ f ih =>
    intro queue visited result ha hb hc hd he hf hg
    cases queue with
    | nil =>
      refine ⟨visited, ha, ?_, ?_, hd, he⟩
      · intro x hx c hcx y hy
        rcases hc x hx c hcx y hy with h | h
        · exact h
        · simp at h
      · rcases hf with h | h
        · exact h
        · simp at h
    | cons cur rest =>
      by_cases hv : cur ∈ visited
      · have hstep : subtreeLoop r (f + 1) (cur :: rest) visited result =
            subtreeLoop r f rest visited result := by
          simp only [subtreeLoop]
          rw [if_pos hv]
        rw [hstep]
        refine ih rest visited result ha
          (fun x hx => hb x (List.mem_cons_of_mem cur hx)) ?_ hd he ?_ ?_
        · intro x hx c hcx y hy
          rcases hc x hx c hcx y hy with h | h
          · exact Or.inl h
          · rcases List.mem_cons.mp h with rfl | h2
            · exact Or.inl hv
            · exact Or.inr h2
        · rcases hf with h | h
          · exact Or.inl h
          · rcases List.mem_cons.mp h with rfl | h2
            · exact Or.inl hv
            · exact Or.inr h2
        · have := hg
          simp only [List.length_cons] at this
          omega
      · cases hget : alGet r.components cur with
        | none =>
          have hstep : subtreeLoop r (f + 1) (cur :: rest) visited result =
              subtreeLoop r f rest (visited ++ [cur]) result := by
            simp only [subtreeLoop]
            rw [if_neg hv]
            simp only [hget]
          rw [hstep]
          have habs : ∀ p ∈ r.components, p.1 ≠ cur := alGet_eq_none.mp hget
          refine ih rest (visited ++ [cur]) result ?_
            (fun x hx => hb x (List.mem_cons_of_mem cur hx)) ?_ ?_ he ?_ ?_
          · intro x hx
            rcases List.mem_append.mp hx with h | h
            · exact ha x h
            · obtain rfl : x = cur := by simpa using h
              exact hb x (List.mem_cons_self x rest)
          · intro x hx c hcx y hy
            rcases List.mem_append.mp hx with h | h
            · rcases hc x h c hcx y hy with h2 | h2
              · exact Or.inl (List.mem_append.mpr (Or.inl h2))
              · rcases List.mem_cons.mp h2 with rfl | h3
                · exact Or.inl (List.mem_append.mpr (Or.inr (by simp)))
                · exact Or.inr h3
            · obtain rfl : x = cur := by simpa using h
              rw [hget] at hcx
              exact absurd hcx (by simp)
          · intro c
            rw [hd c]
            constructor
            · rintro ⟨h1, h2⟩
              exact ⟨List.mem_append.mpr (Or.inl h1), h2⟩
            · rintro ⟨h1, h2⟩
              rcases List.mem_append.mp h1 with h | h
              · exact ⟨h, h2⟩
              · obtain heq : c.id = cur := by simpa using h
                rw [heq, hget] at h2
                exact absurd h2 (by simp)
          · rcases hf with h | h
            · exact Or.inl (List.mem_append.mpr (Or.inl h))
            · rcases List.mem_cons.mp h with rfl | h2
              · exact Or.inl (List.mem_append.mpr (Or.inr (by simp)))
              · exact Or.inr h2
          · rw [pending_same habs visited]
            have := hg
            simp only [List.length_cons] at this
            omega
        | some comp =>
          have hcm : (cur, comp) ∈ r.components := alGet_mem hget
          have hcompid : comp.id = cur := hwf.2 (cur, comp) hcm
          have hstep : subtreeLoop r (f + 1) (cur :: rest) visited result =
              subtreeLoop r f
                (rest ++ comp.children.filter (fun c => c ∉ visited ++ [cur]))
                (visited ++ [cur]) (result ++ [comp]) := by
            simp only [subtreeLoop]
            rw [if_neg hv]
            simp only [hget]
          rw [hstep]
          have hcurreach : ReachableFrom r root cur :=
            hb cur (List.mem_cons_self cur rest)
          refine ih _ (visited ++ [cur]) (result ++ [comp]) ?_ ?_ ?_ ?_ ?_ ?_ ?_
          · intro x hx
            rcases List.mem_append.mp hx with h | h
            · exact ha x h
            · obtain rfl : x = cur := by simpa using h
              exact hcurreach
          · intro x hx
            rcases List.mem_append.mp hx with h | h
            · exact hb x (List.mem_cons_of_mem cur h)
            · have hxch : x ∈ comp.children := List.mem_of_mem_filter h
              exact ReachableFrom.step hcurreach hget hxch
          · intro x hx c hcx y hy
            rcases List.mem_append.mp hx with h | h
            · rcases hc x h c hcx y hy with h2 | h2
              · exact Or.inl (List.mem_append.mpr (Or.inl h2))
              · rcases List.mem_cons.mp h2 with rfl | h3
                · exact Or.inl (List.mem_append.mpr (Or.inr (by simp)))
                · exact Or.inr (List.mem_append.mpr (Or.inl h3))
            · have hx2 : x = cur := by simpa using h
              rw [hx2, hget] at hcx
              obtain rfl : comp = c := Option.some.inj hcx
              by_cases hyv : y ∈ visited ++ [cur]
              · exact Or.inl hyv
              · refine Or.inr (List.mem_append.mpr (Or.inr ?_))
                rw [List.mem_filter]
                exact ⟨hy, by simpa using hyv⟩
          · intro c
            constructor
            · intro hcr
              rcases List.mem_append.mp hcr with h | h
              · obtain ⟨h1, h2⟩ := (hd c).mp h
                exact ⟨List.mem_append.mpr (Or.inl h1), h2⟩
              · obtain rfl : c = comp := by simpa using h
                rw [hcompid]
                exact ⟨List.mem_append.mpr (Or.inr (by simp)), hget⟩
            · rintro ⟨h1, h2⟩
              rcases List.mem_append.mp h1 with h | h
              · exact List.mem_append.mpr (Or.inl ((hd c).mpr ⟨h, h2⟩))
              · obtain heq : c.id = cur := by simpa using h
                rw [heq, hget] at h2
                obtain rfl : comp = c := Option.some.inj h2
                exact List.mem_append.mpr (Or.inr (by simp))
          · rw [List.map_append]
            refine List.Nodup.append he (by simp) ?_
            intro a haa hab
            obtain rfl : a = comp.id := by simpa using hab
            obtain ⟨c, hcr, hcid⟩ := List.mem_map.mp haa
            obtain ⟨h1, -⟩ := (hd c).mp hcr
            rw [hcid, hcompid] at h1
            exact hv h1
          · rcases hf with h | h
            · exact Or.inl (List.mem_append.mpr (Or.inl h))
            · rcases List.mem_cons.mp h with rfl | h2
              · exact Or.inl (List.mem_append.mpr (Or.inr (by simp)))
              · exact Or.inr (List.mem_append.mpr (Or.inl h2))
          · have hsplit := pending_split hwf.1 hcm visited hv
            have hflen : (comp.children.filter
                (fun c => c ∉ visited ++ [cur])).length ≤
                comp.children.length := List.length_filter_le _ _
            have hq := hg
            simp only [List.length_cons] at hq
            rw [List.length_append]
            omega

/-- C7: for a well-formed registry and a present root id, `getSubtree`
terminates with exactly the components reachable from the root via `children`
edges, each exactly once, with the root's component included. -/
theorem getSubtree_spec (r : ComponentRegistry) (id : String)
    (hwf : WFreg r) (c₀ : ComponentInfo)
    (hpres : alGet r.components id = some c₀) :
    (∀ c, c ∈ r.getSubtree id ↔
      (ReachableFrom r id c.id ∧ alGet r.components c.id = some c)) ∧
    ((r.getSubtree id).map (fun c => c.id)).Nodup ∧
    c₀ ∈ r.getSubtree id := by
  have hfuel : [id].length +
      ((r.components.filter (fun p => p.1 ∉ ([] : List String))).map
        (fun p => p.2.children.length)).sum ≤ subtreeFuel r := by
    unfold subtreeFuel
    rw [foldl_add_eq_sum]
    have : r.components.filter (fun p => p.1 ∉ ([] : List String)) =
        r.components := List.filter_eq_self.mpr (by simp)
    rw [this]
    simp
  obtain ⟨vis, hva, hvc, hvroot, hvd, hve⟩ :=
    subtreeLoop_spec r id hwf (subtreeFuel r) [id] [] []
      (by simp) (by simp [ReachableFrom.root])
      (by simp) (by simp) (by simp) (by simp) hfuel
  have hreach_sub : ∀ x, ReachableFrom r id x → x ∈ vis := by
    intro x hx
    induction hx with
    | root => exact hvroot
    | step hr hgetx hych ihx => exact hvc _ ihx _ hgetx _ hych
  have hmain : ∀ c, c ∈ r.getSubtree id ↔
      (ReachableFrom r id c.id ∧ alGet r.components c.id = some c) := by
    intro c
    unfold ComponentRegistry.getSubtree
    rw [hvd c]
    constructor
    · rintro ⟨h1, h2⟩
      exact ⟨hva c.id h1, h2⟩
    · rintro ⟨h1, h2⟩
      exact ⟨hreach_sub c.id h1, h2⟩
  refine ⟨hmain, hve, ?_⟩
  rw [hmain c₀]
  have hc0id : c₀.id = id := hwf.2 (id, c₀) (alGet_mem hpres)
  rw [hc0id]
  exact ⟨ReachableFrom.root, hpres⟩

/-- Witness for C7 at a registry whose `children` arrays form a cycle
(a → b → a): the traversal still terminates and returns both components. -/
theorem getSubtree_spec_witness :
    WFreg ⟨[("a", mkComp "a" "A" ["b"] []), ("b", mkComp "b" "B" ["a"] [])],
      [], [], []⟩ ∧
    (mkComp "a" "A" ["b"] []) ∈
      (⟨[("a", mkComp "a" "A" ["b"] []), ("b", mkComp "b" "B" ["a"] [])],
        [], [], []⟩ : ComponentRegistry).getSubtree "a" :=
  ⟨⟨by decide, by decide⟩,
    (getSubtree_spec
      ⟨[("a", mkComp "a" "A" ["b"] []), ("b", mkComp "b" "B" ["a"] [])],
        [], [], []⟩ "a" ⟨by decide, by decide⟩ (mkComp "a" "A" ["b"] [])
      (by decide)).2.2⟩

-- ============================================================
-- Dependency graph: addEdge characterization and well-formedness
-- ============================================================

theorem ensureNode_alGet (g : DependencyGraph) (x k : String) :
    alGet (g.ensureNode x).nodes k =
      if k = x then some ((alGet g.nodes x).getD ⟨x, [], []⟩)
      else alGet g.nodes k := by
  unfold DependencyGraph.ensureNode
  by_cases hx : (alGet g.nodes x).isSome
  · rw [if_pos hx]
    obtain ⟨n, hn⟩ := Option.isSome_iff_exists.mp hx
    by_cases hk : k = x
    · subst hk
      rw [if_pos rfl, hn]
      rfl
    · rw [if_neg hk]
  · rw [if_neg hx]
    have hnone : alGet g.nodes x = none := by
      cases hg : alGet g.nodes x with
      | none => rfl
      | some n => rw [hg] at hx; simp at hx
    simp only
    by_cases hk : k = x
    · subst hk
      rw [if_pos rfl, hnone]
      unfold alGet
      rw [List.find?_append]
      have hfnone : g.nodes.find? (fun p => decide (p.1 = k)) = none := by
        unfold alGet at hnone
        cases hf : g.nodes.find? (fun p => decide (p.1 = k)) with
        | none => rfl
        | some q => rw [hf] at hnone; exact absurd hnone (by simp)
      rw [hfnone]
      simp [List.find?]
    · rw [if_neg hk]
      unfold alGet
      rw [List.find?_append]
      cases hf : g.nodes.find? (fun p => decide (p.1 = k)) with
      | none =>
        simp only [Option.none_or]
        rw [List.find?_cons_of_neg _ (by simpa using fun hh => hk hh.symm)]
        rfl
      | some q => rfl

theorem ensureNode_keys (g : DependencyGraph) (x : String) :
    (g.ensureNode x).nodes.map Prod.fst =
      if (alGet g.nodes x).isSome then g.nodes.map Prod.fst
      else g.nodes.map Prod.fst ++ [x] := by
  unfold DependencyGraph.ensureNode
  by_cases hx : (alGet g.nodes x).isSome
  · rw [if_pos hx, if_pos hx]
  · rw [if_neg hx, if_neg hx]
    simp

theorem alGet_map_update (f : (String × GraphNode) → GraphNode)
    (m : List (String × GraphNode)) (s k : String) :
    alGet (m.map (fun p => if p.1 = s then (p.1, f p) else p)) k =
      if k = s then (alGet m k).map (fun n => f (k, n)) else alGet m k := by
  unfold alGet
  have hpred : (fun (p : String × GraphNode) => decide (p.1 = k)) ∘
      (fun p => if p.1 = s then (p.1, f p) else p) =
      (fun p => decide (p.1 = k)) := by
    funext p
    by_cases hp : p.1 = s <;> simp [hp]
  rw [List.find?_map, hpred]
  cases hf : m.find? (fun p => decide (p.1 = k)) with
  | none => by_cases hk : k = s <;> simp [hk]
  | some q =>
    have hq1 : q.1 = k := by simpa using List.find?_some hf
    have hred : Option.map (fun p => if p.1 = s then (p.1, f p) else p)
        (some q) = some (if q.1 = s then (q.1, f q) else q) := rfl
    by_cases hk : k = s
    · subst hk
      rw [if_pos rfl]
      have hq : (if q.1 = k then (q.1, f q) else q) = (q.1, f q) :=
        if_pos (by rw [hq1])
      rw [hred, hq]
      have hqpair : q = (k, q.2) := by
        obtain ⟨a, b⟩ := q
        exact Prod.ext hq1 rfl
      rw [hqpair]
      rfl
    · rw [if_neg hk]
      have hq : (if q.1 = s then (q.1, f q) else q) = q :=
        if_neg (by rw [hq1]; exact hk)
      rw [hred, hq]

theorem map_update_keys (f : (String × GraphNode) → GraphNode)
    (m : List (String × GraphNode)) (s : String) :
    (m.map (fun p => if p.1 = s then (p.1, f p) else p)).map Prod.fst =
      m.map Prod.fst := by
  rw [List.map_map]
  apply List.map_congr_left
  intro p _
  by_cases hp : p.1 = s <;> simp [hp]

theorem edgeMem_eq_true_iff (g : DependencyGraph) (u v : String) :
    edgeMem g u v = true ↔
      ∃ n, alGet g.nodes u = some n ∧ v ∈ n.outgoing := by
  unfold edgeMem
  cases hg : alGet g.nodes u with
  | none => simp
  | some n => simp [List.elem_iff]

theorem revEdgeMem_eq_true_iff (g : DependencyGraph) (u v : String) :
    revEdgeMem g u v = true ↔
      ∃ n, alGet g.nodes v = some n ∧ u ∈ n.incoming := by
  unfold revEdgeMem
  cases hg : alGet g.nodes v with
  | none => simp
  | some n => simp [List.elem_iff]

theorem ensure2_alGet (g : DependencyGraph) (s t u : String) :
    alGet ((g.ensureNode s).ensureNode t).nodes u =
      if u = s ∨ u = t then some ((alGet g.nodes u).getD ⟨u, [], []⟩)
      else alGet g.nodes u := by
  rw [ensureNode_alGet]
  by_cases hut : u = t
  · subst hut
    rw [if_pos rfl, if_pos (Or.inr rfl), ensureNode_alGet]
    by_cases hus : u = s
    · subst hus
      rw [if_pos rfl]
      rfl
    · rw [if_neg hus]
  · rw [if_neg hut, ensureNode_alGet]
    by_cases hus : u = s
    · subst hus
      rw [if_pos rfl, if_pos (Or.inl rfl)]
    · rw [if_neg hus, if_neg (by rintro (h | h) <;> [exact hus h; exact hut h])]

/-- Full characterization of node lookup after `addEdge`: nodes other than
`s`/`t` are untouched; `s` gains `t` in `outgoing`, `t` gains `s` in
`incoming`, both created fresh if absent. -/
theorem addEdge_alGet2 (g : DependencyGraph) (s t u : String) :
    alGet (g.addEdge s t).nodes u =
      if u = s ∨ u = t then
        some (addEdgeNodeUpd s t u ((alGet g.nodes u).getD ⟨u, [], []⟩))
      else alGet g.nodes u := by
  have hshow : alGet (g.addEdge s t).nodes u =
      alGet ((((g.ensureNode s).ensureNode t).nodes.map
        (fun p => if p.1 = s then
          (p.1, { p.2 with outgoing := listSetAdd p.2.outgoing t }) else p)).map
        (fun p => if p.1 = t then
          (p.1, { p.2 with incoming := listSetAdd p.2.incoming s }) else p)) u :=
    rfl
  rw [hshow,
    alGet_map_update (fun p => { p.2 with incoming := listSetAdd p.2.incoming s }),
    alGet_map_update (fun p => { p.2 with outgoing := listSetAdd p.2.outgoing t }),
    ensure2_alGet]
  by_cases hus : u = s
  · subst hus
    by_cases hut : u = t
    · subst hut
      rw [if_pos (Or.inl rfl)]
      simp [addEdgeNodeUpd]
    · rw [if_pos (Or.inl rfl)]
      simp [addEdgeNodeUpd, hut]
  · by_cases hut : u = t
    · subst hut
      rw [if_pos (Or.inr rfl)]
      simp [addEdgeNodeUpd, hus]
    · simp [addEdgeNodeUpd, hus, hut]

theorem edgeMem_addEdge (g : DependencyGraph) (s t u v : String) :
    edgeMem (g.addEdge s t) u v = true ↔
      (edgeMem g u v = true ∨ (u = s ∧ v = t)) := by
  rw [edgeMem_eq_true_iff, edgeMem_eq_true_iff, addEdge_alGet2]
  by_cases hus : u = s
  · subst hus
    rw [if_pos (Or.inl rfl)]
    by_cases hut : u = t
    · subst hut
      cases hg : alGet g.nodes u <;>
        simp [addEdgeNodeUpd, mem_listSetAdd_iff]
    · cases hg : alGet g.nodes u <;>
        simp [addEdgeNodeUpd, hut, mem_listSetAdd_iff]
  · by_cases hut : u = t
    · subst hut
      rw [if_pos (Or.inr rfl)]
      cases hg : alGet g.nodes u <;>
        simp [addEdgeNodeUpd, hus, mem_listSetAdd_iff]
    · rw [if_neg (fun hh => hh.elim hus hut)]
      simp [hus]

theorem revEdgeMem_addEdge (g : DependencyGraph) (s t u v : String) :
    revEdgeMem (g.addEdge s t) u v = true ↔
      (revEdgeMem g u v = true ∨ (u = s ∧ v = t)) := by
  rw [revEdgeMem_eq_true_iff, revEdgeMem_eq_true_iff, addEdge_alGet2]
  by_cases hvt : v = t
  · subst hvt
    rw [if_pos (Or.inr rfl)]
    by_cases hvs : v = s
    · subst hvs
      cases hg : alGet g.nodes v <;>
        simp [addEdgeNodeUpd, mem_listSetAdd_iff]
    · cases hg : alGet g.nodes v <;>
        simp [addEdgeNodeUpd, hvs, mem_listSetAdd_iff]
  · by_cases hvs : v = s
    · subst hvs
      rw [if_pos (Or.inl rfl)]
      cases hg : alGet g.nodes v <;>
        simp [addEdgeNodeUpd, hvt, mem_listSetAdd_iff]
    · rw [if_neg (fun hh => hh.elim hvs hvt)]
      simp [hvt]

theorem ensureNode_keys_nodup {g : DependencyGraph} {x : String}
    (h : (g.getAllNodes).Nodup) : ((g.ensureNode x).getAllNodes).Nodup := by
  unfold DependencyGraph.getAllNodes at h ⊢
  rw [ensureNode_keys]
  by_cases hx : (alGet g.nodes x).isSome
  · rw [if_pos hx]
    exact h
  · rw [if_neg hx]
    refine List.Nodup.append h (by simp) ?_
    intro a ha hb
    obtain rfl : a = x := by simpa using hb
    refine hx ?_
    rw [alGet_isSome_iff_mem_keys]
    exact ha

theorem addEdge_keys (g : DependencyGraph) (s t : String) :
    (g.addEdge s t).nodes.map Prod.fst =
      ((g.ensureNode s).ensureNode t).nodes.map Prod.fst := by
  have hshow : (g.addEdge s t).nodes =
      (((g.ensureNode s).ensureNode t).nodes.map
        (fun p => if p.1 = s then
          (p.1, { p.2 with outgoing := listSetAdd p.2.outgoing t }) else p)).map
        (fun p => if p.1 = t then
          (p.1, { p.2 with incoming := listSetAdd p.2.incoming s }) else p) :=
    rfl
  rw [hshow,
    map_update_keys (fun p => { p.2 with incoming := listSetAdd p.2.incoming s }),
    map_update_keys (fun p => { p.2 with outgoing := listSetAdd p.2.outgoing t })]

theorem addEdge_keys_nodup {g : DependencyGraph} {s t : String}
    (h : (g.getAllNodes).Nodup) : ((g.addEdge s t).getAllNodes).Nodup := by
  have h2 := ensureNode_keys_nodup (ensureNode_keys_nodup h (x := s)) (x := t)
  unfold DependencyGraph.getAllNodes at h2 ⊢
  rw [addEdge_keys]
  exact h2

theorem mem_keys_addEdge (g : DependencyGraph) (s t k : String) :
    k ∈ (g.addEdge s t).getAllNodes ↔
      k ∈ g.getAllNodes ∨ k = s ∨ k = t := by
  unfold DependencyGraph.getAllNodes
  rw [← alGet_isSome_iff_mem_keys, ← alGet_isSome_iff_mem_keys,
    addEdge_alGet2]
  by_cases h : k = s ∨ k = t
  · rw [if_pos h]
    simp [h]
  · rw [if_neg h]
    push_neg at h
    simp [h.1, h.2]

theorem wfg_vals {g : DependencyGraph} (hwf : WFg g) :
    ∀ k n, alGet g.nodes k = some n → n.id = k ∧ n.outgoing.Nodup ∧
      n.incoming.Nodup ∧ (∀ x ∈ n.outgoing, x ∈ g.getAllNodes) ∧
      (∀ x ∈ n.incoming, x ∈ g.getAllNodes) := by
  intro k n h
  exact hwf.2.1 (k, n) (alGet_mem h)

theorem wfg_of_parts {g : DependencyGraph}
    (hkeys : (g.getAllNodes).Nodup)
    (hvals : ∀ k n, alGet g.nodes k = some n → n.id = k ∧
      n.outgoing.Nodup ∧ n.incoming.Nodup ∧
      (∀ x ∈ n.outgoing, x ∈ g.getAllNodes) ∧
      (∀ x ∈ n.incoming, x ∈ g.getAllNodes))
    (hdual : ∀ u v, edgeMem g u v = true ↔ revEdgeMem g u v = true) :
    WFg g := by
  refine ⟨hkeys, ?_, hdual⟩
  intro p hp
  have hget : alGet g.nodes p.1 = some p.2 := by
    apply alGet_of_mem_nodup
    · exact hkeys
    · obtain ⟨a, b⟩ := p
      exact hp
  exact hvals p.1 p.2 hget

theorem addEdgeNodeUpd_id (s t k : String) (n : GraphNode) :
    (addEdgeNodeUpd s t k n).id = n.id := by
  simp only [addEdgeNodeUpd]
  split <;> split <;> rfl

theorem addEdgeNodeUpd_outgoing (s t k : String) (n : GraphNode) :
    (addEdgeNodeUpd s t k n).outgoing =
      if k = s then listSetAdd n.outgoing t else n.outgoing := by
  simp only [addEdgeNodeUpd]
  split <;> split <;> rfl

theorem addEdgeNodeUpd_incoming (s t k : String) (n : GraphNode) :
    (addEdgeNodeUpd s t k n).incoming =
      if k = t then listSetAdd n.incoming s else n.incoming := by
  simp only [addEdgeNodeUpd]
  split <;> split <;> rfl

theorem wfg_addEdge {g : DependencyGraph} (s t : String) (hwf : WFg g) :
    WFg (g.addEdge s t) := by
  refine wfg_of_parts (addEdge_keys_nodup hwf.1) ?_ ?_
  · intro k n hget
    rw [addEdge_alGet2] at hget
    by_cases h : k = s ∨ k = t
    · rw [if_pos h] at hget
      obtain rfl : _ = n := Option.some.inj hget
      have hbase : ((alGet g.nodes k).getD ⟨k, [], []⟩).id = k ∧
          ((alGet g.nodes k).getD ⟨k, [], []⟩).outgoing.Nodup ∧
          ((alGet g.nodes k).getD ⟨k, [], []⟩).incoming.Nodup ∧
          (∀ x ∈ ((alGet g.nodes k).getD ⟨k, [], []⟩).outgoing,
            x ∈ g.getAllNodes) ∧
          (∀ x ∈ ((alGet g.nodes k).getD ⟨k, [], []⟩).incoming,
            x ∈ g.getAllNodes) := by
        cases hg : alGet g.nodes k with
        | none => simp
        | some m =>
          simp only [Option.getD_some]
          exact wfg_vals hwf k m hg
      obtain ⟨hid, hon, hin, hoc, hic⟩ := hbase
      refine ⟨?_, ?_, ?_, ?_, ?_⟩
      · rw [addEdgeNodeUpd_id, hid]
      · rw [addEdgeNodeUpd_outgoing]
        split
        · exact listSetAdd_nodup hon
        · exact hon
      · rw [addEdgeNodeUpd_incoming]
        split
        · exact listSetAdd_nodup hin
        · exact hin
      · intro x hx
        rw [addEdgeNodeUpd_outgoing] at hx
        rw [mem_keys_addEdge]
        by_cases hks : k = s
        · rw [if_pos hks] at hx
          rcases mem_listSetAdd_iff.mp hx with hx | rfl
          · exact Or.inl (hoc x hx)
          · exact Or.inr (Or.inr rfl)
        · rw [if_neg hks] at hx
          exact Or.inl (hoc x hx)
      · intro x hx
        rw [addEdgeNodeUpd_incoming] at hx
        rw [mem_keys_addEdge]
        by_cases hkt : k = t
        · rw [if_pos hkt] at hx
          rcases mem_listSetAdd_iff.mp hx with hx | rfl
          · exact Or.inl (hic x hx)
          · exact Or.inr (Or.inl rfl)
        · rw [if_neg hkt] at hx
          exact Or.inl (hic x hx)
    · rw [if_neg h] at hget
      obtain ⟨hid, hon, hin, hoc, hic⟩ := wfg_vals hwf k n hget
      refine ⟨hid, hon, hin, ?_, ?_⟩
      · intro x hx
        rw [mem_keys_addEdge]
        exact Or.inl (hoc x hx)
      · intro x hx
        rw [mem_keys_addEdge]
        exact Or.inl (hic x hx)
  · intro u v
    rw [edgeMem_addEdge, revEdgeMem_addEdge, hwf.2.2]

theorem fromImports_wfg (es : List ImportEdge) :
    WFg (DependencyGraph.fromImports es) := by
  unfold DependencyGraph.fromImports
  have hgen : ∀ (l : List ImportEdge) (g : DependencyGraph), WFg g →
      WFg (l.foldl (fun g e => g.addEdge e.source e.target) g) := by
    intro l
    induction l with
    | nil => intro g hg; exact hg
    | cons e t ih =>
      intro g hg
      rw [List.foldl_cons]
      exact ih _ (wfg_addEdge e.source e.target hg)
  refine hgen es _ ?_
  refine ⟨by simp [DependencyGraph.getAllNodes], ?_, ?_⟩
  · intro p hp
    simp at hp
  · intro u v
    unfold edgeMem revEdgeMem alGet
    simp [List.find?]

-- ============================================================
-- Chains, cycles, rank certificates and pigeonhole
-- ============================================================

theorem chainB_iff_chain (g : DependencyGraph) (l : List String) :
    chainB g l = true ↔ l.Chain' (fun a b => edgeMem g a b = true) := by
  induction l with
  | nil => simp [chainB]
  | cons a t ih =>
    cases t with
    | nil => simp [chainB]
    | cons b t' =>
      show (edgeMem g a b && chainB g (b :: t')) = true ↔ _
      rw [Bool.and_eq_true, List.chain'_cons, ih]

theorem chainB_mid {g : DependencyGraph} {l₁ l₂ l₃ : List String}
    (h : chainB g (l₁ ++ l₂ ++ l₃) = true) : chainB g l₂ = true := by
  rw [chainB_iff_chain] at h ⊢
  rw [List.chain'_append] at h
  rw [List.chain'_append] at h
  exact h.1.2.1

theorem chainB_concat {g : DependencyGraph} {l : List String} {x : String}
    (h : chainB g l = true)
    (he : ∀ ls ∈ l.getLast?, edgeMem g ls x = true) :
    chainB g (l ++ [x]) = true := by
  rw [chainB_iff_chain] at h ⊢
  rw [List.chain'_append]
  refine ⟨h, List.chain'_singleton x, ?_⟩
  intro a ha y hy
  obtain rfl : x = y := by simpa using hy
  exact he a ha

theorem chain_measure {g : DependencyGraph} (f : String → Nat)
    (hf : ∀ u v, edgeMem g u v = true → f v < f u) :
    ∀ l : List String, chainB g l = true → ∀ a b, l.head? = some a →
      l.getLast? = some b → 2 ≤ l.length → f b < f a := by
  intro l
  induction l with
  | nil => intro _ a b h; simp at h
  | cons u t ih =>
    intro hch a b hh hl hlen
    have hua : u = a := by simpa using hh
    rw [← hua]
    cases t with
    | nil => simp at hlen
    | cons v t' =>
      have hav : edgeMem g u v = true ∧ chainB g (v :: t') = true := by
        have h2 : (edgeMem g u v && chainB g (v :: t')) = true := hch
        rw [Bool.and_eq_true] at h2
        exact h2
      have hl2 : (v :: t').getLast? = some b := by
        rw [← hl]
        exact (List.getLast?_cons_cons ..).symm
      cases t' with
      | nil =>
        have hvb : v = b := by simpa using hl2
        rw [← hvb]
        exact hf u v hav.1
      | cons w t'' =>
        have hb := ih hav.2 v b rfl hl2 (by simp)
        exact hb.trans (hf u v hav.1)

theorem no_cycle_of_measure {g : DependencyGraph} (f : String → Nat)
    (hf : ∀ u v, edgeMem g u v = true → f v < f u) : ¬ HasCycle g := by
  rintro ⟨c, hlen, hhl, hch⟩
  cases c with
  | nil => simp at hlen
  | cons a t =>
    have hh : (a :: t).head? = some a := rfl
    have hl : (a :: t).getLast? = some a := by rw [← hhl]; rfl
    exact absurd (chain_measure f hf (a :: t) hch a a hh hl hlen)
      (lt_irrefl _)

theorem no_cycle_of_blackOrd {g : DependencyGraph} {bl : List String}
    (hbl : blackOrd g bl) (hall : ∀ u v, edgeMem g u v = true → u ∈ bl) :
    ¬ HasCycle g := by
  refine no_cycle_of_measure (fun u => bl.indexOf u) ?_
  intro u v he
  exact (hbl.2 u v he (hall u v he)).2

theorem no_cycle_of_topo_ord {g : DependencyGraph} {L : List String}
    (hL : ∀ u v, edgeMem g u v = true →
      u ∈ L ∧ v ∈ L ∧ L.indexOf u < L.indexOf v) : ¬ HasCycle g := by
  refine no_cycle_of_measure (fun u => L.length - L.indexOf u) ?_
  intro u v he
  obtain ⟨hu, hv, hlt⟩ := hL u v he
  have hvlen : L.indexOf v < L.length := List.indexOf_lt_length.mpr hv
  show L.length - L.indexOf v < L.length - L.indexOf u
  omega

theorem not_nodup_split {α : Type} [DecidableEq α] :
    ∀ {l : List α}, ¬ l.Nodup →
      ∃ (l₁ l₂ l₃ : List α) (x : α), l = l₁ ++ x :: (l₂ ++ x :: l₃) := by
  intro l
  induction l with
  | nil => intro h; exact absurd List.nodup_nil h
  | cons a t ih =>
    intro h
    by_cases ha : a ∈ t
    · obtain ⟨s, u, rfl⟩ := List.append_of_mem ha
      exact ⟨[], s, u, a, rfl⟩
    · have hnt : ¬ t.Nodup := fun hn => h (List.nodup_cons.mpr ⟨ha, hn⟩)
      obtain ⟨l₁, l₂, l₃, x, rfl⟩ := ih hnt
      exact ⟨a :: l₁, l₂, l₃, x, rfl⟩

theorem cycle_of_dup_chain {g : DependencyGraph}
    {l₁ l₂ l₃ : List String} {x : String}
    (h : chainB g (l₁ ++ x :: (l₂ ++ x :: l₃)) = true) : HasCycle g := by
  have heq : l₁ ++ (x :: l₂ ++ [x]) ++ l₃ = l₁ ++ x :: (l₂ ++ x :: l₃) := by
    simp
  have h' : chainB g (l₁ ++ (x :: l₂ ++ [x]) ++ l₃) = true := by
    rw [heq]; exact h
  refine ⟨x :: l₂ ++ [x], ?_, ?_, chainB_mid h'⟩
  · simp
  · show some x = ((x :: l₂) ++ [x]).getLast?
    rw [List.getLast?_concat]

theorem hasCycle_of_pred (g : DependencyGraph) (S : List String)
    (P : String → Prop) (hsub : ∀ k, P k → k ∈ S) (k₀ : String)
    (hk₀ : P k₀)
    (hpred : ∀ k, P k → ∃ u, P u ∧ edgeMem g u k = true) : HasCycle g := by
  have hchain : ∀ m : Nat, ∃ l : List String, l.length = m + 1 ∧
      chainB g l = true ∧ (∀ y ∈ l, P y) ∧ l ≠ [] := by
    intro m
    induction m with
    | zero => exact ⟨[k₀], rfl, rfl, by simpa using hk₀, by simp⟩
    | succ m ih =>
      obtain ⟨l, hlen, hch, hP, hne⟩ := ih
      obtain ⟨a, t, rfl⟩ := List.exists_cons_of_ne_nil hne
      obtain ⟨u, hu, hedge⟩ := hpred a (hP a (List.mem_cons_self a t))
      refine ⟨u :: a :: t, ?_, ?_, ?_, by simp⟩
      · simp at hlen ⊢
        omega
      · show (edgeMem g u a && chainB g (a :: t)) = true
        rw [Bool.and_eq_true]
        exact ⟨hedge, hch⟩
      · intro y hy
        rcases List.mem_cons.mp hy with rfl | hy
        · exact hu
        · exact hP y hy
  obtain ⟨l, hlen, hch, hP, _⟩ := hchain S.length
  have hnd : ¬ l.Nodup := by
    intro hnd
    have hle := (List.subperm_of_subset hnd
      (fun x hx => hsub x (hP x hx))).length_le
    omega
  obtain ⟨l₁, l₂, l₃, x, rfl⟩ := not_nodup_split hnd
  exact cycle_of_dup_chain hch

theorem edgeMem_src_mem {g : DependencyGraph} {u v : String}
    (h : edgeMem g u v = true) : u ∈ g.getAllNodes := by
  obtain ⟨n, hn, _⟩ := (edgeMem_eq_true_iff g u v).mp h
  show u ∈ g.nodes.map Prod.fst
  rw [← alGet_isSome_iff_mem_keys, hn]
  rfl

-- ============================================================
-- buildGraph / fromImports: well-formedness and edge content
-- ============================================================

theorem wfg_empty : WFg { nodes := [] } := by
  refine ⟨by simp [DependencyGraph.getAllNodes], ?_, ?_⟩
  · intro p hp
    simp at hp
  · intro u v
    unfold edgeMem revEdgeMem alGet
    simp [List.find?]

theorem wfg_foldl_addEdge (ps : List (String × String)) :
    ∀ (g : DependencyGraph), WFg g →
      WFg (ps.foldl (fun g p => g.addEdge p.1 p.2) g) := by
  induction ps with
  | nil => intro g hg; exact hg
  | cons p t ih =>
    intro g hg
    rw [List.foldl_cons]
    exact ih _ (wfg_addEdge p.1 p.2 hg)

theorem buildGraph_wfg (ps : List (String × String)) : WFg (buildGraph ps) :=
  wfg_foldl_addEdge ps _ wfg_empty

theorem fromImports_eq_buildGraph (es : List ImportEdge) :
    DependencyGraph.fromImports es =
      buildGraph (es.map (fun e => (e.source, e.target))) := by
  unfold DependencyGraph.fromImports buildGraph
  rw [List.foldl_map]

theorem edgeMem_foldl (ps : List (String × String)) :
    ∀ (g : DependencyGraph) (u v : String),
      edgeMem (ps.foldl (fun g p => g.addEdge p.1 p.2) g) u v = true ↔
        (edgeMem g u v = true ∨ (u, v) ∈ ps) := by
  induction ps with
  | nil => intro g u v; simp
  | cons p t ih =>
    intro g u v
    rw [List.foldl_cons, ih, edgeMem_addEdge]
    constructor
    · rintro ((he | ⟨rfl, rfl⟩) | hm)
      · exact Or.inl he
      · refine Or.inr (List.mem_cons.mpr (Or.inl ?_))
        exact Prod.ext rfl rfl
      · exact Or.inr (List.mem_cons.mpr (Or.inr hm))
    · rintro (he | hm)
      · exact Or.inl (Or.inl he)
      · rcases List.mem_cons.mp hm with rfl | hm
        · exact Or.inl (Or.inr ⟨rfl, rfl⟩)
        · exact Or.inr hm

theorem edgeMem_empty (u v : String) :
    edgeMem { nodes := [] } u v = false := by
  unfold edgeMem alGet
  simp [List.find?]

theorem edgeMem_buildGraph (ps : List (String × String)) (u v : String) :
    edgeMem (buildGraph ps) u v = true ↔ (u, v) ∈ ps := by
  unfold buildGraph
  rw [edgeMem_foldl]
  rw [edgeMem_empty]
  simp

-- ============================================================
-- detectCycles: the DFS frame lemma
-- ============================================================

theorem dfsFold_frame {g : DependencyGraph} {fuel : Nat}
    (IH : ∀ x s, (dfsF g fuel x s).stack = s.stack ∧
      (dfsF g fuel x s).inStack = s.inStack ∧
      (∃ ve, (dfsF g fuel x s).visited = s.visited ++ ve) ∧
      (∃ ce, (dfsF g fuel x s).cycles = s.cycles ++ ce)) :
    ∀ (deps : List String) (st : DfsState),
      (deps.foldl (fun st dep => dfsF g fuel dep st) st).stack = st.stack ∧
      (deps.foldl (fun st dep => dfsF g fuel dep st) st).inStack = st.inStack ∧
      (∃ ve, (deps.foldl (fun st dep => dfsF g fuel dep st) st).visited =
        st.visited ++ ve) ∧
      (∃ ce, (deps.foldl (fun st dep => dfsF g fuel dep st) st).cycles =
        st.cycles ++ ce) := by
  intro deps
  induction deps with
  | nil => intro st; exact ⟨rfl, rfl, ⟨[], by simp⟩, ⟨[], by simp⟩⟩
  | cons d t ih =>
    intro st
    rw [List.foldl_cons]
    obtain ⟨hs1, hi1, ⟨v1, hv1⟩, ⟨c1, hc1⟩⟩ := IH d st
    obtain ⟨hs2, hi2, ⟨v2, hv2⟩, ⟨c2, hc2⟩⟩ := ih (dfsF g fuel d st)
    refine ⟨hs2.trans hs1, hi2.trans hi1, ⟨v1 ++ v2, ?_⟩, ⟨c1 ++ c2, ?_⟩⟩
    · rw [hv2, hv1, List.append_assoc]
    · rw [hc2, hc1, List.append_assoc]

theorem dfsF_frame (g : DependencyGraph) :
    ∀ (fuel : Nat) (x : String) (s : DfsState),
      (dfsF g fuel x s).stack = s.stack ∧
      (dfsF g fuel x s).inStack = s.inStack ∧
      (∃ ve, (dfsF g fuel x s).visited = s.visited ++ ve) ∧
      (∃ ce, (dfsF g fuel x s).cycles = s.cycles ++ ce) := by
  intro fuel
  induction fuel with
  | zero =>
    intro x s
    exact ⟨rfl, rfl, ⟨[], by simp [dfsF]⟩, ⟨[], by simp [dfsF]⟩⟩
  | succ fuel ih =>
    intro x s
    simp only [dfsF]
    by_cases h1 : x ∈ s.inStack
    · rw [if_pos h1]
      by_cases h2 : x ∈ s.stack
      · rw [if_pos h2]
        exact ⟨rfl, rfl, ⟨[], by simp⟩,
          ⟨[s.stack.drop (s.stack.indexOf x) ++ [x]], rfl⟩⟩
      · rw [if_neg h2]
        exact ⟨rfl, rfl, ⟨[], by simp⟩, ⟨[], by simp⟩⟩
    · rw [if_neg h1]
      by_cases h3 : x ∈ s.visited
      · rw [if_pos h3]
        exact ⟨rfl, rfl, ⟨[], by simp⟩, ⟨[], by simp⟩⟩
      · rw [if_neg h3]
        cases halg : alGet g.nodes x with
        | none =>
          simp only [halg]
          refine ⟨?_, ?_, ⟨[x], ?_⟩, ⟨[], ?_⟩⟩
          · simp
          · show ((s.inStack ++ [x]).erase x) = s.inStack
            rw [List.erase_append_right _ h1]
            simp
          · rfl
          · simp
        | some node =>
          simp only [halg]
          obtain ⟨hs2, hi2, ⟨v2, hv2⟩, ⟨c2, hc2⟩⟩ :=
            dfsFold_frame ih node.outgoing
              { s with
                visited := s.visited ++ [x]
                inStack := s.inStack ++ [x]
                stack := s.stack ++ [x] }
          refine ⟨?_, ?_, ⟨[x] ++ v2, ?_⟩, ⟨c2, ?_⟩⟩
          · rw [hs2]
            simp
          · rw [hi2]
            show ((s.inStack ++ [x]).erase x) = s.inStack
            rw [List.erase_append_right _ h1]
            simp
          · rw [hv2]
            simp
          · rw [hc2]

-- ============================================================
-- detectCycles soundness: every recorded cycle is genuine
-- ============================================================

theorem dfsF_sound (g : DependencyGraph) :
    ∀ (fuel : Nat) (x : String) (s : DfsState),
      chainB g s.stack = true → cyclesSound g s.cycles → dfsEntry g x s →
      cyclesSound g (dfsF g fuel x s).cycles := by
  intro fuel
  induction fuel with
  | zero =>
    intro x s _ hc _
    simpa [dfsF] using hc
  | succ fuel ih =>
    intro x s hchain hc hentry
    simp only [dfsF]
    by_cases h1 : x ∈ s.inStack
    · rw [if_pos h1]
      by_cases h2 : x ∈ s.stack
      · rw [if_pos h2]
        intro c hcmem
        rcases List.mem_append.mp hcmem with hcmem | hcmem
        · exact hc c hcmem
        · obtain rfl : c = s.stack.drop (s.stack.indexOf x) ++ [x] := by
            simpa using hcmem
          have hidx : s.stack.indexOf x < s.stack.length :=
            List.indexOf_lt_length.mpr h2
          have hgetx : s.stack.get? (s.stack.indexOf x) = some x := by
            rw [List.get?_eq_get hidx]
            exact congrArg some (List.indexOf_get hidx)
          have hhead : (s.stack.drop (s.stack.indexOf x)).head? = some x := by
            rw [List.head?_drop]
            rw [← List.get?_eq_getElem?]
            exact hgetx
          have hdropne : s.stack.drop (s.stack.indexOf x) ≠ [] := by
            intro hd
            rw [hd] at hhead
            simp at hhead
          have hstackne : s.stack ≠ [] := by
            intro hnil
            rw [hnil] at h2
            simp at h2
          obtain ⟨ls, hls, hedge⟩ : ∃ ls, s.stack.getLast? = some ls ∧
              edgeMem g ls x = true := by
            rcases hentry with hnil | h
            · exact absurd hnil hstackne
            · exact h
          have hlastdrop : (s.stack.drop (s.stack.indexOf x)).getLast? =
              some ls := by
            rw [← hls]
            conv_rhs =>
              rw [← List.take_append_drop (s.stack.indexOf x) s.stack]
            exact (List.getLast?_append_of_ne_nil _ hdropne).symm
          have hchaindrop : chainB g (s.stack.drop (s.stack.indexOf x)) =
              true := by
            refine @chainB_mid g (s.stack.take (s.stack.indexOf x))
              (s.stack.drop (s.stack.indexOf x)) [] ?_
            rw [List.append_nil, List.take_append_drop]
            exact hchain
          refine ⟨?_, ?_, ?_⟩
          · have hlen : 1 ≤ (s.stack.drop (s.stack.indexOf x)).length :=
              List.length_pos.mpr hdropne
            simp
            omega
          · have hh : (s.stack.drop (s.stack.indexOf x) ++ [x]).head? =
                some x := by
              cases hdl : s.stack.drop (s.stack.indexOf x) with
              | nil => exact absurd hdl hdropne
              | cons a t =>
                rw [hdl] at hhead
                have : a = x := by simpa using hhead
                rw [this]
                rfl
            rw [hh, List.getLast?_concat]
          · exact chainB_concat hchaindrop
              (by
                intro ls' hls'
                rw [hlastdrop] at hls'
                obtain rfl : ls = ls' := by simpa using hls'
                exact hedge)
      · rw [if_neg h2]
        exact hc
    · rw [if_neg h1]
      by_cases h3 : x ∈ s.visited
      · rw [if_pos h3]
        exact hc
      · rw [if_neg h3]
        have hchain1 : chainB g (s.stack ++ [x]) = true := by
          refine chainB_concat hchain ?_
          intro ls hls
          rcases hentry with hnil | ⟨ls', hls', hedge⟩
          · rw [hnil] at hls
            simp at hls
          · rw [hls'] at hls
            obtain rfl : ls' = ls := by simpa using hls
            exact hedge
        cases halg : alGet g.nodes x with
        | none =>
          simp only [halg]
          exact hc
        | some node =>
          simp only [halg]
          have hfold : ∀ (deps : List String),
              (∀ dep ∈ deps, edgeMem g x dep = true) →
              ∀ (st : DfsState), st.stack = s.stack ++ [x] →
              cyclesSound g st.cycles →
              cyclesSound g
                ((deps.foldl (fun st dep => dfsF g fuel dep st) st).cycles) := by
            intro deps
            induction deps with
            | nil =>
              intro _ st _ hcst
              simpa using hcst
            | cons d t iht =>
              intro hdeps st hstk hcst
              rw [List.foldl_cons]
              have hentry2 : dfsEntry g d st := by
                refine Or.inr ⟨x, ?_, hdeps d (List.mem_cons_self d t)⟩
                rw [hstk]
                exact List.getLast?_concat _
              have hchainst : chainB g st.stack = true := by
                rw [hstk]
                exact hchain1
              have hc2 := ih d st hchainst hcst hentry2
              refine iht (fun dep hdep => hdeps dep (List.mem_cons_of_mem _ hdep))
                _ ?_ hc2
              rw [(dfsF_frame g fuel d st).1, hstk]
          have hedges : ∀ dep ∈ node.outgoing, edgeMem g x dep = true := by
            intro dep hdep
            rw [edgeMem_eq_true_iff]
            exact ⟨node, halg, hdep⟩
          exact hfold node.outgoing hedges _ rfl hc

theorem detectCycles_sound (g : DependencyGraph) :
    cyclesSound g g.detectCycles := by
  unfold DependencyGraph.detectCycles
  have h : ∀ (ks : List String) (s : DfsState), s.stack = [] →
      cyclesSound g s.cycles →
      cyclesSound g ((ks.foldl
        (fun s nodeId =>
          if nodeId ∈ s.visited then s
          else dfsF g (g.nodes.length + 1) nodeId s) s).cycles) := by
    intro ks
    induction ks with
    | nil =>
      intro s _ hc
      simpa using hc
    | cons k t ih =>
      intro s hstk hc
      rw [List.foldl_cons]
      by_cases hk : k ∈ s.visited
      · rw [if_pos hk]
        exact ih s hstk hc
      · rw [if_neg hk]
        refine ih _ ?_ ?_
        · rw [(dfsF_frame g _ k s).1, hstk]
        · refine dfsF_sound g _ k s ?_ hc (Or.inl hstk)
          rw [hstk]
          rfl
  exact h _ _ rfl (by intro c hcm; simp at hcm)

theorem hasCycle_of_detect {g : DependencyGraph}
    (h : g.detectCycles ≠ []) : HasCycle g := by
  obtain ⟨c, hcm⟩ := List.exists_mem_of_ne_nil _ h
  exact ⟨c, detectCycles_sound g c hcm⟩

-- ============================================================
-- detectCycles completeness: a clean run certifies acyclicity
-- ============================================================

theorem nodup_concat {α : Type} {l : List α} {x : α} (h : l.Nodup)
    (hx : x ∉ l) : (l ++ [x]).Nodup := by
  simp [List.nodup_append, h, hx]

theorem erase_concat_self {l : List String} {x : String} (hx : x ∉ l) :
    (l ++ [x]).erase x = l := by
  rw [List.erase_append_right _ hx]
  simp

theorem append_append_eq_self {α : Type} {a e1 e2 : List α}
    (h : a ++ e1 ++ e2 = a) : e1 = [] ∧ e2 = [] := by
  have hl := congrArg List.length h
  rw [List.length_append, List.length_append] at hl
  refine ⟨?_, ?_⟩
  · exact List.eq_nil_of_length_eq_zero (by omega)
  · exact List.eq_nil_of_length_eq_zero (by omega)

theorem dfsF_complete (g : DependencyGraph) (hwf : WFg g) :
    ∀ (fuel : Nat) (x : String) (s : DfsState) (bl : List String),
      DfsInv g s → blackInv g s bl → x ∈ g.getAllNodes →
      g.getAllNodes.length + 1 ≤ fuel + s.inStack.length →
      (dfsF g fuel x s).cycles = s.cycles →
      ∃ ext, blackInv g (dfsF g fuel x s) (bl ++ ext) ∧ x ∈ bl ++ ext ∧
        DfsInv g (dfsF g fuel x s) := by
  intro fuel
  induction fuel with
  | zero =>
    intro x s bl hinv hbl hx hfuel hres
    obtain ⟨hstkeq, hnds, hsubv, hvk⟩ := hinv
    have hsubk : ∀ y ∈ s.inStack, y ∈ g.getAllNodes :=
      fun y hy => hvk y (hsubv y hy)
    have hle := (List.subperm_of_subset hnds hsubk).length_le
    omega
  | succ fuel ih =>
    intro x s bl hinv hbl hx hfuel hres
    obtain ⟨hstkeq, hnds, hsubv, hvk⟩ := hinv
    simp only [dfsF] at hres ⊢
    by_cases h1 : x ∈ s.inStack
    · have h2 : x ∈ s.stack := hstkeq ▸ h1
      rw [if_pos h1, if_pos h2] at hres ⊢
      have hlen := congrArg List.length hres
      simp at hlen
    · rw [if_neg h1] at hres ⊢
      by_cases h3 : x ∈ s.visited
      · rw [if_pos h3] at hres ⊢
        refine ⟨[], by simpa using hbl, ?_, hstkeq, hnds, hsubv, hvk⟩
        rw [List.append_nil]
        exact (hbl.1 x).mpr ⟨h3, h1⟩
      · rw [if_neg h3] at hres ⊢
        have hsome : (alGet g.nodes x).isSome := by
          rw [alGet_isSome_iff_mem_keys]
          exact hx
        cases halg : alGet g.nodes x with
        | none => rw [halg] at hsome; simp at hsome
        | some node =>
          simp only [halg] at hres ⊢
          obtain ⟨hnid, hnout, hninc, houtk, hinck⟩ := wfg_vals hwf x node halg
          -- the state after pushing x
          have hinv1 : DfsInv g
              { s with
                visited := s.visited ++ [x]
                inStack := s.inStack ++ [x]
                stack := s.stack ++ [x] } := by
            refine ⟨by rw [hstkeq], nodup_concat hnds h1, ?_, ?_⟩
            · intro y hy
              rcases List.mem_append.mp hy with hy | hy
              · exact List.mem_append.mpr (Or.inl (hsubv y hy))
              · exact List.mem_append.mpr (Or.inr hy)
            · intro y hy
              rcases List.mem_append.mp hy with hy | hy
              · exact hvk y hy
              · obtain rfl : y = x := by simpa using hy
                exact hx
          have hbl1 : blackInv g
              { s with
                visited := s.visited ++ [x]
                inStack := s.inStack ++ [x]
                stack := s.stack ++ [x] } bl := by
            refine ⟨?_, hbl.2⟩
            intro y
            show y ∈ bl ↔ y ∈ s.visited ++ [x] ∧ y ∉ s.inStack ++ [x]
            by_cases hyx : y = x
            · subst hyx
              constructor
              · intro hybl
                exact absurd ((hbl.1 y).mp hybl).1 h3
              · intro ⟨_, hni⟩
                exact absurd (List.mem_append.mpr (Or.inr (by simp))) hni
            · rw [hbl.1 y]
              constructor
              · intro ⟨hv, hi⟩
                refine ⟨List.mem_append.mpr (Or.inl hv), ?_⟩
                intro hmem
                rcases List.mem_append.mp hmem with hm | hm
                · exact hi hm
                · exact hyx (by simpa using hm)
              · intro ⟨hv, hi⟩
                rcases List.mem_append.mp hv with hm | hm
                · exact ⟨hm, fun hc => hi (List.mem_append.mpr (Or.inl hc))⟩
                · exact absurd (by simpa using hm) hyx
          -- fold over the outgoing edges
          have hfold : ∀ (deps : List String),
              (∀ dep ∈ deps, dep ∈ g.getAllNodes) →
              ∀ (st : DfsState) (bl' : List String), DfsInv g st →
              blackInv g st bl' →
              st.inStack.length = s.inStack.length + 1 →
              (deps.foldl (fun st dep => dfsF g fuel dep st) st).cycles =
                st.cycles →
              ∃ ext2,
                blackInv g (deps.foldl (fun st dep => dfsF g fuel dep st) st)
                  (bl' ++ ext2) ∧
                (∀ dep ∈ deps, dep ∈ bl' ++ ext2) ∧
                DfsInv g (deps.foldl (fun st dep => dfsF g fuel dep st) st) := by
            intro deps
            induction deps with
            | nil =>
              intro _ st bl' hinvst hblst _ _
              exact ⟨[], by simpa using hblst, by simp, hinvst⟩
            | cons d t iht =>
              intro hdeps st bl' hinvst hblst hlenst hcyc
              rw [List.foldl_cons] at hcyc ⊢
              obtain ⟨hfs, hfi, ⟨ve, hfv⟩, ⟨ce, hfc⟩⟩ := dfsF_frame g fuel d st
              obtain ⟨hfs2, hfi2, ⟨ve2, hfv2⟩, ⟨ce2, hfc2⟩⟩ :=
                dfsFold_frame (fun x s => dfsF_frame g fuel x s) t
                  (dfsF g fuel d st)
              have hsplit : st.cycles ++ ce ++ ce2 = st.cycles := by
                rw [← hfc, ← hfc2]
                exact hcyc
              obtain ⟨hce, hce2⟩ := append_append_eq_self hsplit
              have hcd : (dfsF g fuel d st).cycles = st.cycles := by
                rw [hfc, hce, List.append_nil]
              have hih := ih d st bl' hinvst hblst (hdeps d (by simp))
                (by omega) hcd
              obtain ⟨e1, hbl2, hd2, hinv2⟩ := hih
              have hlen2 : (dfsF g fuel d st).inStack.length =
                  s.inStack.length + 1 := by
                rw [hfi]
                exact hlenst
              have hcyc2 : (t.foldl (fun st dep => dfsF g fuel dep st)
                  (dfsF g fuel d st)).cycles = (dfsF g fuel d st).cycles := by
                rw [hfc2, hce2, List.append_nil]
              obtain ⟨e2, hbl3, hmem3, hinv3⟩ :=
                iht (fun dep hdep => hdeps dep (List.mem_cons_of_mem _ hdep))
                  (dfsF g fuel d st) (bl' ++ e1) hinv2 hbl2 hlen2 hcyc2
              refine ⟨e1 ++ e2, ?_, ?_, hinv3⟩
              · rw [← List.append_assoc]
                exact hbl3
              · intro dep hdep
                rcases List.mem_cons.mp hdep with rfl | hdep
                · rw [← List.append_assoc]
                  exact List.mem_append.mpr (Or.inl hd2)
                · rw [← List.append_assoc]
                  exact hmem3 dep hdep
          have hcyc0 : ((node.outgoing.foldl (fun st dep => dfsF g fuel dep st)
              { s with
                visited := s.visited ++ [x]
                inStack := s.inStack ++ [x]
                stack := s.stack ++ [x] }).cycles) =
              ({ s with
                visited := s.visited ++ [x]
                inStack := s.inStack ++ [x]
                stack := s.stack ++ [x] } : DfsState).cycles := hres
          obtain ⟨ext2, hbl2, hmem2, hinv2⟩ := hfold node.outgoing houtk
            { s with
              visited := s.visited ++ [x]
              inStack := s.inStack ++ [x]
              stack := s.stack ++ [x] } bl hinv1 hbl1 (by simp) hcyc0
          obtain ⟨hfs2, hfi2, ⟨ve2, hfv2⟩, ⟨ce2, hfc2⟩⟩ :=
            dfsFold_frame (fun x s => dfsF_frame g fuel x s) node.outgoing
              { s with
                visited := s.visited ++ [x]
                inStack := s.inStack ++ [x]
                stack := s.stack ++ [x] }
          -- the finished black set
          refine ⟨ext2 ++ [x], ?_, ?_, ?_⟩
          · constructor
            · intro y
              show y ∈ bl ++ (ext2 ++ [x]) ↔
                y ∈ (node.outgoing.foldl (fun st dep => dfsF g fuel dep st)
                  { s with
                    visited := s.visited ++ [x]
                    inStack := s.inStack ++ [x]
                    stack := s.stack ++ [x] }).visited ∧
                y ∉ (node.outgoing.foldl (fun st dep => dfsF g fuel dep st)
                  { s with
                    visited := s.visited ++ [x]
                    inStack := s.inStack ++ [x]
                    stack := s.stack ++ [x] }).inStack.erase x
              rw [hfi2, hfv2]
              show y ∈ bl ++ (ext2 ++ [x]) ↔
                y ∈ (s.visited ++ [x]) ++ ve2 ∧
                y ∉ (s.inStack ++ [x]).erase x
              rw [erase_concat_self h1]
              by_cases hyx : y = x
              · subst hyx
                constructor
                · intro _
                  exact ⟨List.mem_append.mpr
                    (Or.inl (List.mem_append.mpr (Or.inr (by simp)))), h1⟩
                · intro _
                  exact List.mem_append.mpr (Or.inr
                    (List.mem_append.mpr (Or.inr (by simp))))
              · have hy2 := hbl2.1 y
                rw [hfi2, hfv2] at hy2
                have hy3 : y ∈ bl ++ ext2 ↔
                    y ∈ (s.visited ++ [x]) ++ ve2 ∧
                    y ∉ s.inStack ++ [x] := hy2
                constructor
                · intro hmem
                  rw [← List.append_assoc] at hmem
                  rcases List.mem_append.mp hmem with hmem | hmem
                  · obtain ⟨hv, hi⟩ := hy3.mp hmem
                    exact ⟨hv, fun hc =>
                      hi (List.mem_append.mpr (Or.inl hc))⟩
                  · exact absurd (by simpa using hmem) hyx
                · intro ⟨hv, hi⟩
                  rw [← List.append_assoc]
                  refine List.mem_append.mpr (Or.inl (hy3.mpr ⟨hv, ?_⟩))
                  intro hc
                  rcases List.mem_append.mp hc with hc | hc
                  · exact hi hc
                  · exact hyx (by simpa using hc)
            · -- blackOrd of the extended certificate
              have hord2 := hbl2.2
              have hxnot : x ∉ bl ++ ext2 := by
                intro hc
                have := (hbl2.1 x).mp hc
                rw [hfi2] at this
                exact this.2 (List.mem_append.mpr (Or.inr (by simp)))
              constructor
              · rw [← List.append_assoc]
                exact nodup_concat hord2.1 hxnot
              · intro u v he hu
                rw [← List.append_assoc] at hu ⊢
                rcases List.mem_append.mp hu with hu | hu
                · obtain ⟨hv, hlt⟩ := hord2.2 u v he hu
                  refine ⟨List.mem_append.mpr (Or.inl hv), ?_⟩
                  rw [List.indexOf_append_of_mem hv,
                    List.indexOf_append_of_mem hu]
                  exact hlt
                · obtain rfl : u = x := by simpa using hu
                  obtain ⟨n', hn', hvout⟩ := (edgeMem_eq_true_iff g u v).mp he
                  obtain rfl : n' = node := by
                    rw [halg] at hn'
                    exact (Option.some.inj hn').symm
                  have hvbl : v ∈ bl ++ ext2 := hmem2 v hvout
                  refine ⟨List.mem_append.mpr (Or.inl hvbl), ?_⟩
                  rw [List.indexOf_append_of_mem hvbl,
                    List.indexOf_append_of_not_mem hxnot]
                  have hvlt : (bl ++ ext2).indexOf v < (bl ++ ext2).length :=
                    List.indexOf_lt_length.mpr hvbl
                  rw [List.indexOf_cons_self]
                  omega
          · rw [← List.append_assoc]
            exact List.mem_append.mpr (Or.inr (by simp))
          · obtain ⟨hi2a, hi2b, hi2c, hi2d⟩ := hinv2
            refine ⟨?_, ?_, ?_, ?_⟩
            · show ((node.outgoing.foldl (fun st dep => dfsF g fuel dep st)
                  { s with
                    visited := s.visited ++ [x]
                    inStack := s.inStack ++ [x]
                    stack := s.stack ++ [x] }).inStack.erase x) =
                (node.outgoing.foldl (fun st dep => dfsF g fuel dep st)
                  { s with
                    visited := s.visited ++ [x]
                    inStack := s.inStack ++ [x]
                    stack := s.stack ++ [x] }).stack.dropLast
              rw [hfi2, hfs2]
              show ((s.inStack ++ [x]).erase x) = (s.stack ++ [x]).dropLast
              rw [erase_concat_self h1]
              simp [hstkeq]
            · show ((node.outgoing.foldl (fun st dep => dfsF g fuel dep st)
                  { s with
                    visited := s.visited ++ [x]
                    inStack := s.inStack ++ [x]
                    stack := s.stack ++ [x] }).inStack.erase x).Nodup
              rw [hfi2]
              show ((s.inStack ++ [x]).erase x).Nodup
              rw [erase_concat_self h1]
              exact hnds
            · intro y hy
              simp only [hfi2] at hy
              have hy2 : y ∈ (s.inStack ++ [x]).erase x := hy
              rw [erase_concat_self h1] at hy2
              simp only [hfv2]
              refine List.mem_append.mpr (Or.inl ?_)
              have hy3 : y ∈ s.visited := hsubv y hy2
              exact List.mem_append.mpr (Or.inl hy3)
            · intro y hy
              exact hi2d y hy

theorem outerFold_cycles_mono (g : DependencyGraph) :
    ∀ (ks : List String) (s : DfsState),
      ∃ ce, ((ks.foldl
        (fun s nodeId =>
          if nodeId ∈ s.visited then s
          else dfsF g (g.nodes.length + 1) nodeId s) s).cycles) =
        s.cycles ++ ce := by
  intro ks
  induction ks with
  | nil => intro s; exact ⟨[], by simp⟩
  | cons k t ih =>
    intro s
    rw [List.foldl_cons]
    by_cases hk : k ∈ s.visited
    · rw [if_pos hk]
      exact ih s
    · rw [if_neg hk]
      obtain ⟨ce1, hc1⟩ := (dfsF_frame g (g.nodes.length + 1) k s).2.2.2
      obtain ⟨ce2, hc2⟩ := ih (dfsF g (g.nodes.length + 1) k s)
      exact ⟨ce1 ++ ce2, by rw [hc2, hc1, List.append_assoc]⟩

theorem detectCycles_complete (g : DependencyGraph) (hwf : WFg g)
    (h : g.detectCycles = []) : ¬ HasCycle g := by
  have houter : ∀ (ks : List String), (∀ k ∈ ks, k ∈ g.getAllNodes) →
      ∀ (s : DfsState) (bl : List String), DfsInv g s → blackInv g s bl →
      s.inStack = [] →
      ((ks.foldl
        (fun s nodeId =>
          if nodeId ∈ s.visited then s
          else dfsF g (g.nodes.length + 1) nodeId s) s).cycles) = s.cycles →
      ∃ ext, blackOrd g (bl ++ ext) ∧ (∀ k ∈ ks, k ∈ bl ++ ext) := by
    intro ks
    induction ks with
    | nil =>
      intro _ s bl _ hbl _ _
      exact ⟨[], by simpa using hbl.2, by simp⟩
    | cons k t ih =>
      intro hks s bl hinv hbl hstk hcyc
      rw [List.foldl_cons] at hcyc
      by_cases hk : k ∈ s.visited
      · rw [if_pos hk] at hcyc
        obtain ⟨ext, hord, hmem⟩ :=
          ih (fun y hy => hks y (List.mem_cons_of_mem _ hy)) s bl hinv hbl
            hstk hcyc
        refine ⟨ext, hord, ?_⟩
        intro y hy
        rcases List.mem_cons.mp hy with rfl | hy
        · have hknotin : y ∉ s.inStack := by
            rw [hstk]
            simp
          exact List.mem_append.mpr (Or.inl ((hbl.1 y).mpr ⟨hk, hknotin⟩))
        · exact hmem y hy
      · rw [if_neg hk] at hcyc
        obtain ⟨ce1, hc1⟩ := (dfsF_frame g (g.nodes.length + 1) k s).2.2.2
        obtain ⟨ce2, hc2⟩ :=
          outerFold_cycles_mono g t (dfsF g (g.nodes.length + 1) k s)
        have hsplit : s.cycles ++ ce1 ++ ce2 = s.cycles := by
          rw [← hc1, ← hc2]
          exact hcyc
        obtain ⟨hce1, hce2⟩ := append_append_eq_self hsplit
        have hcd : (dfsF g (g.nodes.length + 1) k s).cycles = s.cycles := by
          rw [hc1, hce1, List.append_nil]
        have hfuel : g.getAllNodes.length + 1 ≤
            (g.nodes.length + 1) + s.inStack.length := by
          have : g.getAllNodes.length = g.nodes.length := by
            unfold DependencyGraph.getAllNodes
            exact List.length_map _ _
          omega
        obtain ⟨e1, hbl1, hk1, hinv1⟩ := dfsF_complete g hwf
          (g.nodes.length + 1) k s bl hinv hbl (hks k (by simp)) hfuel hcd
        have hstk1 : (dfsF g (g.nodes.length + 1) k s).inStack = [] := by
          rw [(dfsF_frame g (g.nodes.length + 1) k s).2.1]
          exact hstk
        have hcyc2 : ((t.foldl
            (fun s nodeId =>
              if nodeId ∈ s.visited then s
              else dfsF g (g.nodes.length + 1) nodeId s)
            (dfsF g (g.nodes.length + 1) k s)).cycles) =
            (dfsF g (g.nodes.length + 1) k s).cycles := by
          rw [hc2, hce2, List.append_nil]
        obtain ⟨e2, hord2, hmem2⟩ :=
          ih (fun y hy => hks y (List.mem_cons_of_mem _ hy))
            (dfsF g (g.nodes.length + 1) k s) (bl ++ e1) hinv1 hbl1
            hstk1 hcyc2
        refine ⟨e1 ++ e2, ?_, ?_⟩
        · rw [← List.append_assoc]
          exact hord2
        · intro y hy
          rcases List.mem_cons.mp hy with rfl | hy
          · rw [← List.append_assoc]
            exact List.mem_append.mpr (Or.inl hk1)
          · rw [← List.append_assoc]
            exact hmem2 y hy
  have hinv0 : DfsInv g ⟨[], [], [], []⟩ := by
    refine ⟨rfl, List.nodup_nil, ?_, ?_⟩
    · intro y hy
      simp at hy
    · intro y hy
      simp at hy
  have hbl0 : blackInv g ⟨[], [], [], []⟩ [] := by
    refine ⟨?_, List.nodup_nil, ?_⟩
    · intro y
      simp
    · intro u v _ hu
      simp at hu
  have hdc : ((((g.nodes.map Prod.fst).foldl
      (fun s nodeId =>
        if nodeId ∈ s.visited then s
        else dfsF g (g.nodes.length + 1) nodeId s)
      (⟨[], [], [], []⟩ : DfsState)).cycles)) =
      ((⟨[], [], [], []⟩ : DfsState)).cycles := h
  obtain ⟨ext, hord, hmem⟩ := houter (g.nodes.map Prod.fst)
    (fun k hk => hk) _ [] hinv0 hbl0 rfl hdc
  refine no_cycle_of_blackOrd hord ?_
  intro u v he
  exact hmem u (edgeMem_src_mem he)

-- ============================================================
-- topologicalSort: Kahn's algorithm
-- ============================================================

theorem topologicalSort_eq (g : DependencyGraph) :
    g.topologicalSort =
      if (kahnLoop g (g.nodes.length + 1) (kahnQueue0 g)
            (kahnInDeg0 g) []).length = g.nodes.length
      then some (kahnLoop g (g.nodes.length + 1) (kahnQueue0 g)
        (kahnInDeg0 g) [])
      else none := rfl

theorem alSet_keys_of_mem {α : Type} {m : List (String × α)} {k : String}
    (v : α) (hk : k ∈ m.map Prod.fst) :
    (alSet m k v).map Prod.fst = m.map Prod.fst := by
  unfold alSet
  have hany : m.any (fun p => p.1 = k) = true := by
    rw [List.any_eq_true]
    obtain ⟨p, hp, hp1⟩ := List.mem_map.mp hk
    exact ⟨p, hp, by simp [hp1]⟩
  rw [if_pos hany, List.map_map]
  apply List.map_congr_left
  intro p _
  by_cases hp : p.1 = k <;> simp [hp]

theorem alGet_map_entries {α β : Type} (f : (String × α) → β)
    (m : List (String × α)) (k : String) :
    alGet (m.map (fun p => (p.1, f p))) k =
      (alGet m k).map (fun n => f (k, n)) := by
  unfold alGet
  have hpred : (fun (p : String × β) => decide (p.1 = k)) ∘
      (fun (p : String × α) => (p.1, f p)) =
      (fun p => decide (p.1 = k)) := by
    funext p
    rfl
  rw [List.find?_map, hpred]
  cases hf : m.find? (fun p => decide (p.1 = k)) with
  | none => rfl
  | some q =>
    have hq1 : q.1 = k := by simpa using List.find?_some hf
    have hred : Option.map (fun (p : String × α) => (p.1, f p)) (some q) =
        some (q.1, f q) := rfl
    rw [hred]
    show some (f q) = some (f (k, q.2))
    have hq : q = (k, q.2) := Prod.ext hq1 rfl
    rw [← hq]

theorem alGet_map_entries_keys {α β : Type} (f : (String × α) → β)
    (m : List (String × α)) :
    (m.map (fun p => (p.1, f p))).map Prod.fst = m.map Prod.fst := by
  rw [List.map_map]
  rfl

theorem mem_filter_map_fst {α : Type} {m : List (String × α)}
    (hnd : (m.map Prod.fst).Nodup) (P : α → Bool) (x : String) :
    (x ∈ (m.filter (fun p => P p.2)).map Prod.fst) ↔
      ∃ v, alGet m x = some v ∧ P v = true := by
  constructor
  · intro hx
    obtain ⟨p, hp, hp1⟩ := List.mem_map.mp hx
    have hpm := List.mem_filter.mp hp
    refine ⟨p.2, ?_, hpm.2⟩
    have : alGet m p.1 = some p.2 := by
      apply alGet_of_mem_nodup hnd
      exact hpm.1
    rw [← hp1]
    exact this
  · rintro ⟨v, hget, hPv⟩
    have hmem := alGet_mem hget
    refine List.mem_map.mpr ⟨(x, v), ?_, rfl⟩
    exact List.mem_filter.mpr ⟨hmem, hPv⟩

theorem filter_concat_count {inc R : List String} {c : String}
    (hnd : inc.Nodup) (hcR : c ∉ R) :
    (inc.filter (fun x => decide (x ∈ R ++ [c]))).length =
      (inc.filter (fun x => decide (x ∈ R))).length +
        (if c ∈ inc then 1 else 0) := by
  induction inc with
  | nil => simp
  | cons a t ih =>
    have hat : a ∉ t := (List.nodup_cons.mp hnd).1
    have hih := ih (List.nodup_cons.mp hnd).2
    by_cases hac : a = c
    · subst hac
      rw [if_neg hat] at hih
      have h1 : decide (a ∈ R ++ [a]) = true := by simp
      have h2 : decide (a ∈ R) = false := by simp [hcR]
      rw [List.filter_cons_of_pos (p := fun x => decide (x ∈ R ++ [a])) h1,
        List.filter_cons_of_neg (p := fun x => decide (x ∈ R)) (by simp [hcR]),
        if_pos (List.mem_cons_self a t), List.length_cons]
      omega
    · have hca : c ≠ a := fun h => hac h.symm
      have hcmem : (c ∈ a :: t) ↔ (c ∈ t) := by
        constructor
        · intro h
          rcases List.mem_cons.mp h with h | h
          · exact absurd h hca
          · exact h
        · exact fun h => List.mem_cons_of_mem _ h
      have hite : (if c ∈ a :: t then 1 else 0) =
          (if c ∈ t then 1 else 0) := by
        by_cases hct : c ∈ t
        · rw [if_pos (hcmem.mpr hct), if_pos hct]
        · rw [if_neg (fun h => hct (hcmem.mp h)), if_neg hct]
      rw [hite]
      by_cases haR : a ∈ R
      · have h1 : decide (a ∈ R ++ [c]) = true := by simp [haR]
        have h2 : decide (a ∈ R) = true := by simp [haR]
        rw [List.filter_cons_of_pos (p := fun x => decide (x ∈ R ++ [c])) h1,
          List.filter_cons_of_pos (p := fun x => decide (x ∈ R)) h2,
          List.length_cons, List.length_cons]
        omega
      · have h1 : decide (a ∈ R ++ [c]) = false := by simp [haR, hac]
        have h2 : decide (a ∈ R) = false := by simp [haR]
        rw [List.filter_cons_of_neg (p := fun x => decide (x ∈ R ++ [c]))
            (by simp [haR, hac]),
          List.filter_cons_of_neg (p := fun x => decide (x ∈ R))
            (by simp [haR])]
        omega

theorem nodup_same_mem_length {l₁ l₂ : List String} (h1 : l₁.Nodup)
    (h2 : l₂.Nodup) (h : ∀ x, x ∈ l₁ ↔ x ∈ l₂) : l₁.length = l₂.length := by
  rw [← List.toFinset_card_of_nodup h1, ← List.toFinset_card_of_nodup h2]
  congr 1
  ext x
  simp [h x]

theorem kahnRelax_fold (outs : List String) :
    ∀ (d : List (String × Int)) (q : List String), outs.Nodup →
      (∀ o ∈ outs, o ∈ d.map Prod.fst) →
      ((outs.foldl kahnRelax (d, q)).1.map Prod.fst = d.map Prod.fst) ∧
      (∀ k, alGet (outs.foldl kahnRelax (d, q)).1 k =
        if k ∈ outs then (alGet d k).map (fun z => z - 1) else alGet d k) ∧
      (outs.foldl kahnRelax (d, q)).2 =
        q ++ outs.filter (fun o => (alGet d o).getD 1 = 1) := by
  induction outs with
  | nil =>
    intro d q _ _
    exact ⟨rfl, fun k => by simp, by simp⟩
  | cons o rest ih =>
    intro d q hnd hkeys
    have hor : o ∉ rest := (List.nodup_cons.mp hnd).1
    have hndr : rest.Nodup := (List.nodup_cons.mp hnd).2
    have hok : o ∈ d.map Prod.fst := hkeys o (List.mem_cons_self o rest)
    obtain ⟨z, hz⟩ : ∃ z, alGet d o = some z := by
      have : (alGet d o).isSome := (alGet_isSome_iff_mem_keys).mpr hok
      exact Option.isSome_iff_exists.mp this
    have hstep : kahnRelax (d, q) o =
        (alSet d o (z - 1), if z - 1 = 0 then q ++ [o] else q) := by
      unfold kahnRelax
      rw [hz]
      rfl
    rw [List.foldl_cons, hstep]
    have hkeys1 : (alSet d o (z - 1)).map Prod.fst = d.map Prod.fst :=
      alSet_keys_of_mem _ hok
    have hkeys2 : ∀ r ∈ rest, r ∈ (alSet d o (z - 1)).map Prod.fst := by
      intro r hr
      rw [hkeys1]
      exact hkeys r (List.mem_cons_of_mem _ hr)
    obtain ⟨ihk, ihpt, ihq⟩ := ih (alSet d o (z - 1))
      (if z - 1 = 0 then q ++ [o] else q) hndr hkeys2
    refine ⟨ihk.trans hkeys1, ?_, ?_⟩
    · intro k
      rw [ihpt k]
      by_cases hko : k = o
      · subst hko
        rw [if_neg hor, if_pos (List.mem_cons_self k rest)]
        rw [alGet_alSet_self, hz]
        rfl
      · by_cases hkr : k ∈ rest
        · rw [if_pos hkr, if_pos (List.mem_cons_of_mem _ hkr)]
          rw [alGet_alSet_ne _ _ hko]
        · rw [if_neg hkr, if_neg (by
            intro hm
            rcases List.mem_cons.mp hm with rfl | hm
            · exact hko rfl
            · exact hkr hm)]
          rw [alGet_alSet_ne _ _ hko]
    · rw [ihq]
      have hfc : rest.filter (fun r => (alGet (alSet d o (z - 1)) r).getD 1
          = 1) = rest.filter (fun r => (alGet d r).getD 1 = 1) := by
        apply List.filter_congr
        intro r hr
        have hro : r ≠ o := fun h => hor (h ▸ hr)
        rw [alGet_alSet_ne _ _ hro]
      rw [hfc]
      have hhead : (o :: rest).filter (fun r => (alGet d r).getD 1 = 1) =
          (if z - 1 = 0 then [o] else []) ++
            rest.filter (fun r => (alGet d r).getD 1 = 1) := by
        rw [List.filter_cons]
        have hcond : (decide ((alGet d o).getD 1 = 1)) = decide (z - 1 = 0) := by
          rw [hz]
          show decide (z = 1) = decide (z - 1 = 0)
          by_cases hz1 : z = 1
          · rw [decide_eq_true hz1, decide_eq_true (by omega)]
          · rw [decide_eq_false hz1, decide_eq_false (by omega)]
        rw [hcond]
        by_cases hz0 : z - 1 = 0
        · rw [decide_eq_true hz0, if_pos rfl, if_pos hz0]
          rfl
        · rw [decide_eq_false hz0]
          simp [hz0]
      rw [hhead]
      by_cases hz0 : z - 1 = 0
      · rw [if_pos hz0, if_pos hz0]
        simp
      · rw [if_neg hz0, if_neg hz0]
        simp

theorem kahnInv_step {g : DependencyGraph} (hwf : WFg g) {current : String}
    {rest : List String} {inDeg : List (String × Int)} {R : List String}
    (hinv : KahnInv g (current :: rest) inDeg R) {node : GraphNode}
    (halg : alGet g.nodes current = some node) :
    KahnInv g (node.outgoing.foldl kahnRelax (inDeg, rest)).2
      (node.outgoing.foldl kahnRelax (inDeg, rest)).1 (R ++ [current]) := by
  obtain ⟨h1, h2, h3, h4, h5, h6, h7⟩ := hinv
  obtain ⟨hnid, houtnd, hincnd, houtk, hinck⟩ := wfg_vals hwf current node halg
  have houtkeys : ∀ o ∈ node.outgoing, o ∈ inDeg.map Prod.fst := by
    intro o ho
    rw [h3]
    exact houtk o ho
  obtain ⟨hFk, hFpt, hFq⟩ :=
    kahnRelax_fold node.outgoing inDeg rest houtnd houtkeys
  have hcurR : current ∉ R := fun hc =>
    (List.nodup_append.mp h1).2.2 hc (List.mem_cons_self current rest)
  have hsome_of_key : ∀ k, k ∈ g.getAllNodes → ∃ nk,
      alGet g.nodes k = some nk := by
    intro k hk
    have : (alGet g.nodes k).isSome := by
      rw [alGet_isSome_iff_mem_keys]
      exact hk
    exact Option.isSome_iff_exists.mp this
  have hcur_in_inc : ∀ k nk, alGet g.nodes k = some nk →
      (k ∈ node.outgoing ↔ current ∈ nk.incoming) := by
    intro k nk halgk
    constructor
    · intro hko
      have hedge : edgeMem g current k = true := by
        rw [edgeMem_eq_true_iff]
        exact ⟨node, halg, hko⟩
      have hrev := (hwf.2.2 current k).mp hedge
      obtain ⟨n', hn', hmem⟩ := (revEdgeMem_eq_true_iff g current k).mp hrev
      rw [halgk] at hn'
      obtain rfl : nk = n' := Option.some.inj hn'
      exact hmem
    · intro hki
      have hrev : revEdgeMem g current k = true := by
        rw [revEdgeMem_eq_true_iff]
        exact ⟨nk, halgk, hki⟩
      have hedge := (hwf.2.2 current k).mpr hrev
      obtain ⟨n', hn', hmem⟩ := (edgeMem_eq_true_iff g current k).mp hedge
      rw [halg] at hn'
      obtain rfl : node = n' := Option.some.inj hn'
      exact hmem
  -- the new clause 4, proven first because clauses 5 and 6 reuse it
  have hC4 : ∀ k nk, alGet g.nodes k = some nk →
      alGet (node.outgoing.foldl kahnRelax (inDeg, rest)).1 k =
        some ((nk.incoming.length : Int) -
          ((nk.incoming.filter (fun x => x ∈ R ++ [current])).length : Int)) := by
    intro k nk halgk
    obtain ⟨_, _, hkincnd2, _, _⟩ := wfg_vals hwf k nk halgk
    have hcount := filter_concat_count (R := R) (c := current)
      hkincnd2 hcurR
    rw [hFpt k]
    by_cases hko : k ∈ node.outgoing
    · rw [if_pos hko, h4 k nk halgk]
      have hcin : current ∈ nk.incoming := (hcur_in_inc k nk halgk).mp hko
      rw [if_pos hcin] at hcount
      have hmap : Option.map (fun z => z - 1)
          (some ((nk.incoming.length : Int) -
            ((nk.incoming.filter (fun x => x ∈ R)).length : Int))) =
          some ((nk.incoming.length : Int) -
            ((nk.incoming.filter (fun x => x ∈ R)).length : Int) - 1) := rfl
      rw [hmap]
      congr 1
      omega
    · rw [if_neg hko, h4 k nk halgk]
      have hcin : current ∉ nk.incoming := fun hc =>
        hko ((hcur_in_inc k nk halgk).mpr hc)
      rw [if_neg hcin] at hcount
      congr 2
      omega
  have hnews : ∀ o, o ∈ node.outgoing.filter
      (fun o => (alGet inDeg o).getD 1 = 1) →
      o ∈ node.outgoing ∧ alGet inDeg o = some 1 := by
    intro o ho
    obtain ⟨ho1, hcond⟩ := List.mem_filter.mp ho
    refine ⟨ho1, ?_⟩
    obtain ⟨no, halgo⟩ := hsome_of_key o (houtk o ho1)
    rw [h4 o no halgo]
    rw [h4 o no halgo] at hcond
    have : ((some ((no.incoming.length : Int) -
        ((no.incoming.filter (fun x => x ∈ R)).length : Int))).getD 1) = 1 :=
      of_decide_eq_true hcond
    rw [Option.getD_some] at this
    rw [this]
  have hnews_notR : ∀ o, o ∈ node.outgoing.filter
      (fun o => (alGet inDeg o).getD 1 = 1) → o ∉ R := by
    intro o ho hoR
    obtain ⟨ho1, hval⟩ := hnews o ho
    obtain ⟨no, halgo⟩ := hsome_of_key o (houtk o ho1)
    have hallR : ∀ u ∈ no.incoming, u ∈ R :=
      fun u hu => (h7 o no hoR halgo u hu).1
    have hfs : no.incoming.filter (fun x => x ∈ R) = no.incoming := by
      rw [List.filter_eq_self]
      intro a ha
      exact decide_eq_true (hallR a ha)
    rw [h4 o no halgo, hfs] at hval
    have := Option.some.inj hval
    omega
  have hnews_notQ : ∀ o, o ∈ node.outgoing.filter
      (fun o => (alGet inDeg o).getD 1 = 1) → o ∉ current :: rest := by
    intro o ho hoQ
    obtain ⟨ho1, hval⟩ := hnews o ho
    obtain ⟨no, halgo⟩ := hsome_of_key o (houtk o ho1)
    have hallR : ∀ u ∈ no.incoming, u ∈ R :=
      fun u hu => h5 o hoQ no halgo u hu
    have hfs : no.incoming.filter (fun x => x ∈ R) = no.incoming := by
      rw [List.filter_eq_self]
      intro a ha
      exact decide_eq_true (hallR a ha)
    rw [h4 o no halgo, hfs] at hval
    have := Option.some.inj hval
    omega
  refine ⟨?_, ?_, hFk.trans h3, hC4, ?_, ?_, ?_⟩
  · -- uniqueness of R' ++ queue'
    rw [hFq]
    have hbase : ((R ++ [current]) ++ rest).Nodup := by
      rw [List.append_assoc]
      exact h1
    have hnodupnews : (node.outgoing.filter
        (fun o => (alGet inDeg o).getD 1 = 1)).Nodup :=
      List.Nodup.filter _ houtnd
    have hassoc : (R ++ [current]) ++ (rest ++ node.outgoing.filter
        (fun o => (alGet inDeg o).getD 1 = 1)) =
        ((R ++ [current]) ++ rest) ++ node.outgoing.filter
          (fun o => (alGet inDeg o).getD 1 = 1) := by
      simp
    rw [hassoc]
    rw [List.nodup_append]
    refine ⟨hbase, hnodupnews, ?_⟩
    intro a ha hanews
    rcases List.mem_append.mp ha with ha | ha
    · rcases List.mem_append.mp ha with ha | ha
      · exact hnews_notR a hanews ha
      · obtain rfl : a = current := by simpa using ha
        exact hnews_notQ a hanews (List.mem_cons_self a rest)
    · exact hnews_notQ a hanews (List.mem_cons_of_mem _ ha)
  · -- membership in the node set
    intro x hx
    rw [hFq] at hx
    rcases List.mem_append.mp hx with hx | hx
    · rcases List.mem_append.mp hx with hx | hx
      · exact h2 x (List.mem_append.mpr (Or.inl hx))
      · obtain rfl : x = current := by simpa using hx
        exact h2 x (List.mem_append.mpr (Or.inr (List.mem_cons_self x rest)))
    · rcases List.mem_append.mp hx with hx | hx
      · exact h2 x (List.mem_append.mpr (Or.inr (List.mem_cons_of_mem _ hx)))
      · exact houtk x (hnews x hx).1
  · -- queue elements have all predecessors emitted
    intro x hx n halgx u hu
    rw [hFq] at hx
    rcases List.mem_append.mp hx with hx | hx
    · exact List.mem_append.mpr (Or.inl
        (h5 x (List.mem_cons_of_mem _ hx) n halgx u hu))
    · obtain ⟨hxo, hx1⟩ := hnews x hx
      have hnew0 : alGet (node.outgoing.foldl kahnRelax (inDeg, rest)).1 x =
          some 0 := by
        rw [hFpt x, if_pos hxo, hx1]
        rfl
      rw [hC4 x n halgx] at hnew0
      have hz := Option.some.inj hnew0
      have hle : (n.incoming.filter (fun x => x ∈ R ++ [current])).length ≤
          n.incoming.length := List.length_filter_le _ _
      have hlen : (n.incoming.filter (fun x => x ∈ R ++ [current])).length =
          n.incoming.length := by omega
      have hfself : n.incoming.filter (fun x => x ∈ R ++ [current]) =
          n.incoming :=
        List.Sublist.eq_of_length (List.filter_sublist _) hlen
      have hall := List.filter_eq_self.mp hfself
      exact of_decide_eq_true (hall u hu)
  · -- zero in-degree nodes are emitted or queued
    intro k hk hk0
    obtain ⟨nk, halgk⟩ := hsome_of_key k hk
    rw [hFq]
    by_cases hko : k ∈ node.outgoing
    · have hold : alGet inDeg k = some ((nk.incoming.length : Int) -
          ((nk.incoming.filter (fun x => x ∈ R)).length : Int)) :=
        h4 k nk halgk
      rw [hFpt k, if_pos hko, hold] at hk0
      have hval : (nk.incoming.length : Int) -
          ((nk.incoming.filter (fun x => x ∈ R)).length : Int) - 1 = 0 := by
        have hmap : Option.map (fun z => z - 1)
            (some ((nk.incoming.length : Int) -
              ((nk.incoming.filter (fun x => x ∈ R)).length : Int))) =
            some ((nk.incoming.length : Int) -
              ((nk.incoming.filter (fun x => x ∈ R)).length : Int) - 1) := rfl
        rw [hmap] at hk0
        exact Option.some.inj hk0
      refine Or.inr (List.mem_append.mpr (Or.inr ?_))
      refine List.mem_filter.mpr ⟨hko, ?_⟩
      rw [hold]
      have : ((some ((nk.incoming.length : Int) -
          ((nk.incoming.filter (fun x => x ∈ R)).length : Int))).getD 1) =
          (nk.incoming.length : Int) -
            ((nk.incoming.filter (fun x => x ∈ R)).length : Int) := rfl
      rw [this]
      refine decide_eq_true ?_
      omega
    · rw [hFpt k, if_neg hko] at hk0
      rcases h6 k hk hk0 with hkR | hkQ
      · exact Or.inl (List.mem_append.mpr (Or.inl hkR))
      · rcases List.mem_cons.mp hkQ with rfl | hkr
        · exact Or.inl (List.mem_append.mpr (Or.inr (by simp)))
        · exact Or.inr (List.mem_append.mpr (Or.inl hkr))
  · -- emitted order respects incoming edges
    intro v n hv halgv u hu
    rcases List.mem_append.mp hv with hvR | hvc
    · obtain ⟨huR, hidx⟩ := h7 v n hvR halgv u hu
      refine ⟨List.mem_append.mpr (Or.inl huR), ?_⟩
      rw [List.indexOf_append_of_mem huR, List.indexOf_append_of_mem hvR]
      exact hidx
    · obtain rfl : v = current := by simpa using hvc
      have heq : node = n := by
        rw [halg] at halgv
        exact Option.some.inj halgv
      rw [← heq] at hu
      have huR : u ∈ R := h5 v (List.mem_cons_self v rest) node halg u hu
      refine ⟨List.mem_append.mpr (Or.inl huR), ?_⟩
      rw [List.indexOf_append_of_mem huR,
        List.indexOf_append_of_not_mem hcurR, List.indexOf_cons_self]
      have := List.indexOf_lt_length.mpr huR
      omega

theorem kahnLoop_sound (g : DependencyGraph) (hwf : WFg g) :
    ∀ (fuel : Nat) (queue : List String) (inDeg : List (String × Int))
      (R : List String), KahnInv g queue inDeg R →
      ∃ q' d', KahnInv g q' d' (kahnLoop g fuel queue inDeg R) := by
  intro fuel
  induction fuel with
  | zero =>
    intro queue inDeg R hinv
    exact ⟨queue, inDeg, hinv⟩
  | succ fuel ih =>
    intro queue inDeg R hinv
    cases queue with
    | nil =>
      simp only [kahnLoop]
      exact ⟨[], inDeg, hinv⟩
    | cons current rest =>
      have hcurk : current ∈ g.getAllNodes :=
        hinv.2.1 current (List.mem_append.mpr
          (Or.inr (List.mem_cons_self current rest)))
      have hsome : (alGet g.nodes current).isSome := by
        rw [alGet_isSome_iff_mem_keys]
        exact hcurk
      cases halg : alGet g.nodes current with
      | none => rw [halg] at hsome; simp at hsome
      | some node =>
        simp only [kahnLoop, halg]
        exact ih _ _ _ (kahnInv_step hwf hinv halg)

theorem kahnLoop_complete (g : DependencyGraph) (hwf : WFg g)
    (hnc : ¬ HasCycle g) :
    ∀ (fuel : Nat) (queue : List String) (inDeg : List (String × Int))
      (R : List String), KahnInv g queue inDeg R →
      g.getAllNodes.length + 1 ≤ fuel + R.length →
      ∀ k ∈ g.getAllNodes, k ∈ kahnLoop g fuel queue inDeg R := by
  intro fuel
  induction fuel with
  | zero =>
    intro queue inDeg R hinv hfuel
    have hnd : R.Nodup := (List.nodup_append.mp hinv.1).1
    have hsub : ∀ y ∈ R, y ∈ g.getAllNodes :=
      fun y hy => hinv.2.1 y (List.mem_append.mpr (Or.inl hy))
    have hle := (List.subperm_of_subset hnd hsub).length_le
    omega
  | succ fuel ih =>
    intro queue inDeg R hinv hfuel
    cases queue with
    | nil =>
      simp only [kahnLoop]
      intro k hk
      by_contra hkR
      refine absurd ?_ hnc
      refine hasCycle_of_pred g g.getAllNodes
        (fun y => y ∈ g.getAllNodes ∧ y ∉ R) (fun y hy => hy.1) k ⟨hk, hkR⟩ ?_
      intro y hy
      obtain ⟨hyk, hyR⟩ := hy
      have hsome : (alGet g.nodes y).isSome := by
        rw [alGet_isSome_iff_mem_keys]
        exact hyk
      obtain ⟨ny, halgy⟩ := Option.isSome_iff_exists.mp hsome
      have hval := hinv.2.2.2.1 y ny halgy
      have hnz : (ny.incoming.length : Int) -
          ((ny.incoming.filter (fun x => x ∈ R)).length : Int) ≠ 0 := by
        intro h0
        have hzero : alGet inDeg y = some 0 := by
          rw [hval]
          exact congrArg some h0
        rcases hinv.2.2.2.2.2.1 y hyk hzero with hyR2 | hyQ
        · exact hyR hyR2
        · simp at hyQ
      have hlt : (ny.incoming.filter (fun x => x ∈ R)).length ≤
          ny.incoming.length := List.length_filter_le _ _
      have hne : (ny.incoming.filter (fun x => x ∈ R)).length ≠
          ny.incoming.length := by
        intro heq
        exact hnz (by omega)
      obtain ⟨u, humem, huR⟩ : ∃ u ∈ ny.incoming, u ∉ R := by
        by_contra hall
        push_neg at hall
        have hfs : ny.incoming.filter (fun x => x ∈ R) = ny.incoming := by
          rw [List.filter_eq_self]
          intro a ha
          exact decide_eq_true (hall a ha)
        exact hne (by rw [hfs])
      obtain ⟨_, _, _, _, hinck⟩ := wfg_vals hwf y ny halgy
      refine ⟨u, ⟨hinck u humem, huR⟩, ?_⟩
      refine (hwf.2.2 u y).mpr ?_
      rw [revEdgeMem_eq_true_iff]
      exact ⟨ny, halgy, humem⟩
    | cons current rest =>
      have hcurk : current ∈ g.getAllNodes :=
        hinv.2.1 current (List.mem_append.mpr
          (Or.inr (List.mem_cons_self current rest)))
      have hsome : (alGet g.nodes current).isSome := by
        rw [alGet_isSome_iff_mem_keys]
        exact hcurk
      cases halg : alGet g.nodes current with
      | none => rw [halg] at hsome; simp at hsome
      | some node =>
        simp only [kahnLoop, halg]
        refine ih _ _ _ (kahnInv_step hwf hinv halg) ?_
        rw [List.length_append]
        simp
        omega

theorem kahnInv_init (g : DependencyGraph) (hwf : WFg g) :
    KahnInv g (kahnQueue0 g) (kahnInDeg0 g) [] := by
  have hkeys0 : (kahnInDeg0 g).map Prod.fst = g.getAllNodes := by
    unfold kahnInDeg0 DependencyGraph.getAllNodes
    exact alGet_map_entries_keys (fun p => (p.2.incoming.length : Int)) g.nodes
  have hget0 : ∀ k, alGet (kahnInDeg0 g) k =
      (alGet g.nodes k).map (fun n => (n.incoming.length : Int)) := by
    intro k
    unfold kahnInDeg0
    exact alGet_map_entries (fun p => (p.2.incoming.length : Int)) g.nodes k
  have hnodup0 : ((kahnInDeg0 g).map Prod.fst).Nodup := by
    rw [hkeys0]
    exact hwf.1
  refine ⟨?_, ?_, hkeys0, ?_, ?_, ?_, ?_⟩
  · show ([] ++ kahnQueue0 g).Nodup
    rw [List.nil_append]
    unfold kahnQueue0
    refine List.Nodup.sublist ?_ hnodup0
    exact List.Sublist.map Prod.fst (List.filter_sublist _)
  · intro x hx
    rw [List.nil_append] at hx
    unfold kahnQueue0 at hx
    obtain ⟨p, hp, hp1⟩ := List.mem_map.mp hx
    have hpm := (List.mem_filter.mp hp).1
    rw [← hkeys0]
    rw [← hp1]
    exact List.mem_map.mpr ⟨p, hpm, rfl⟩
  · intro k n halgk
    rw [hget0 k, halgk]
    have hfe : n.incoming.filter (fun x => x ∈ ([] : List String)) = [] := by
      simp
    rw [hfe]
    simp
  · intro x hx n halgx u hu
    obtain ⟨v, hgetv, hPv⟩ := (mem_filter_map_fst hnodup0
      (fun z => decide (z = 0)) x).mp hx
    rw [hget0 x, halgx] at hgetv
    have hv : ((n.incoming.length : Int)) = v := by
      have h2 : Option.map (fun n => ((n.incoming.length : Nat) : Int))
          (some n) = some ((n.incoming.length : Int)) := rfl
      rw [h2] at hgetv
      exact Option.some.inj hgetv
    have hv0 : v = 0 := of_decide_eq_true hPv
    have hlen0 : n.incoming.length = 0 := by
      rw [hv0] at hv
      exact_mod_cast hv
    rw [List.eq_nil_of_length_eq_zero hlen0] at hu
    simp at hu
  · intro k hk h0
    right
    have hsome : (alGet g.nodes k).isSome := by
      rw [alGet_isSome_iff_mem_keys]
      exact hk
    obtain ⟨n, halgk⟩ := Option.isSome_iff_exists.mp hsome
    refine (mem_filter_map_fst hnodup0 (fun z => decide (z = 0)) k).mpr
      ⟨0, h0, by simp⟩
  · intro v n hv
    simp at hv

theorem topologicalSort_spec {g : DependencyGraph} (hwf : WFg g)
    {l : List String} (h : g.topologicalSort = some l) :
    (∀ k, k ∈ g.getAllNodes ↔ k ∈ l) ∧ l.Nodup ∧
      (∀ u v, edgeMem g u v = true → l.indexOf u < l.indexOf v) := by
  rw [topologicalSort_eq] at h
  by_cases hlen : (kahnLoop g (g.nodes.length + 1) (kahnQueue0 g)
      (kahnInDeg0 g) []).length = g.nodes.length
  · rw [if_pos hlen] at h
    obtain rfl : kahnLoop g (g.nodes.length + 1) (kahnQueue0 g)
        (kahnInDeg0 g) [] = l := Option.some.inj h
    obtain ⟨q', d', hinv'⟩ := kahnLoop_sound g hwf (g.nodes.length + 1)
      (kahnQueue0 g) (kahnInDeg0 g) [] (kahnInv_init g hwf)
    have hnd : (kahnLoop g (g.nodes.length + 1) (kahnQueue0 g)
        (kahnInDeg0 g) []).Nodup := (List.nodup_append.mp hinv'.1).1
    have hsub : ∀ x ∈ kahnLoop g (g.nodes.length + 1) (kahnQueue0 g)
        (kahnInDeg0 g) [], x ∈ g.getAllNodes :=
      fun x hx => hinv'.2.1 x (List.mem_append.mpr (Or.inl hx))
    have hklen : g.getAllNodes.length = g.nodes.length := by
      unfold DependencyGraph.getAllNodes
      exact List.length_map _ _
    have hperm := (List.subperm_of_subset hnd hsub).perm_of_length_le
      (by omega)
    have hmem : ∀ k, k ∈ g.getAllNodes ↔ k ∈ kahnLoop g
        (g.nodes.length + 1) (kahnQueue0 g) (kahnInDeg0 g) [] :=
      fun k => (hperm.mem_iff).symm
    refine ⟨hmem, hnd, ?_⟩
    intro u v he
    obtain ⟨n, hn, hvout⟩ := (edgeMem_eq_true_iff g u v).mp he
    have hvk : v ∈ g.getAllNodes := (wfg_vals hwf u n hn).2.2.2.1 v hvout
    have hsomev : (alGet g.nodes v).isSome := by
      rw [alGet_isSome_iff_mem_keys]
      exact hvk
    obtain ⟨nv, halgv⟩ := Option.isSome_iff_exists.mp hsomev
    have huinc : u ∈ nv.incoming := by
      have hrev := (hwf.2.2 u v).mp he
      obtain ⟨n', hn', hmem'⟩ := (revEdgeMem_eq_true_iff g u v).mp hrev
      rw [halgv] at hn'
      obtain rfl : nv = n' := Option.some.inj hn'
      exact hmem'
    exact (hinv'.2.2.2.2.2.2 v nv ((hmem v).mp hvk) halgv u huinc).2
  · rw [if_neg hlen] at h
    simp at h

theorem topologicalSort_none_of_cycle {g : DependencyGraph} (hwf : WFg g)
    (hc : HasCycle g) : g.topologicalSort = none := by
  cases hsort : g.topologicalSort with
  | none => rfl
  | some l =>
    obtain ⟨hmem, hnd, hord⟩ := topologicalSort_spec hwf hsort
    refine absurd hc (no_cycle_of_topo_ord (L := l) ?_)
    intro u v he
    obtain ⟨n, hn, hvout⟩ := (edgeMem_eq_true_iff g u v).mp he
    have hvk : v ∈ g.getAllNodes := (wfg_vals hwf u n hn).2.2.2.1 v hvout
    exact ⟨(hmem u).mp (edgeMem_src_mem he), (hmem v).mp hvk, hord u v he⟩

theorem topologicalSort_some_of_acyclic {g : DependencyGraph} (hwf : WFg g)
    (hnc : ¬ HasCycle g) : ∃ l, g.topologicalSort = some l := by
  rw [topologicalSort_eq]
  have hklen : g.getAllNodes.length = g.nodes.length := by
    unfold DependencyGraph.getAllNodes
    exact List.length_map _ _
  have hall := kahnLoop_complete g hwf hnc (g.nodes.length + 1)
    (kahnQueue0 g) (kahnInDeg0 g) [] (kahnInv_init g hwf) (by simp; omega)
  obtain ⟨q', d', hinv'⟩ := kahnLoop_sound g hwf (g.nodes.length + 1)
    (kahnQueue0 g) (kahnInDeg0 g) [] (kahnInv_init g hwf)
  have hnd : (kahnLoop g (g.nodes.length + 1) (kahnQueue0 g)
      (kahnInDeg0 g) []).Nodup := (List.nodup_append.mp hinv'.1).1
  have hsub : ∀ x ∈ kahnLoop g (g.nodes.length + 1) (kahnQueue0 g)
      (kahnInDeg0 g) [], x ∈ g.getAllNodes :=
    fun x hx => hinv'.2.1 x (List.mem_append.mpr (Or.inl hx))
  have hleneq : (kahnLoop g (g.nodes.length + 1) (kahnQueue0 g)
      (kahnInDeg0 g) []).length = g.getAllNodes.length :=
    nodup_same_mem_length hnd hwf.1
      (fun x => ⟨fun hx => hsub x hx, fun hx => hall x hx⟩)
  rw [hklen] at hleneq
  rw [if_pos hleneq]
  exact ⟨_, rfl⟩

-- ============================================================
-- addEdge idempotence, duplicate collapse, edge counting
-- ============================================================

theorem ensureNode_of_isSome {g : DependencyGraph} {x : String}
    (h : (alGet g.nodes x).isSome) : g.ensureNode x = g := by
  unfold DependencyGraph.ensureNode
  rw [if_pos h]

theorem addEdge_addEdge (g : DependencyGraph) (s t : String) :
    (g.addEdge s t).addEdge s t = g.addEdge s t := by
  have hsmem : (alGet (g.addEdge s t).nodes s).isSome := by
    rw [alGet_isSome_iff_mem_keys]
    exact (mem_keys_addEdge g s t s).mpr (Or.inr (Or.inl rfl))
  have htmem : (alGet (g.addEdge s t).nodes t).isSome := by
    rw [alGet_isSome_iff_mem_keys]
    exact (mem_keys_addEdge g s t t).mpr (Or.inr (Or.inr rfl))
  have hL : (g.addEdge s t).addEdge s t =
      DependencyGraph.mk
        (List.map
          (fun p => if p.1 = t then
            (p.1, { p.2 with incoming := listSetAdd p.2.incoming s })
            else p)
          (List.map
            (fun p => if p.1 = s then
              (p.1, { p.2 with outgoing := listSetAdd p.2.outgoing t })
              else p)
            (((g.addEdge s t).ensureNode s).ensureNode t).nodes)) := rfl
  rw [hL, ensureNode_of_isSome hsmem, ensureNode_of_isSome htmem]
  have hR : g.addEdge s t =
      DependencyGraph.mk
        (List.map
          (fun p => if p.1 = t then
            (p.1, { p.2 with incoming := listSetAdd p.2.incoming s })
            else p)
          (List.map
            (fun p => if p.1 = s then
              (p.1, { p.2 with outgoing := listSetAdd p.2.outgoing t })
              else p)
            ((g.ensureNode s).ensureNode t).nodes)) := rfl
  conv_lhs => rw [hR]
  conv_rhs => rw [hR]
  congr 1
  rw [List.map_map, List.map_map, List.map_map, List.map_map]
  apply List.map_congr_left
  intro p _
  obtain ⟨k, n⟩ := p
  by_cases hks : k = s
  · by_cases hkt : k = t
    · have hst : s = t := hks.symm.trans hkt
      simp [Function.comp, hks, hkt, hst, listSetAdd_eq_self, listSetAdd_mem]
    · have hst : ¬ s = t := fun h => hkt (hks.trans h)
      have hts : ¬ t = s := fun h => hst h.symm
      simp [Function.comp, hks, hkt, hst, hts, listSetAdd_eq_self,
        listSetAdd_mem]
  · by_cases hkt : k = t
    · have hst : ¬ s = t := fun h => hks (hkt.trans h.symm)
      have hts : ¬ t = s := fun h => hst h.symm
      simp [Function.comp, hks, hkt, hst, hts, listSetAdd_eq_self,
        listSetAdd_mem]
    · simp [Function.comp, hks, hkt]

theorem addEdge_noop {g : DependencyGraph} {s t : String}
    (hnd : (g.getAllNodes).Nodup) (he : edgeMem g s t = true)
    (hr : revEdgeMem g s t = true) : g.addEdge s t = g := by
  obtain ⟨ns, hns, htout⟩ := (edgeMem_eq_true_iff g s t).mp he
  obtain ⟨nt, hnt, hsin⟩ := (revEdgeMem_eq_true_iff g s t).mp hr
  have hsmem : (alGet g.nodes s).isSome := by rw [hns]; rfl
  have htmem : (alGet g.nodes t).isSome := by rw [hnt]; rfl
  have hL : g.addEdge s t =
      DependencyGraph.mk
        (List.map
          (fun p => if p.1 = t then
            (p.1, { p.2 with incoming := listSetAdd p.2.incoming s })
            else p)
          (List.map
            (fun p => if p.1 = s then
              (p.1, { p.2 with outgoing := listSetAdd p.2.outgoing t })
              else p)
            ((g.ensureNode s).ensureNode t).nodes)) := rfl
  rw [hL, ensureNode_of_isSome hsmem, ensureNode_of_isSome htmem]
  have h1 : g.nodes.map
      (fun p => if p.1 = s then
        (p.1, { p.2 with outgoing := listSetAdd p.2.outgoing t })
        else p) = g.nodes := by
    have hmid : g.nodes.map
        (fun p => if p.1 = s then
          (p.1, { p.2 with outgoing := listSetAdd p.2.outgoing t })
          else p) = g.nodes.map id := by
      apply List.map_congr_left
      intro p hp
      by_cases hps : p.1 = s
      · have hget : alGet g.nodes p.1 = some p.2 := by
          apply alGet_of_mem_nodup hnd
          obtain ⟨a, b⟩ := p
          exact hp
        rw [hps] at hget
        rw [hns] at hget
        obtain rfl : ns = p.2 := Option.some.inj hget
        rw [if_pos hps, listSetAdd_eq_self htout]
        rfl
      · rw [if_neg hps]
        rfl
    rw [hmid, List.map_id]
  have h2 : g.nodes.map
      (fun p => if p.1 = t then
        (p.1, { p.2 with incoming := listSetAdd p.2.incoming s })
        else p) = g.nodes := by
    have hmid : g.nodes.map
        (fun p => if p.1 = t then
          (p.1, { p.2 with incoming := listSetAdd p.2.incoming s })
          else p) = g.nodes.map id := by
      apply List.map_congr_left
      intro p hp
      by_cases hpt : p.1 = t
      · have hget : alGet g.nodes p.1 = some p.2 := by
          apply alGet_of_mem_nodup hnd
          obtain ⟨a, b⟩ := p
          exact hp
        rw [hpt] at hget
        rw [hnt] at hget
        obtain rfl : nt = p.2 := Option.some.inj hget
        rw [if_pos hpt, listSetAdd_eq_self hsin]
        rfl
      · rw [if_neg hpt]
        rfl
    rw [hmid, List.map_id]
  rw [h1, h2]

theorem edgeMem_fromImports (es : List ImportEdge) (u v : String) :
    edgeMem (DependencyGraph.fromImports es) u v = true ↔
      (u, v) ∈ es.map (fun e => (e.source, e.target)) := by
  rw [fromImports_eq_buildGraph, edgeMem_buildGraph]

theorem fromImports_dup_collapse (es₁ es₂ : List ImportEdge)
    (e : ImportEdge)
    (hm : (e.source, e.target) ∈ es₁.map (fun e => (e.source, e.target))) :
    DependencyGraph.fromImports (es₁ ++ e :: es₂) =
      DependencyGraph.fromImports (es₁ ++ es₂) := by
  have hwf1 := fromImports_wfg es₁
  have he : edgeMem (DependencyGraph.fromImports es₁) e.source e.target =
      true := (edgeMem_fromImports es₁ e.source e.target).mpr hm
  have hr : revEdgeMem (DependencyGraph.fromImports es₁) e.source e.target =
      true := (hwf1.2.2 e.source e.target).mp he
  have hnoop : (DependencyGraph.fromImports es₁).addEdge e.source e.target =
      DependencyGraph.fromImports es₁ := addEdge_noop hwf1.1 he hr
  show (es₁ ++ e :: es₂).foldl
      (fun (g : DependencyGraph) (e : ImportEdge) =>
        g.addEdge e.source e.target) ({ nodes := [] } : DependencyGraph) =
    (es₁ ++ es₂).foldl
      (fun (g : DependencyGraph) (e : ImportEdge) =>
        g.addEdge e.source e.target) ({ nodes := [] } : DependencyGraph)
  rw [List.foldl_append, List.foldl_append, List.foldl_cons]
  show es₂.foldl
      (fun (g : DependencyGraph) (e : ImportEdge) =>
        g.addEdge e.source e.target)
      ((DependencyGraph.fromImports es₁).addEdge e.source e.target) =
    es₂.foldl
      (fun (g : DependencyGraph) (e : ImportEdge) =>
        g.addEdge e.source e.target) (DependencyGraph.fromImports es₁)
  rw [hnoop]

theorem nodup_same_mem_len {α : Type} [DecidableEq α] {l₁ l₂ : List α}
    (h1 : l₁.Nodup) (h2 : l₂.Nodup) (h : ∀ x, x ∈ l₁ ↔ x ∈ l₂) :
    l₁.length = l₂.length := by
  rw [← List.toFinset_card_of_nodup h1, ← List.toFinset_card_of_nodup h2]
  congr 1
  ext x
  simp [h x]

theorem edgeCount_eq_graphEdges (g : DependencyGraph) :
    g.edgeCount = (graphEdges g).length := by
  unfold DependencyGraph.edgeCount graphEdges
  rw [foldl_add_eq_sum (fun p => p.2.outgoing.length) g.nodes 0,
    List.length_flatMap]
  have hcong : g.nodes.map
      (fun p => (p.2.outgoing.map (fun t => (p.1, t))).length) =
      g.nodes.map (fun p => p.2.outgoing.length) := by
    apply List.map_congr_left
    intro p _
    rw [List.length_map]
  simp only [Function.comp_def]
  rw [hcong]
  omega

theorem graphEdges_nodup {g : DependencyGraph} (hwf : WFg g) :
    (graphEdges g).Nodup := by
  unfold graphEdges
  have hgen : ∀ m : List (String × GraphNode), (m.map Prod.fst).Nodup →
      (∀ p ∈ m, p.2.outgoing.Nodup) →
      (m.flatMap (fun p => p.2.outgoing.map (fun t => (p.1, t)))).Nodup := by
    intro m
    induction m with
    | nil => intro _ _; simp
    | cons p rest ih =>
      intro hnd hout
      rw [List.flatMap_cons, List.nodup_append]
      refine ⟨?_, ?_, ?_⟩
      · refine List.Nodup.map ?_ (hout p (List.mem_cons_self p rest))
        intro a b hab
        exact (Prod.mk.injEq _ _ _ _).mp hab |>.2
      · exact ih (List.nodup_cons.mp hnd).2
          (fun q hq => hout q (List.mem_cons_of_mem _ hq))
      · intro a ha hb
        obtain ⟨t1, _, rfl⟩ := List.mem_map.mp ha
        obtain ⟨q, hq, hq2⟩ := List.mem_flatMap.mp hb
        obtain ⟨t2, _, heq⟩ := List.mem_map.mp hq2
        have hfst : p.1 = q.1 := ((Prod.mk.injEq _ _ _ _).mp heq.symm).1
        exact (List.nodup_cons.mp hnd).1
          (hfst ▸ List.mem_map.mpr ⟨q, hq, rfl⟩)
  exact hgen g.nodes hwf.1 (fun p hp => (hwf.2.1 p hp).2.1)

theorem graphEdges_mem {g : DependencyGraph} (hnd : (g.getAllNodes).Nodup)
    (u v : String) :
    (u, v) ∈ graphEdges g ↔ edgeMem g u v = true := by
  unfold graphEdges
  rw [List.mem_flatMap, edgeMem_eq_true_iff]
  constructor
  · rintro ⟨p, hp, hmem⟩
    obtain ⟨t1, ht1, heq⟩ := List.mem_map.mp hmem
    have hfst : p.1 = u := ((Prod.mk.injEq _ _ _ _).mp heq).1
    have hsnd : t1 = v := ((Prod.mk.injEq _ _ _ _).mp heq).2
    refine ⟨p.2, ?_, hsnd ▸ ht1⟩
    rw [← hfst]
    apply alGet_of_mem_nodup hnd
    obtain ⟨a, b⟩ := p
    exact hp
  · rintro ⟨n, hn, hv⟩
    exact ⟨(u, n), alGet_mem hn, List.mem_map.mpr ⟨v, hv, rfl⟩⟩

theorem fromImports_edgeCount (es : List ImportEdge) :
    (DependencyGraph.fromImports es).edgeCount =
      ((es.map (fun e => (e.source, e.target))).dedup).length := by
  have hwf := fromImports_wfg es
  rw [edgeCount_eq_graphEdges]
  refine nodup_same_mem_len (graphEdges_nodup hwf) (List.nodup_dedup _) ?_
  intro x
  obtain ⟨u, v⟩ := x
  rw [List.mem_dedup, graphEdges_mem hwf.1, edgeMem_fromImports]

-- ============================================================
-- Claim theorems C1, C6, C10
-- ============================================================

/-- C1: for every dependency graph — any finite sequence of `addEdge` calls
starting from the empty graph — `detectCycles` returns a non-empty list of
cycles if and only if `topologicalSort` returns `null`. -/
theorem detectCycles_iff_topologicalSort_none (ps : List (String × String)) :
    (buildGraph ps).detectCycles ≠ [] ↔
      (buildGraph ps).topologicalSort = none := by
  have hwf := buildGraph_wfg ps
  constructor
  · intro h
    exact topologicalSort_none_of_cycle hwf (hasCycle_of_detect h)
  · intro hnone hdc
    have hnc := detectCycles_complete _ hwf hdc
    obtain ⟨l, hl⟩ := topologicalSort_some_of_acyclic hwf hnc
    rw [hl] at hnone
    simp at hnone

/-- C6: whenever `topologicalSort` returns a non-null list on a graph built
by `addEdge` calls, that list contains every node of the graph exactly once
(membership coincides with the node set and the list is duplicate-free), and
for every edge `u → v`, `u` appears at a strictly smaller index than `v`. -/
theorem topologicalSort_valid_linearization (ps : List (String × String))
    (l : List String)
    (h : (buildGraph ps).topologicalSort = some l) :
    (∀ k, k ∈ (buildGraph ps).getAllNodes ↔ k ∈ l) ∧ l.Nodup ∧
      (∀ u v, edgeMem (buildGraph ps) u v = true →
        l.indexOf u < l.indexOf v) :=
  topologicalSort_spec (buildGraph_wfg ps) h

/-- Witness for C6 on the diamond graph a → b, a → c, b → d, c → d. -/
theorem topologicalSort_valid_linearization_witness :
    (buildGraph [("a", "b"), ("a", "c"), ("b", "d"),
        ("c", "d")]).topologicalSort = some ["a", "b", "c", "d"] ∧
    ((∀ k, k ∈ (buildGraph [("a", "b"), ("a", "c"), ("b", "d"),
        ("c", "d")]).getAllNodes ↔ k ∈ ["a", "b", "c", "d"]) ∧
      (["a", "b", "c", "d"] : List String).Nodup ∧
      (∀ u v, edgeMem (buildGraph [("a", "b"), ("a", "c"), ("b", "d"),
          ("c", "d")]) u v = true →
        (["a", "b", "c", "d"] : List String).indexOf u <
          (["a", "b", "c", "d"] : List String).indexOf v)) :=
  ⟨by decide, topologicalSort_valid_linearization
    [("a", "b"), ("a", "c"), ("b", "d"), ("c", "d")] ["a", "b", "c", "d"]
    (by decide)⟩

/-- C10: `addEdge` is idempotent (outgoing/incoming adjacency are sets), so
`fromImports` collapses duplicate import records — a record whose
(source, target) pair already occurred earlier can be dropped without
changing the graph — and `edgeCount` counts distinct ordered
(source, target) pairs, not import records. -/
theorem addEdge_idem_fromImports_dedup_edgeCount :
    (∀ (g : DependencyGraph) (s t : String),
      (g.addEdge s t).addEdge s t = g.addEdge s t) ∧
    (∀ (es₁ es₂ : List ImportEdge) (e : ImportEdge),
      (e.source, e.target) ∈ es₁.map (fun e => (e.source, e.target)) →
      DependencyGraph.fromImports (es₁ ++ e :: es₂) =
        DependencyGraph.fromImports (es₁ ++ es₂)) ∧
    (∀ es : List ImportEdge,
      (DependencyGraph.fromImports es).edgeCount =
        ((es.map (fun e => (e.source, e.target))).dedup).length) :=
  ⟨addEdge_addEdge, fromImports_dup_collapse, fromImports_edgeCount⟩

/-- Witness for C10 on a concrete duplicated import a → b. -/
theorem addEdge_idem_fromImports_dedup_edgeCount_witness :
    (("a", "b") ∈ ([⟨"a", "b", [], false⟩] : List ImportEdge).map
      (fun e => (e.source, e.target))) ∧
    ((({ nodes := [] } : DependencyGraph).addEdge "a" "b").addEdge "a" "b" =
      ({ nodes := [] } : DependencyGraph).addEdge "a" "b") ∧
    (DependencyGraph.fromImports
        (([⟨"a", "b", [], false⟩] : List ImportEdge) ++
          (⟨"a", "b", [], false⟩ : ImportEdge) :: []) =
      DependencyGraph.fromImports
        (([⟨"a", "b", [], false⟩] : List ImportEdge) ++ [])) ∧
    ((DependencyGraph.fromImports
        ([⟨"a", "b", [], false⟩, ⟨"a", "b", [], false⟩] :
          List ImportEdge)).edgeCount =
      ((([⟨"a", "b", [], false⟩, ⟨"a", "b", [], false⟩] :
          List ImportEdge).map (fun e => (e.source, e.target))).dedup).length)
    :=
  ⟨by decide,
    addEdge_idem_fromImports_dedup_edgeCount.1 { nodes := [] } "a" "b",
    addEdge_idem_fromImports_dedup_edgeCount.2.1 [⟨"a", "b", [], false⟩] []
      ⟨"a", "b", [], false⟩ (by decide),
    addEdge_idem_fromImports_dedup_edgeCount.2.2
      [⟨"a", "b", [], false⟩, ⟨"a", "b", [], false⟩]⟩
